import Mathlib

/-!
# Huffman compressor (`huffman.cpp`, `main.cpp`): embedding and properties

Conventions of the embedding.

* A `char` / byte is a `Nat` (its value `0..255` as an unsigned byte); a file is a `List Nat`.
* A bit string (`std::string` over the characters `'0'` and `'1'`, the only ones the program
  ever appends) is a `List Bool`, `'1'` being `true`.
* `int` is an `Int`; the additions the program performs on `int` are wrapped to 32 bits
  (`wrapInt`).
* `std::unordered_map<char, V>` is an association list with distinct keys, kept in insertion
  order. The order in which a range-`for` enumerates a map is not fixed by the language: it is
  an explicit parameter `iter` (a function that permutes the entries, see `Enumerates`).
* `std::priority_queue<Node*, std::vector<Node*>, Compare>` is the list of its elements kept in
  priority order: `top` is the head, `pop` drops it, `push` inserts the new element in front of
  the first element that `Compare` ranks after it.
* A thrown exception or undefined behaviour is a `Fault` in `Except`.
-/

namespace Huffman

/-- The ways a run ends without a value. -/
inductive Fault where
  /-- A thrown `std::runtime_error(what)`. -/
  | runtimeError (what : String)
  /-- The `std::out_of_range` thrown by `unordered_map::at`. -/
  | outOfRange
  /-- Undefined behaviour: `top()` of an empty queue, a null pointer dereference. -/
  | undefined
  /-- The program prints `message` to `std::cerr` and `main` returns 1. -/
  | exitFailure (message : String)
  deriving DecidableEq, Repr

/-- A value of type `Node*`: the null pointer, or the address of a `Node` with its fields
`ch`, `freq`, `left`, `right`, `id`. -/
inductive Node where
  | null : Node
  | mk (ch : Nat) (freq : Int) (left right : Node) (id : Int) : Node
  deriving DecidableEq, Repr

/-- Field `freq` (0 stands for the read through a null pointer, which the program never does). -/
def Node.freq : Node → Int
  | .null => 0
  | .mk _ f _ _ _ => f

/-- Field `id`, an `int`. -/
def Node.id : Node → Int
  | .null => 0
  | .mk _ _ _ _ i => i

/-- Field `ch`. -/
def Node.ch : Node → Nat
  | .null => 0
  | .mk c _ _ _ _ => c

/-- Field `left`. -/
def Node.left : Node → Node
  | .null => .null
  | .mk _ _ l _ _ => l

/-- Field `right`. -/
def Node.right : Node → Node
  | .null => .null
  | .mk _ _ _ r _ => r

/-- The test `!root->left && !root->right` on a non-null pointer. -/
def Node.isLeaf : Node → Bool
  | .mk _ _ .null .null _ => true
  | _ => false

/-- Two's complement wrap-around of an `int` result to 32 bits. -/
def wrapInt (x : Int) : Int := (x + 2147483648) % 4294967296 - 2147483648

/-- The comparator `Compare::operator()`. -/
def Compare (a b : Node) : Bool :=
  if a.freq = b.freq then decide (a.id > b.id) else decide (a.freq > b.freq)

/-- The call `minHeap.push(n)`: the queue is kept in priority order. -/
def push : List Node → Node → List Node
  | [], n => [n]
  | x :: rest, n => if Compare x n then n :: x :: rest else x :: push rest n

/-- The type `std::unordered_map<char, int>` as the list of its entries. -/
abbrev FreqMap := List (Nat × Int)

/-- The type `std::unordered_map<char, std::string>` as the list of its entries. -/
abbrev CodeMap := List (Nat × List Bool)

/-- The assignment `m[key] = value`: overwrite the entry of `key`, or add a new entry. -/
def assign {α : Type} : List (Nat × α) → Nat → α → List (Nat × α)
  | [], key, value => [(key, value)]
  | (k, v) :: rest, key, value =>
      if k = key then (k, value) :: rest else (k, v) :: assign rest key value

/-- The lookup `m.find(key)`. -/
def find {α : Type} : List (Nat × α) → Nat → Option α
  | [], _ => none
  | (k, v) :: rest, key => if k = key then some v else find rest key

/-- The statement `freqMap[c]++`: a missing entry is created with value 0 first. -/
def increment (freqMap : FreqMap) (c : Nat) : FreqMap :=
  assign freqMap c (wrapInt ((find freqMap c).getD 0 + 1))

/-- The loop `for (char c : text) freqMap[c]++;` of `main`. -/
def countFrequencies (text : List Nat) : FreqMap :=
  text.foldl increment []

/-- An enumeration order of maps: a range-`for` visits every entry once. -/
def Enumerates (iter : FreqMap → FreqMap) : Prop := ∀ m, (iter m).Perm m

/-- The first loop of `buildHuffmanTree`: one leaf per enumerated entry. The static counter
`Node::globalId` is an `int` that starts at 0 and is only ever incremented: its state is kept
as the number `globalId` of increments so far, and the `int` it holds, which `id(globalId++)`
stores in the node, is `wrapInt globalId`. -/
def pushLeaves : List (Nat × Int) → Nat → List Node → List Node × Nat
  | [], globalId, minHeap => (minHeap, globalId)
  | (ch, freq) :: rest, globalId, minHeap =>
      pushLeaves rest (globalId + 1)
        (push minHeap (Node.mk ch freq .null .null (wrapInt globalId)))

/-- The node `merged` built by one round of the `while` loop; its id is the `int` held by the
counter after `globalId` increments. -/
def mergeNodes (left right : Node) (globalId : Nat) : Node :=
  Node.mk 0 (wrapInt (left.freq + right.freq)) left right (wrapInt globalId)

/-- The loop `while (minHeap.size() > 1)` run for at most `rounds` rounds. -/
def mergeRounds : Nat → Nat → List Node → List Node × Nat
  | rounds + 1, globalId, left :: right :: rest =>
      mergeRounds rounds (globalId + 1) (push rest (mergeNodes left right globalId))
  | _, globalId, minHeap => (minHeap, globalId)

/-- The loop `while (minHeap.size() > 1)`: every round removes one element, so
`minHeap.size()` rounds are enough (`mergeLoop_cons_cons`). -/
def mergeLoop (globalId : Nat) (minHeap : List Node) : List Node × Nat :=
  mergeRounds minHeap.length globalId minHeap

/-- The function `buildHuffmanTree`, on the entries of `freqMap` in the order the range-`for`
enumerates them. The state of the static counter `Node::globalId` (the number of increments
so far, see `pushLeaves`) is passed in and returned. -/
def buildHuffmanTree (globalId : Nat) (freqMap : List (Nat × Int)) :
    Except Fault (Node × Nat) :=
  let (minHeap, globalId) := pushLeaves freqMap globalId []
  match mergeLoop globalId minHeap with
  | ([], _) => .error .undefined
  | (root :: _, globalId) => .ok (root, globalId)

/-- The function `generateCodes`. -/
def generateCodes : Node → List Bool → CodeMap → CodeMap
  | .null, _, codes => codes
  | .mk ch f left right i, path, codes =>
      if (Node.mk ch f left right i).isLeaf then assign codes ch path
      else generateCodes right (path ++ [true]) (generateCodes left (path ++ [false]) codes)

/-- The function `encodeText`; `codes.at(c)` throws when `c` has no entry. -/
def encodeText : List Nat → CodeMap → Except Fault (List Bool)
  | [], _ => .ok []
  | c :: text, codes =>
      match find codes c with
      | none => .error .outOfRange
      | some code =>
          match encodeText text codes with
          | .error e => .error e
          | .ok result => .ok (code ++ result)

/-- The four bytes `out.write` copies from an `int` (native byte order, taken to be
little-endian two's complement): least significant first. -/
def intBytes (freq : Int) : List Nat :=
  let u := (freq % 4294967296).toNat
  [u % 256, u / 256 % 256, u / 65536 % 256, u / 16777216 % 256]

/-- The `int` that `in.read` stores from four bytes, least significant first. -/
def bytesInt (b0 b1 b2 b3 : Nat) : Int :=
  wrapInt ((b0 % 256 + 256 * (b1 % 256) + 65536 * (b2 % 256) + 16777216 * (b3 % 256) : Nat) : Int)

/-- The packing loop of `writeCompressedFile` with its final flush; `count` and `byte` are
the loop variables. -/
def packLoop : List Bool → Nat → Nat → List Nat
  | [], count, byte => if count > 0 then [(byte <<< (8 - count)) % 256] else []
  | bit :: rest, count, byte =>
      let byte := ((byte <<< 1) ||| bit.toNat) % 256
      let count := count + 1
      if count = 8 then byte :: packLoop rest 0 0 else packLoop rest count byte

/-- The payload bytes `writeCompressedFile` writes for `bitstring`. -/
def packBits (bitstring : List Bool) : List Nat := packLoop bitstring 0 0

/-- The header bytes `writeCompressedFile` writes for the enumerated entries. -/
def headerBytes (freqMap : List (Nat × Int)) : List Nat :=
  (freqMap.length % 256) :: freqMap.flatMap (fun e => e.1 :: intBytes e.2)

/-- The bytes `writeCompressedFile` writes (the output file is taken to open), on the entries
of `freqMap` in enumeration order. -/
def writeCompressedFile (bitstring : List Bool) (freqMap : List (Nat × Int)) : List Nat :=
  headerBytes freqMap ++ packBits bitstring

/-- The inner loop `for (int i = 7; i >= 0; --i)` of `readCompressedFile`. -/
def byteBits (byte : Nat) : List Bool :=
  [7, 6, 5, 4, 3, 2, 1, 0].map (fun i => ((byte >>> i) &&& 1) != 0)

/-- The loop `while (in.get(byte))` of `readCompressedFile`. -/
def unpackBits (bytes : List Nat) : List Bool := bytes.flatMap byteBits

/-- The loop `for (int i = 0; i < mapSize; ++i)` of `readCompressedFile`, with `remaining`
rounds to go. At the end of the stream `in.get()` yields `EOF`, stored in a `char` as the byte
255, and `in.read` leaves `freq` uninitialised: `uninit i` is the value round `i` then finds
in it. -/
def readPairs (uninit : Nat → Int) : Nat → Nat → List Nat → FreqMap → FreqMap × List Nat
  | 0, _, input, freqMap => (freqMap, input)
  | remaining + 1, i, input, freqMap =>
      match input with
      | [] => readPairs uninit remaining (i + 1) [] (assign freqMap 255 (uninit i))
      | ch :: b0 :: b1 :: b2 :: b3 :: rest =>
          readPairs uninit remaining (i + 1) rest (assign freqMap ch (bytesInt b0 b1 b2 b3))
      | ch :: _ => readPairs uninit remaining (i + 1) [] (assign freqMap ch (uninit i))

/-- The function `readCompressedFile`: `file` is the content of the file, `none` when it
cannot be opened. Returns the filled `freqMap` (entries in insertion order) and the bits. -/
def readCompressedFile (uninit : Nat → Int) (file : Option (List Nat)) :
    Except Fault (FreqMap × List Bool) :=
  match file with
  | none => .error (.runtimeError "Cannot open compressed file.")
  | some [] =>
      let (freqMap, rest) := readPairs uninit 255 0 [] []
      .ok (freqMap, unpackBits rest)
  | some (mapSize :: input) =>
      let (freqMap, rest) := readPairs uninit (mapSize % 256) 0 input []
      .ok (freqMap, unpackBits rest)

/-- The loop of `decodeText`; `current` and `decoded` are the loop variables. -/
def decodeLoop (root : Node) : List Bool → Node → List Nat → Except Fault (List Nat)
  | [], _, decoded => .ok decoded
  | bit :: bits, current, decoded =>
      match current with
      | .null => .error .undefined
      | .mk _ _ left right _ =>
          let next := if bit = false then left else right
          match next with
          | .null => .error .undefined
          | .mk ch f l r i =>
              if (Node.mk ch f l r i).isLeaf then decodeLoop root bits root (decoded ++ [ch])
              else decodeLoop root bits (Node.mk ch f l r i) decoded

/-- The function `decodeText`. -/
def decodeText (bits : List Bool) (root : Node) : Except Fault (List Nat) :=
  decodeLoop root bits root []

/-- The branch `-c` of `main`: the bytes written to the output file for the input `text`. -/
def compress (iter : FreqMap → FreqMap) (text : List Nat) : Except Fault (List Nat) :=
  let freqMap := countFrequencies text
  match buildHuffmanTree 0 (iter freqMap) with
  | .error e => .error e
  | .ok (root, _) =>
      let codes := generateCodes root [] []
      match encodeText text codes with
      | .error e => .error e
      | .ok bitstring => .ok (writeCompressedFile bitstring (iter freqMap))

/-- The branch `-d` of `main`: the bytes written to the output file for the container
`file`. -/
def decompress (iter : FreqMap → FreqMap) (uninit : Nat → Int) (file : Option (List Nat)) :
    Except Fault (List Nat) :=
  match readCompressedFile uninit file with
  | .error e => .error e
  | .ok (freqMap, bitstring) =>
      match buildHuffmanTree 0 (iter freqMap) with
      | .error e => .error e
      | .ok (root, _) => decodeText bitstring root

/-! ## The program `main.cpp`

The second program of the repository runs the whole chain in one `main`: count, build the
tree, generate the codes, encode, pack the bits into `compressed.bin`, read them back and
decode with the same tree. Its nodes carry no id (the field `id` is 0 here) and its comparator
looks at frequencies only, so which of several nodes of equal frequency `top()` returns is
decided by the heap: `top()` followed by `pop()` is an explicit parameter `extract`
(see `ExtractsMin`). -/

namespace MainCpp

/-- The comparator `Compare::operator()` of `main.cpp`. -/
def Compare (a b : Node) : Bool := decide (a.freq > b.freq)

/-- What `top()` followed by `pop()` may do on a queue ordered by `Compare`: nothing on an
empty queue; otherwise it removes one element that `Compare` ranks after no other. -/
def ExtractsMin (extract : List Node → Option (Node × List Node)) : Prop :=
  extract [] = none
    ∧ ∀ queue, queue ≠ [] → ∃ x rest, extract queue = some (x, rest)
        ∧ queue.Perm (x :: rest) ∧ ∀ y ∈ rest, Compare x y = false

/-- The function `generateCodes` of `main.cpp`: it does not return after the assignment at a
leaf, and goes on to the two null children. -/
def generateCodes : Node → List Bool → CodeMap → CodeMap
  | .null, _, codes => codes
  | .mk ch f left right i, code, codes =>
      let codes := if (Node.mk ch f left right i).isLeaf then assign codes ch code else codes
      generateCodes right (code ++ [true]) (generateCodes left (code ++ [false]) codes)

/-- The function `encodeText` of `main.cpp`. -/
def encodeText : List Nat → CodeMap → Except Fault (List Bool)
  | [], _ => .ok []
  | c :: text, codes =>
      match find codes c with
      | none => .error .outOfRange
      | some code =>
          match encodeText text codes with
          | .error e => .error e
          | .ok encoded => .ok (code ++ encoded)

/-- The loop of `decodeText` of `main.cpp`; a bit string holds no other character than `'0'`
and `'1'`, so the branch for an invalid bit is never taken. -/
def decodeLoop (root : Node) : List Bool → Node → List Nat → Except Fault (List Nat)
  | [], _, decoded => .ok decoded
  | bit :: encoded, current, decoded =>
      match current with
      | .null => .error .undefined
      | .mk _ _ left right _ =>
          let next := if bit = false then left else right
          match next with
          | .null => .error .undefined
          | .mk ch f l r i =>
              if (Node.mk ch f l r i).isLeaf then decodeLoop root encoded root (decoded ++ [ch])
              else decodeLoop root encoded (Node.mk ch f l r i) decoded

/-- The function `decodeText` of `main.cpp`. -/
def decodeText (encoded : List Bool) (root : Node) : Except Fault (List Nat) :=
  decodeLoop root encoded root []

/-- The bytes `writeBitsToFile` writes: its loop and final flush are those of
`writeCompressedFile` (`packLoop`). -/
def writeBitsToFile (bitString : List Bool) : List Nat := packLoop bitString 0 0

/-- The bit string `readBitsFromFile` returns for the bytes of the file. -/
def readBitsFromFile (bytes : List Nat) : List Bool := bytes.flatMap byteBits

/-- The loop `while (minHeap.size() > 1)` of `main` run for at most `rounds` rounds. -/
def mergeRounds (extract : List Node → Option (Node × List Node)) :
    Nat → List Node → Except Fault (List Node)
  | rounds + 1, minHeap =>
      if minHeap.length > 1 then
        match extract minHeap with
        | none => .error .undefined
        | some (left, afterLeft) =>
            match extract afterLeft with
            | none => .error .undefined
            | some (right, afterRight) =>
                mergeRounds extract rounds
                  (Node.mk 0 (wrapInt (left.freq + right.freq)) left right 0 :: afterRight)
      else .ok minHeap
  | 0, minHeap => .ok minHeap

/-- Steps 2 and 3 of `main`: one leaf per enumerated entry is pushed, the loop merges, and
`root` is `minHeap.top()`. -/
def buildTree (extract : List Node → Option (Node × List Node))
    (freqMap : List (Nat × Int)) : Except Fault Node :=
  let minHeap := freqMap.map (fun pair => Node.mk pair.1 pair.2 .null .null 0)
  match mergeRounds extract minHeap.length minHeap with
  | .error e => .error e
  | .ok minHeap =>
      match extract minHeap with
      | none => .error .undefined
      | some (root, _) => .ok root

/-- The function `main` of `main.cpp` on the content `text` of the input file: the value of
`decodedText`. -/
def main (extract : List Node → Option (Node × List Node)) (iter : FreqMap → FreqMap)
    (text : List Nat) : Except Fault (List Nat) :=
  if text = [] then .error (.exitFailure "Input file is empty.")
  else
    let freqMap := countFrequencies text
    match buildTree extract (iter freqMap) with
    | .error e => .error e
    | .ok root =>
        let codes := generateCodes root [] []
        match encodeText text codes with
        | .error e => .error e
        | .ok encodedText =>
            let encodedFromFile := readBitsFromFile (writeBitsToFile encodedText)
            decodeText encodedFromFile root

end MainCpp

/-! ## Auxiliary definitions used in the statements and proofs -/

/-- The number whose binary digits, most significant first, are `bits`. -/
def bitsValue : List Bool → Nat
  | [] => 0
  | bit :: rest => bit.toNat * 2 ^ rest.length + bitsValue rest

/-- The number of zero bits that complete `n` bits to whole bytes. -/
def paddingLength (n : Nat) : Nat := (8 - n % 8) % 8

/-- The leaves of a tree from left to right, each with the path that leads to it from the
root (`false` for `left`, `true` for `right`). -/
def leafCodes : Node → List (Nat × List Bool)
  | .null => []
  | .mk ch f left right i =>
      if (Node.mk ch f left right i).isLeaf then [(ch, [])]
      else (leafCodes left).map (fun e => (e.1, false :: e.2))
        ++ (leafCodes right).map (fun e => (e.1, true :: e.2))

/-- The leaves of a tree from left to right, each as its (symbol, frequency) pair with the
path that leads to it from the root. -/
def leafEntries : Node → List ((Nat × Int) × List Bool)
  | .null => []
  | .mk ch f left right i =>
      if (Node.mk ch f left right i).isLeaf then [((ch, f), [])]
      else (leafEntries left).map (fun e => (e.1, false :: e.2))
        ++ (leafEntries right).map (fun e => (e.1, true :: e.2))

/-- The (symbol, frequency) pairs on the leaves of a tree, from left to right. -/
def tableOf (t : Node) : List (Nat × Int) := (leafEntries t).map Prod.fst

/-- The (symbol, frequency) pairs on the leaves of the trees of a queue. -/
def forestTable (minHeap : List Node) : List (Nat × Int) := minHeap.flatMap tableOf

/-- The trees in which every node has no child or two children. -/
inductive Full : Node → Prop
  | leaf (ch : Nat) (freq : Int) (id : Int) : Full (.mk ch freq .null .null id)
  | node (ch : Nat) (freq : Int) (left right : Node) (id : Int) :
      Full left → Full right → Full (.mk ch freq left right id)

/-- Neither bit sequence is a prefix of the other. -/
def PrefixFree (c₁ c₂ : List Bool) : Prop := ¬ c₁ <+: c₂ ∧ ¬ c₂ <+: c₁

/-- The length of the code `generateCodes` gives a symbol in a tree (0 when it gives none). -/
def codeLength (root : Node) (s : Nat) : Nat :=
  ((find (generateCodes root [] []) s).getD []).length

/-- The weighted path length of a tree for a frequency table: the sum over the symbols of the
table of frequency times code length. -/
def weightedPathLength (freqMap : List (Nat × Int)) (root : Node) : Int :=
  (freqMap.map (fun e => e.2 * (codeLength root e.1 : Int))).sum

/-- The sum of the weights of the merged nodes when the two smallest weights of a sorted list
are merged again and again. -/
def huffmanCost : List Int → Int
  | a :: b :: rest => a + b + huffmanCost (List.orderedInsert (· ≤ ·) (a + b) rest)
  | _ => 0
termination_by ws => ws.length
decreasing_by simp [List.orderedInsert_length]

/-- The cost of an assignment of depths to weights: the sum of weight times depth. -/
def configCost (config : List (Int × Nat)) : Int :=
  (config.map (fun e => e.1 * (e.2 : Int))).sum

/-- The Kraft sum of a list of depths. -/
def kraftSum (depths : List Nat) : ℚ := (depths.map (fun d => (1 / 2 : ℚ) ^ d)).sum

/-- The sum over the leaves of a tree of leaf frequency times depth. -/
def treeCost (t : Node) : Int := configCost ((leafEntries t).map (fun e => (e.1.2, e.2.length)))

/-- The sum of the frequencies on the leaves of a tree. -/
def leafWeight (t : Node) : Int := ((tableOf t).map Prod.snd).sum

/-- The branch `-c` of `main` run when the static counter `Node::globalId` has been incremented
`globalId` times before (0 in a fresh process): the bytes written, and the state of the counter
at the end. -/
def compressFrom (globalId : Nat) (iter : FreqMap → FreqMap) (text : List Nat) :
    Except Fault (List Nat × Nat) :=
  let freqMap := countFrequencies text
  match buildHuffmanTree globalId (iter freqMap) with
  | .error e => .error e
  | .ok (root, globalId) =>
      let codes := generateCodes root [] []
      match encodeText text codes with
      | .error e => .error e
      | .ok bitstring => .ok (writeCompressedFile bitstring (iter freqMap), globalId)

/-- The tree with the id of every node raised by `k`. -/
def shiftIds (k : Nat) : Node → Node
  | .null => .null
  | .mk ch f left right i => .mk ch f (shiftIds k left) (shiftIds k right) (i + (k : Int))

/-- The number of nodes without a child. -/
def leafCount : Node → Nat
  | .null => 0
  | .mk ch f left right i =>
      if (Node.mk ch f left right i).isLeaf then 1 else leafCount left + leafCount right

/-- The number of nodes with a child. -/
def internalCount : Node → Nat
  | .null => 0
  | .mk ch f left right i =>
      if (Node.mk ch f left right i).isLeaf then 0
      else 1 + internalCount left + internalCount right

/-- Every node with a child holds the sum of the frequencies of its two children. -/
def SumsOk : Node → Prop
  | .null => True
  | .mk ch f left right i =>
      if (Node.mk ch f left right i).isLeaf then True
      else f = left.freq + right.freq ∧ SumsOk left ∧ SumsOk right

/-- The depth of the leftmost leaf of a tree. -/
def leftmostDepth : Node → Nat
  | .null => 0
  | .mk ch f left right i =>
      if (Node.mk ch f left right i).isLeaf then 0 else leftmostDepth left + 1

/-- The symbol on the leftmost leaf of a tree. -/
def leftmostSymbol : Node → Nat
  | .null => 0
  | .mk ch f left right i =>
      if (Node.mk ch f left right i).isLeaf then ch else leftmostSymbol left

/-- One behaviour `top()` followed by `pop()` can have in `main.cpp`: the first element of
least frequency is removed. -/
def extractFirstMin : List Node → Option (Node × List Node)
  | [] => none
  | x :: rest =>
      match extractFirstMin rest with
      | none => some (x, [])
      | some (y, others) =>
          if MainCpp.Compare x y then some (y, x :: others) else some (x, rest)

/-! ## Bit packing and unpacking -/

theorem bitsValue_append_singleton (bits : List Bool) (bit : Bool) :
    bitsValue (bits ++ [bit]) = 2 * bitsValue bits + bit.toNat := by
  induction bits with
  | nil => simp [bitsValue]
  | cons b rest ih =>
      have hs : (b :: rest) ++ [bit] = b :: (rest ++ [bit]) := rfl
      rw [hs, bitsValue, ih, bitsValue, List.length_append, List.length_singleton, pow_succ]
      ring

theorem bitsValue_lt (bits : List Bool) : bitsValue bits < 2 ^ bits.length := by
  induction bits with
  | nil => simp [bitsValue]
  | cons b rest ih =>
      simp only [bitsValue, List.length_cons, pow_succ]
      cases b <;> simp <;> omega

theorem shiftLeft_one_lor (x : Nat) (bit : Bool) : (x <<< 1) ||| bit.toNat = 2 * x + bit.toNat := by
  cases bit with
  | false => simp [Nat.shiftLeft_eq, mul_comm]
  | true =>
      rw [Nat.shiftLeft_eq, pow_one, mul_comm]
      have h2 : Nat.bit false x ||| Nat.bit true 0 = Nat.bit true (x ||| 0) :=
        Nat.lor_bit false x true 0
      simp [Nat.bit_val] at h2
      simpa using h2

theorem bitsValue_append_zeros (bits : List Bool) (k : Nat) :
    bitsValue (bits ++ List.replicate k false) = bitsValue bits <<< k := by
  induction k with
  | zero => simp
  | succ k ih =>
      rw [List.replicate_succ', ← List.append_assoc, bitsValue_append_singleton, ih]
      simp [Nat.shiftLeft_eq, pow_succ]
      ring

theorem byteBits_bitsValue (bits : List Bool) (h : bits.length = 8) :
    byteBits (bitsValue bits) = bits := by
  match bits, h with
  | [a, b, c, d, e, f, g, i], _ =>
      cases a <;> cases b <;> cases c <;> cases d <;> cases e <;> cases f <;> cases g <;>
        cases i <;> rfl

theorem unpackBits_cons (byte : Nat) (bytes : List Nat) :
    unpackBits (byte :: bytes) = byteBits byte ++ unpackBits bytes := by
  simp [unpackBits]

/-- Invariant of the packing loop: with the bits `done` already shifted into `byte`, the bytes
still to be written unpack to `done`, the remaining bits and the zero padding. -/
theorem unpackBits_packLoop (bits done : List Bool) (h : done.length < 8) :
    unpackBits (packLoop bits done.length (bitsValue done))
      = done ++ bits ++ List.replicate (paddingLength (done.length + bits.length)) false := by
  induction bits generalizing done with
  | nil =>
      unfold packLoop
      by_cases hc : done.length > 0
      · rw [if_pos hc, ← bitsValue_append_zeros]
        have hlen : (done ++ List.replicate (8 - done.length) false).length = 8 := by
          simp; omega
        have hlt := bitsValue_lt (done ++ List.replicate (8 - done.length) false)
        rw [hlen] at hlt
        rw [Nat.mod_eq_of_lt (by simpa using hlt), unpackBits_cons, byteBits_bitsValue _ hlen]
        have hp : paddingLength (done.length + ([] : List Bool).length) = 8 - done.length := by
          simp only [paddingLength, List.length_nil]; omega
        rw [hp]
        simp [unpackBits]
      · have h0 : done = [] := List.length_eq_zero.mp (by omega)
        subst h0
        simp [unpackBits, paddingLength]
  | cons bit rest ih =>
      have hval : ((bitsValue done <<< 1) ||| bit.toNat) % 256 = bitsValue (done ++ [bit]) := by
        rw [shiftLeft_one_lor, ← bitsValue_append_singleton]
        have hlt := bitsValue_lt (done ++ [bit])
        apply Nat.mod_eq_of_lt
        have hle : 2 ^ (done ++ [bit]).length ≤ 2 ^ 8 :=
          Nat.pow_le_pow_right (by decide) (by simp; omega)
        omega
      unfold packLoop
      simp only [hval]
      by_cases h8 : done.length + 1 = 8
      · rw [if_pos h8, unpackBits_cons, byteBits_bitsValue _ (by simpa using h8)]
        have ih0 := ih [] (by decide)
        simp only [List.length_nil, bitsValue, List.nil_append, Nat.zero_add] at ih0
        rw [ih0]
        have hp : paddingLength (done.length + (bit :: rest).length) = paddingLength rest.length := by
          simp only [paddingLength, List.length_cons]; omega
        rw [hp]
        simp
      · rw [if_neg h8]
        have ih1 := ih (done ++ [bit]) (by simp; omega)
        simp only [List.length_append, List.length_singleton] at ih1
        rw [ih1]
        have hp : done.length + 1 + rest.length = done.length + (bit :: rest).length := by
          simp; omega
        rw [hp]
        simp

/-- The number of bytes the packing loop still writes. -/
theorem length_packLoop (bits : List Bool) (count byte : Nat) (h : count < 8) :
    (packLoop bits count byte).length = (count + bits.length + 7) / 8 := by
  induction bits generalizing count byte with
  | nil =>
      unfold packLoop
      by_cases hc : count > 0
      · rw [if_pos hc]; simp; omega
      · rw [if_neg hc]; simp; omega
  | cons bit rest ih =>
      unfold packLoop
      simp only
      by_cases h8 : count + 1 = 8
      · rw [if_pos h8, List.length_cons, ih 0 0 (by decide)]
        simp only [List.length_cons]; omega
      · rw [if_neg h8, ih (count + 1) _ (by omega)]
        simp only [List.length_cons]; omega

theorem unpackBits_packBits (b : List Bool) :
    unpackBits (packBits b) = b ++ List.replicate ((8 - b.length % 8) % 8) false := by
  have h := unpackBits_packLoop b [] (by decide)
  simpa [packBits, bitsValue, paddingLength] using h

/-- Claim C5: unpacking the packed form of a bit sequence `b` gives `b` followed by exactly
`(8 - |b| mod 8) mod 8` zero bits, the packed form has `ceil(|b| / 8)` bytes, and packing
`10110` then unpacking gives `10110000`. -/
theorem pack_unpack_padding (b : List Bool) :
    unpackBits (packBits b) = b ++ List.replicate ((8 - b.length % 8) % 8) false
      ∧ (packBits b).length = (b.length + 7) / 8
      ∧ unpackBits (packBits [true, false, true, true, false])
          = [true, false, true, true, false, false, false, false] := by
  refine ⟨unpackBits_packBits b, ?_, by decide⟩
  have h := length_packLoop b 0 0 (by decide)
  simpa [packBits] using h

/-! ## The container header -/

theorem bytesInt_intBytes (freq : Int) (hlo : -2147483648 ≤ freq) (hhi : freq < 2147483648) :
    (match intBytes freq with
      | [b0, b1, b2, b3] => bytesInt b0 b1 b2 b3
      | _ => 0) = freq := by
  simp only [intBytes, bytesInt]
  have hu : ((freq % 4294967296).toNat : Int) = freq % 4294967296 :=
    Int.toNat_of_nonneg (Int.emod_nonneg _ (by decide))
  generalize (freq % 4294967296).toNat = u at hu
  have hlt : (u : Int) < 4294967296 := by
    rw [hu]; exact Int.emod_lt_of_pos _ (by decide)
  have hsum : u % 256 % 256 + 256 * (u / 256 % 256 % 256) + 65536 * (u / 65536 % 256 % 256)
      + 16777216 * (u / 16777216 % 256 % 256) = u := by omega
  rw [hsum, wrapInt]
  omega

theorem assign_of_not_mem {α : Type} (m : List (Nat × α)) (key : Nat) (value : α)
    (h : key ∉ m.map Prod.fst) : assign m key value = m ++ [(key, value)] := by
  induction m with
  | nil => rfl
  | cons e rest ih =>
      obtain ⟨k, v⟩ := e
      simp only [List.map_cons, List.mem_cons, not_or] at h
      simp only [assign, if_neg (Ne.symm h.1), ih h.2, List.cons_append]

theorem foldl_assign_of_nodup {α : Type} (entries acc : List (Nat × α))
    (h : ((acc ++ entries).map Prod.fst).Nodup) :
    entries.foldl (fun m e => assign m e.1 e.2) acc = acc ++ entries := by
  induction entries generalizing acc with
  | nil => simp
  | cons e rest ih =>
      have hne : e.1 ∉ acc.map Prod.fst := by
        intro hmem
        rw [List.map_append, List.nodup_append] at h
        exact h.2.2 hmem (by simp)
      rw [List.foldl_cons, assign_of_not_mem _ _ _ hne, ih]
      · simp
      · simpa using h

/-- The pair-reading loop on a complete header consumes exactly the pairs. -/
theorem readPairs_header (uninit : Nat → Int) (entries : List (Nat × Int)) (i : Nat)
    (rest : List Nat) (acc : FreqMap)
    (hrange : ∀ e ∈ entries, -2147483648 ≤ e.2 ∧ e.2 < 2147483648) :
    readPairs uninit entries.length i (entries.flatMap (fun e => e.1 :: intBytes e.2) ++ rest) acc
      = (entries.foldl (fun m e => assign m e.1 e.2) acc, rest) := by
  induction entries generalizing i acc with
  | nil => simp [readPairs]
  | cons e tail ih =>
      obtain ⟨ch, freq⟩ := e
      have hb := bytesInt_intBytes freq (hrange (ch, freq) (by simp)).1
        (hrange (ch, freq) (by simp)).2
      have ht : ∀ e ∈ tail, -2147483648 ≤ e.2 ∧ e.2 < 2147483648 :=
        fun e he => hrange e (List.mem_cons_of_mem _ he)
      simp only [List.flatMap_cons, List.length_cons, List.foldl_cons]
      simp only [intBytes] at hb ⊢
      simp only [List.cons_append, List.nil_append, readPairs]
      rw [hb]
      exact ih (i + 1) _ ht

theorem length_headerBytes (freqMap : List (Nat × Int)) :
    (headerBytes freqMap).length = 1 + 5 * freqMap.length := by
  induction freqMap with
  | nil => rfl
  | cons e rest ih =>
      simp only [headerBytes, List.length_cons, List.flatMap_cons, List.length_append,
        intBytes, List.length_nil] at ih ⊢
      omega

theorem drop_writeCompressedFile (b : List Bool) (freqMap : List (Nat × Int)) :
    (writeCompressedFile b freqMap).drop (1 + 5 * freqMap.length) = packBits b := by
  rw [writeCompressedFile, ← length_headerBytes, List.drop_left]

/-- Reading back a container: the entries of the header and the unpacked payload. -/
theorem readCompressedFile_writeCompressedFile (uninit : Nat → Int)
    (freqMap : List (Nat × Int)) (b : List Bool) (hkeys : (freqMap.map Prod.fst).Nodup)
    (hn : freqMap.length ≤ 255)
    (hrange : ∀ e ∈ freqMap, -2147483648 ≤ e.2 ∧ e.2 < 2147483648) :
    readCompressedFile uninit (some (writeCompressedFile b freqMap))
      = .ok (freqMap, unpackBits (packBits b)) := by
  simp only [writeCompressedFile, headerBytes, List.cons_append, readCompressedFile]
  rw [Nat.mod_mod, Nat.mod_eq_of_lt (by omega), readPairs_header uninit freqMap 0 _ [] hrange,
    foldl_assign_of_nodup freqMap [] (by simpa using hkeys)]
  rfl

/-- Claim C9: for a table of at most 255 entries with counts in the 32-bit signed range,
reading back what `writeCompressedFile` wrote returns the same (symbol, frequency) pairs and,
as bits, the unpacking of all bytes after the first `1 + 5n` header bytes. -/
theorem container_header_roundtrip (uninit : Nat → Int) (freqMap : List (Nat × Int))
    (b : List Bool) (hkeys : (freqMap.map Prod.fst).Nodup) (hn : freqMap.length ≤ 255)
    (hrange : ∀ e ∈ freqMap, -2147483648 ≤ e.2 ∧ e.2 < 2147483648) :
    readCompressedFile uninit (some (writeCompressedFile b freqMap))
      = .ok (freqMap,
          unpackBits ((writeCompressedFile b freqMap).drop (1 + 5 * freqMap.length))) := by
  rw [drop_writeCompressedFile]
  exact readCompressedFile_writeCompressedFile uninit freqMap b hkeys hn hrange

theorem container_header_roundtrip_witness :
    readCompressedFile (fun _ => 0) (some (writeCompressedFile [true, false] [(97, 2), (98, -3)]))
      = .ok ([(97, 2), (98, -3)],
          unpackBits ((writeCompressedFile [true, false] [(97, 2), (98, -3)]).drop
            (1 + 5 * [(97, (2 : Int)), (98, -3)].length))) :=
  container_header_roundtrip (fun _ => 0) [(97, 2), (98, -3)] [true, false] (by decide)
    (by decide) (by decide)

/-! ## The priority queue and the merge loop -/

theorem length_push (minHeap : List Node) (n : Node) :
    (push minHeap n).length = minHeap.length + 1 := by
  induction minHeap with
  | nil => rfl
  | cons x rest ih =>
      unfold push
      split <;> simp [ih]

theorem push_perm (minHeap : List Node) (n : Node) : (push minHeap n).Perm (n :: minHeap) := by
  induction minHeap with
  | nil => exact List.Perm.refl _
  | cons x rest ih =>
      unfold push
      split
      · exact List.Perm.refl _
      · exact (List.Perm.cons x ih).trans (List.Perm.swap n x rest)

theorem mergeRounds_enough (r1 r2 globalId : Nat) (minHeap : List Node)
    (h1 : minHeap.length ≤ r1 + 1) (h2 : minHeap.length ≤ r2 + 1) :
    mergeRounds r1 globalId minHeap = mergeRounds r2 globalId minHeap := by
  induction r1 generalizing r2 globalId minHeap with
  | zero =>
      match minHeap, h1 with
      | [], _ => cases r2 <;> rfl
      | [x], _ => cases r2 <;> rfl
  | succ r1 ih =>
      match minHeap, h1, h2 with
      | [], _, _ => cases r2 <;> rfl
      | [x], _, _ => cases r2 <;> rfl
      | left :: right :: rest, h1, h2 =>
          match r2, h2 with
          | r2 + 1, h2 =>
              simp only [mergeRounds]
              apply ih
              · rw [length_push]; simp only [List.length_cons] at h1; omega
              · rw [length_push]; simp only [List.length_cons] at h2; omega

theorem mergeLoop_nil (globalId : Nat) : mergeLoop globalId [] = ([], globalId) := rfl

theorem mergeLoop_singleton (globalId : Nat) (x : Node) :
    mergeLoop globalId [x] = ([x], globalId) := rfl

/-- One round of the `while` loop: the loop over a queue of two or more elements is the loop
over the queue after a merge; the rounds allotted always suffice. -/
theorem mergeLoop_cons_cons (globalId : Nat) (left right : Node) (rest : List Node) :
    mergeLoop globalId (left :: right :: rest)
      = mergeLoop (globalId + 1) (push rest (mergeNodes left right globalId)) := by
  unfold mergeLoop
  simp only [List.length_cons, mergeRounds]
  apply mergeRounds_enough
  · rw [length_push]; omega
  · omega

/-- Induction along the rounds of the `while` loop. -/
theorem mergeLoop_induction {motive : Nat → List Node → Prop}
    (nil : ∀ g, motive g []) (single : ∀ g x, motive g [x])
    (step : ∀ g left right rest,
      motive (g + 1) (push rest (mergeNodes left right g)) → motive g (left :: right :: rest))
    (globalId : Nat) (minHeap : List Node) : motive globalId minHeap := by
  have key : ∀ n (heap : List Node) (g : Nat), heap.length = n → motive g heap := by
    intro n
    induction n using Nat.strong_induction_on with
    | _ n ih =>
        intro heap g hn
        match heap, hn with
        | [], _ => exact nil _
        | [x], _ => exact single _ _
        | left :: right :: rest, hn =>
            apply step
            exact ih (rest.length + 1) (by simp only [List.length_cons] at hn; omega) _ _
              (length_push _ _)
  exact key _ minHeap globalId rfl

theorem mergeLoop_root (globalId : Nat) (minHeap : List Node) (h : minHeap ≠ []) :
    ∃ root g, mergeLoop globalId minHeap = ([root], g) := by
  revert h
  refine mergeLoop_induction (motive := fun g heap =>
    heap ≠ [] → ∃ root g', mergeLoop g heap = ([root], g')) ?_ ?_ ?_ globalId minHeap
  · intro g h; exact absurd rfl h
  · intro g x _; exact ⟨x, g, rfl⟩
  · intro g left right rest ih _
    rw [mergeLoop_cons_cons]
    exact ih (fun h0 => by
      have := length_push rest (mergeNodes left right g)
      rw [h0] at this; simp at this)

theorem length_pushLeaves (entries : List (Nat × Int)) (globalId : Nat) (minHeap : List Node) :
    (pushLeaves entries globalId minHeap).1.length = minHeap.length + entries.length := by
  induction entries generalizing globalId minHeap with
  | nil => rfl
  | cons e rest ih =>
      obtain ⟨ch, freq⟩ := e
      simp only [pushLeaves, ih, length_push, List.length_cons]
      omega

/-- On a non-empty table `buildHuffmanTree` returns the single node left in the queue. -/
theorem buildHuffmanTree_ok (globalId : Nat) (freqMap : List (Nat × Int)) (h : freqMap ≠ []) :
    ∃ root g, buildHuffmanTree globalId freqMap = .ok (root, g)
      ∧ mergeLoop (pushLeaves freqMap globalId []).2 (pushLeaves freqMap globalId []).1
          = ([root], g) := by
  have hne : (pushLeaves freqMap globalId []).1 ≠ [] := by
    intro h0
    have := length_pushLeaves freqMap globalId []
    rw [h0] at this
    simp at this
    exact h (List.length_eq_zero.mp this.symm)
  obtain ⟨root, g, hr⟩ := mergeLoop_root (pushLeaves freqMap globalId []).2 _ hne
  refine ⟨root, g, ?_, hr⟩
  unfold buildHuffmanTree
  simp only [hr]

/-! ## Containers with a truncated header or without payload -/

theorem assign_ne_nil {α : Type} (m : List (Nat × α)) (key : Nat) (value : α) :
    assign m key value ≠ [] := by
  cases m with
  | nil => simp [assign]
  | cons e rest =>
      obtain ⟨k, v⟩ := e
      unfold assign
      split <;> simp

/-- When at most `5 * remaining` bytes are left, the pair-reading loop uses up the stream and
leaves a non-empty table. -/
theorem readPairs_short (uninit : Nat → Int) (remaining i : Nat) (input : List Nat)
    (acc : FreqMap) (hlen : input.length ≤ 5 * remaining) (hne : 0 < remaining ∨ acc ≠ []) :
    ∃ freqMap, freqMap ≠ [] ∧ readPairs uninit remaining i input acc = (freqMap, []) := by
  induction remaining generalizing i input acc with
  | zero =>
      have h0 : input = [] := List.length_eq_zero.mp (by omega)
      subst h0
      exact ⟨acc, hne.resolve_left (by decide), rfl⟩
  | succ n ih =>
      match input, hlen with
      | [], _ =>
          simp only [readPairs]
          exact ih _ _ _ (by simp) (Or.inr (assign_ne_nil _ _ _))
      | [a], _ =>
          simp only [readPairs]
          exact ih _ _ _ (by simp) (Or.inr (assign_ne_nil _ _ _))
      | [a, b], _ =>
          simp only [readPairs]
          exact ih _ _ _ (by simp) (Or.inr (assign_ne_nil _ _ _))
      | [a, b, c], _ =>
          simp only [readPairs]
          exact ih _ _ _ (by simp) (Or.inr (assign_ne_nil _ _ _))
      | [a, b, c, d], _ =>
          simp only [readPairs]
          exact ih _ _ _ (by simp) (Or.inr (assign_ne_nil _ _ _))
      | a :: b :: c :: d :: e :: rest, hlen =>
          simp only [readPairs]
          exact ih _ _ _ (by simp only [List.length_cons] at hlen; omega)
            (Or.inr (assign_ne_nil _ _ _))

theorem readPairs_nil_singleton (uninit : Nat → Int) (remaining i : Nat) (value : Int) :
    readPairs uninit remaining i [] [(255, value)]
      = ([(255, if remaining = 0 then value else uninit (i + remaining - 1))], []) := by
  induction remaining generalizing i value with
  | zero => rfl
  | succ n ih =>
      simp only [readPairs, assign, if_true]
      rw [ih]
      by_cases h0 : n = 0
      · subst h0; simp
      · have h1 : i + 1 + n - 1 = i + (n + 1) - 1 := by omega
        simp [h0, h1]

/-- Claim C10, counterexample: the empty byte sequence, a header cut after 7 of its 11 bytes
and a complete header without payload are all read without any error, and decompressed to
the empty output. -/
theorem corrupt_container_not_rejected :
    (∀ uninit : Nat → Int,
        readCompressedFile uninit (some []) = .ok ([(255, uninit 254)], []))
      ∧ (∀ uninit : Nat → Int,
        readCompressedFile uninit (some [2, 97, 1, 0, 0, 0, 98, 1])
          = .ok ([(97, 1), (98, uninit 1)], []))
      ∧ (∀ uninit : Nat → Int,
        readCompressedFile uninit (some [1, 97, 4, 0, 0, 0]) = .ok ([(97, 4)], []))
      ∧ (∀ uninit : Nat → Int, decompress id uninit (some [1, 97, 4, 0, 0, 0]) = .ok []) := by
  refine ⟨?_, ?_, ?_, ?_⟩
  · intro uninit
    have h := readPairs_nil_singleton uninit 254 1 (uninit 0)
    simp only [readCompressedFile]
    have h2 : readPairs uninit 255 0 [] [] = readPairs uninit 254 1 [] [(255, uninit 0)] := by
      rw [show (255 : Nat) = 254 + 1 from rfl, readPairs]
      rfl
    rw [h2, h]
    rfl
  · intro uninit; rfl
  · intro uninit; rfl
  · intro uninit; rfl

/-- A file that can be opened is always read: `readCompressedFile` returns a table and a bit
sequence for every content. -/
theorem readCompressedFile_some_ok (uninit : Nat → Int) (input : List Nat) :
    ∃ r, readCompressedFile uninit (some input) = .ok r := by
  cases input with
  | nil => exact ⟨_, rfl⟩
  | cons mapSize rest => exact ⟨_, rfl⟩

/-- The only error of `readCompressedFile` is the one for a file that cannot be opened. -/
theorem readCompressedFile_error (uninit : Nat → Int) (file : Option (List Nat)) (e : Fault)
    (h : readCompressedFile uninit file = .error e) :
    file = none ∧ e = .runtimeError "Cannot open compressed file." := by
  cases file with
  | none =>
      simp only [readCompressedFile, Except.error.injEq] at h
      exact ⟨rfl, h.symm⟩
  | some input =>
      obtain ⟨r, hr⟩ := readCompressedFile_some_ok uninit input
      rw [hr] at h
      exact Except.noConfusion h

/-- Claim C10, amended: a byte sequence that is empty, or whose first byte announces `n > 0`
pairs and is followed by at most `5n` bytes (truncated header, or complete header and empty
payload), is not rejected: `readCompressedFile` returns a non-empty table with the empty bit
sequence, and `decompress` returns the empty output. The only error `readCompressedFile`
raises is the one for a file that cannot be opened: every content of a file that can be
opened is read to a table and a bit sequence. -/
theorem corrupt_container_accepted (iter : FreqMap → FreqMap) (hiter : Enumerates iter)
    (uninit : Nat → Int) (bytes : List Nat)
    (h : bytes = [] ∨ ∃ n rest, bytes = n :: rest ∧ 0 < n % 256 ∧ rest.length ≤ 5 * (n % 256)) :
    (∃ freqMap, freqMap ≠ [] ∧ readCompressedFile uninit (some bytes) = .ok (freqMap, []))
      ∧ decompress iter uninit (some bytes) = .ok []
      ∧ (∀ input : List Nat, ∃ r, readCompressedFile uninit (some input) = .ok r)
      ∧ (∀ (file : Option (List Nat)) (e : Fault), readCompressedFile uninit file = .error e
          → file = none ∧ e = .runtimeError "Cannot open compressed file.")
      ∧ readCompressedFile uninit none = .error (.runtimeError "Cannot open compressed file.")
      := by
  have hread : ∃ freqMap, freqMap ≠ []
      ∧ readCompressedFile uninit (some bytes) = .ok (freqMap, []) := by
    rcases h with h | ⟨n, rest, h, hn, hlen⟩
    · subst h
      obtain ⟨fm, hfm, hr⟩ := readPairs_short uninit 255 0 [] [] (by simp) (Or.inl (by decide))
      exact ⟨fm, hfm, by simp only [readCompressedFile, hr]; rfl⟩
    · subst h
      obtain ⟨fm, hfm, hr⟩ := readPairs_short uninit (n % 256) 0 rest [] hlen (Or.inl hn)
      exact ⟨fm, hfm, by simp only [readCompressedFile, hr]; rfl⟩
  refine ⟨hread, ?_, readCompressedFile_some_ok uninit, readCompressedFile_error uninit, rfl⟩
  obtain ⟨fm, hfm, hr⟩ := hread
  have hne : iter fm ≠ [] := by
    intro h0
    have hp := (hiter fm).length_eq
    rw [h0] at hp
    exact hfm (List.length_eq_zero.mp hp.symm)
  obtain ⟨root, g, hb, _⟩ := buildHuffmanTree_ok 0 (iter fm) hne
  simp only [decompress, hr, hb]
  rfl

theorem corrupt_container_accepted_witness :
    (∃ freqMap, freqMap ≠ []
        ∧ readCompressedFile (fun _ => 0) (some [2, 97, 1, 0, 0, 0, 98, 1]) = .ok (freqMap, []))
      ∧ decompress List.reverse (fun _ => 0) (some [2, 97, 1, 0, 0, 0, 98, 1]) = .ok []
      ∧ (∀ input : List Nat, ∃ r, readCompressedFile (fun _ => 0) (some input) = .ok r)
      ∧ (∀ (file : Option (List Nat)) (e : Fault),
          readCompressedFile (fun _ => 0) file = .error e
          → file = none ∧ e = .runtimeError "Cannot open compressed file.")
      ∧ readCompressedFile (fun _ => 0) none
          = .error (.runtimeError "Cannot open compressed file.") :=
  corrupt_container_accepted List.reverse (fun m => List.reverse_perm m) (fun _ => 0)
    [2, 97, 1, 0, 0, 0, 98, 1] (Or.inr ⟨2, [97, 1, 0, 0, 0, 98, 1], rfl, by decide, by decide⟩)

/-! ## Evaluation on small inputs -/

theorem perm_pair {α : Type} {l : List α} {a b : α} (h : l.Perm [a, b]) :
    l = [a, b] ∨ l = [b, a] := by
  obtain ⟨x, y, rfl⟩ := List.length_eq_two.mp h.length_eq
  have hx : x ∈ [a, b] := h.subset (by simp)
  simp only [List.mem_cons, List.mem_singleton, List.not_mem_nil, or_false] at hx
  rcases hx with rfl | rfl
  · left
    have h2 := (List.perm_cons x).mp h
    rw [List.perm_singleton.mp h2]
  · right
    have h2 := (List.perm_cons x).mp (h.trans (List.Perm.swap x a []))
    rw [List.perm_singleton.mp h2]

/-- Claim C2, evaluation: the tables `[(a,1),(b,1)]` and `[(b,1),(a,1)]` hold the same pairs,
yet `buildHuffmanTree` returns different trees for them and `generateCodes` different codes;
and when a map is enumerated in the reverse of its insertion order, the decompressor of
`aabbbcc` rebuilds another tree than the compressor used and outputs `ccbbbaabbbbb`. -/
theorem tie_break_follows_enumeration :
    List.Perm [((97 : Nat), (1 : Int)), (98, 1)] [(98, 1), (97, 1)]
      ∧ buildHuffmanTree 0 [(97, 1), (98, 1)]
          = .ok (.mk 0 2 (.mk 97 1 .null .null 0) (.mk 98 1 .null .null 1) 2, 3)
      ∧ buildHuffmanTree 0 [(98, 1), (97, 1)]
          = .ok (.mk 0 2 (.mk 98 1 .null .null 0) (.mk 97 1 .null .null 1) 2, 3)
      ∧ generateCodes (.mk 0 2 (.mk 97 1 .null .null 0) (.mk 98 1 .null .null 1) 2) [] []
          = [(97, [false]), (98, [true])]
      ∧ generateCodes (.mk 0 2 (.mk 98 1 .null .null 0) (.mk 97 1 .null .null 1) 2) [] []
          = [(98, [false]), (97, [true])]
      ∧ Enumerates List.reverse
      ∧ compress List.reverse [97, 97, 98, 98, 98, 99, 99]
          = .ok [3, 99, 2, 0, 0, 0, 98, 3, 0, 0, 0, 97, 2, 0, 0, 0, 241, 64]
      ∧ decompress List.reverse (fun _ => 0)
            (some [3, 99, 2, 0, 0, 0, 98, 3, 0, 0, 0, 97, 2, 0, 0, 0, 241, 64])
          = .ok [99, 99, 98, 98, 98, 97, 97, 98, 98, 98, 98, 98] :=
  ⟨List.Perm.swap _ _ _, rfl, rfl, rfl, rfl, fun m => List.reverse_perm m, rfl, rfl⟩

/-- Claim C8, evaluation: whatever the enumeration order, `aaaa` is compressed to a container
of 6 bytes without payload, which is decompressed to the empty output. -/
theorem single_symbol_lost (iter₁ iter₂ : FreqMap → FreqMap) (h₁ : Enumerates iter₁)
    (h₂ : Enumerates iter₂) (uninit : Nat → Int) :
    compress iter₁ [97, 97, 97, 97] = .ok [1, 97, 4, 0, 0, 0]
      ∧ decompress iter₂ uninit (some [1, 97, 4, 0, 0, 0]) = .ok [] := by
  have e₁ : iter₁ [(97, 4)] = [(97, 4)] := List.perm_singleton.mp (h₁ _)
  have e₂ : iter₂ [(97, 4)] = [(97, 4)] := List.perm_singleton.mp (h₂ _)
  have hc : countFrequencies [97, 97, 97, 97] = [(97, 4)] := by decide
  have hr : readCompressedFile uninit (some [1, 97, 4, 0, 0, 0]) = .ok ([(97, 4)], []) := rfl
  constructor
  · simp only [compress, hc, e₁]
    rfl
  · simp only [decompress, hr, e₂]
    rfl

theorem single_symbol_lost_witness :
    compress id [97, 97, 97, 97] = .ok [1, 97, 4, 0, 0, 0]
      ∧ decompress id (fun _ => 0) (some [1, 97, 4, 0, 0, 0]) = .ok [] :=
  single_symbol_lost id id (fun _ => List.Perm.refl _) (fun _ => List.Perm.refl _) (fun _ => 0)

/-- Claim C1, evaluation: whatever the enumeration orders of the compressor and of the
decompressor, the input `ab` is compressed to a container that is decompressed to 8 bytes,
not to `ab`. -/
theorem roundtrip_fails (iter₁ iter₂ : FreqMap → FreqMap) (h₁ : Enumerates iter₁)
    (h₂ : Enumerates iter₂) (uninit : Nat → Int) :
    ∃ file out, compress iter₁ [97, 98] = .ok file
      ∧ decompress iter₂ uninit (some file) = .ok out ∧ out.length = 8 ∧ out ≠ [97, 98] := by
  have hc : countFrequencies [97, 98] = [(97, 1), (98, 1)] := by decide
  have hr1 : readCompressedFile uninit (some [2, 97, 1, 0, 0, 0, 98, 1, 0, 0, 0, 64])
      = .ok ([(97, 1), (98, 1)], unpackBits [64]) := rfl
  have hr2 : readCompressedFile uninit (some [2, 98, 1, 0, 0, 0, 97, 1, 0, 0, 0, 128])
      = .ok ([(98, 1), (97, 1)], unpackBits [128]) := rfl
  rcases perm_pair (h₁ [(97, 1), (98, 1)]) with e₁ | e₁
  · have hfile : compress iter₁ [97, 98] = .ok [2, 97, 1, 0, 0, 0, 98, 1, 0, 0, 0, 64] := by
      simp only [compress, hc, e₁]
      rfl
    rcases perm_pair (h₂ [(97, 1), (98, 1)]) with e₂ | e₂
    · refine ⟨_, [97, 98, 97, 97, 97, 97, 97, 97], hfile, ?_, by decide, by decide⟩
      simp only [decompress, hr1, e₂]
      rfl
    · refine ⟨_, [98, 97, 98, 98, 98, 98, 98, 98], hfile, ?_, by decide, by decide⟩
      simp only [decompress, hr1, e₂]
      rfl
  · have hfile : compress iter₁ [97, 98] = .ok [2, 98, 1, 0, 0, 0, 97, 1, 0, 0, 0, 128] := by
      simp only [compress, hc, e₁]
      rfl
    rcases perm_pair (h₂ [(98, 1), (97, 1)]) with e₂ | e₂
    · refine ⟨_, [97, 98, 98, 98, 98, 98, 98, 98], hfile, ?_, by decide, by decide⟩
      simp only [decompress, hr2, e₂]
      rfl
    · refine ⟨_, [98, 97, 97, 97, 97, 97, 97, 97], hfile, ?_, by decide, by decide⟩
      simp only [decompress, hr2, e₂]
      rfl

theorem roundtrip_fails_witness :
    ∃ file out, compress id [97, 98] = .ok file
      ∧ decompress id (fun _ => 0) (some file) = .ok out ∧ out.length = 8 ∧ out ≠ [97, 98] :=
  roundtrip_fails id id (fun _ => List.Perm.refl _) (fun _ => List.Perm.refl _) (fun _ => 0)

/-! ## The code table -/

theorem find_assign {α : Type} (m : List (Nat × α)) (key : Nat) (value : α) (k : Nat) :
    find (assign m key value) k = if k = key then some value else find m k := by
  induction m with
  | nil =>
      by_cases h : k = key
      · simp [assign, find, h]
      · simp [assign, find, h, Ne.symm h]
  | cons e rest ih =>
      obtain ⟨k', v'⟩ := e
      by_cases h1 : k' = key
      · by_cases h2 : k = key
        · simp [assign, find, h1, h2]
        · simp [assign, find, h1, h2, Ne.symm h2]
      · by_cases h2 : k = key
        · subst h2
          simp [assign, find, h1, ih]
        · by_cases h3 : k' = k
          · simp [assign, find, h1, h2, h3]
          · simp [assign, find, h1, h2, h3, ih]

theorem find_some_mem {α : Type} (m : List (Nat × α)) (k : Nat) (v : α)
    (h : find m k = some v) : (k, v) ∈ m := by
  induction m with
  | nil => simp [find] at h
  | cons e rest ih =>
      obtain ⟨k', v'⟩ := e
      by_cases h1 : k' = k
      · simp only [find, if_pos h1, Option.some.injEq] at h
        subst h1 h
        exact List.mem_cons_self _ _
      · simp only [find, if_neg h1] at h
        exact List.mem_cons_of_mem _ (ih h)

theorem find_of_mem_nodup {α : Type} (m : List (Nat × α)) (k : Nat) (v : α)
    (hn : (m.map Prod.fst).Nodup) (h : (k, v) ∈ m) : find m k = some v := by
  induction m with
  | nil => simp at h
  | cons e rest ih =>
      obtain ⟨k', v'⟩ := e
      simp only [List.map_cons, List.nodup_cons] at hn
      rcases List.mem_cons.mp h with h1 | h1
      · simp only [Prod.mk.injEq] at h1
        simp [find, h1.1, h1.2]
      · have hk : k' ≠ k := by
          rintro rfl
          exact hn.1 (List.mem_map_of_mem Prod.fst h1)
        simp only [find, if_neg hk]
        exact ih hn.2 h1

theorem find_foldl_assign (entries codes : CodeMap) (k : Nat) (c : List Bool)
    (h : find (entries.foldl (fun m e => assign m e.1 e.2) codes) k = some c) :
    (k, c) ∈ entries ∨ find codes k = some c := by
  induction entries generalizing codes with
  | nil => exact Or.inr h
  | cons e rest ih =>
      rcases ih _ h with h1 | h1
      · exact Or.inl (List.mem_cons_of_mem _ h1)
      · rw [find_assign] at h1
        by_cases hk : k = e.1
        · rw [if_pos hk, Option.some.injEq] at h1
          left
          rw [hk, ← h1]
          exact List.mem_cons_self _ _
        · rw [if_neg hk] at h1
          exact Or.inr h1

/-- The function `generateCodes` assigns, from left to right, to the symbol of every leaf the
path to that leaf. -/
theorem generateCodes_eq_foldl (root : Node) (path : List Bool) (codes : CodeMap) :
    generateCodes root path codes
      = ((leafCodes root).map (fun e => (e.1, path ++ e.2))).foldl
          (fun m e => assign m e.1 e.2) codes := by
  induction root generalizing path codes with
  | null => rfl
  | mk ch f left right i ihl ihr =>
      unfold generateCodes leafCodes
      by_cases hleaf : (Node.mk ch f left right i).isLeaf = true
      · simp [hleaf]
      · simp only [hleaf, Bool.false_eq_true, if_false, List.map_append, List.foldl_append,
          List.map_map]
        rw [ihl, ihr]
        simp [Function.comp_def]

theorem generateCodes_mem (root : Node) (k : Nat) (c : List Bool)
    (h : find (generateCodes root [] []) k = some c) : (k, c) ∈ leafCodes root := by
  rw [generateCodes_eq_foldl] at h
  rcases find_foldl_assign _ _ _ _ h with h1 | h1
  · simpa using h1
  · simp [find] at h1

theorem generateCodes_of_nodup (root : Node) (h : ((leafCodes root).map Prod.fst).Nodup) :
    generateCodes root [] [] = leafCodes root := by
  rw [generateCodes_eq_foldl]
  have hmap : (leafCodes root).map (fun e => (e.1, [] ++ e.2)) = leafCodes root := by simp
  rw [hmap, foldl_assign_of_nodup _ [] (by simpa using h)]
  rfl

/-- The paths to two different leaves of a tree are never prefixes of each other. -/
theorem leafCodes_pairwise (root : Node) :
    (leafCodes root).Pairwise (fun e₁ e₂ => PrefixFree e₁.2 e₂.2) := by
  induction root with
  | null => simp [leafCodes]
  | mk ch f left right i ihl ihr =>
      unfold leafCodes
      by_cases hleaf : (Node.mk ch f left right i).isLeaf = true
      · simp [hleaf]
      · simp only [hleaf, Bool.false_eq_true, if_false]
        rw [List.pairwise_append]
        refine ⟨?_, ?_, ?_⟩
        · rw [List.pairwise_map]
          exact ihl.imp (fun h => by simpa [PrefixFree, List.cons_prefix_cons] using h)
        · rw [List.pairwise_map]
          exact ihr.imp (fun h => by simpa [PrefixFree, List.cons_prefix_cons] using h)
        · intro a ha b hb
          obtain ⟨a', _, rfl⟩ := List.mem_map.mp ha
          obtain ⟨b', _, rfl⟩ := List.mem_map.mp hb
          simp [PrefixFree, List.cons_prefix_cons]

theorem prefixFree_of_codes (root : Node) (s₁ s₂ : Nat) (c₁ c₂ : List Bool) (hs : s₁ ≠ s₂)
    (h₁ : find (generateCodes root [] []) s₁ = some c₁)
    (h₂ : find (generateCodes root [] []) s₂ = some c₂) : PrefixFree c₁ c₂ := by
  have m₁ := generateCodes_mem root s₁ c₁ h₁
  have m₂ := generateCodes_mem root s₂ c₂ h₂
  have hsymm : ∀ e₁ e₂ : Nat × List Bool, PrefixFree e₁.2 e₂.2 → PrefixFree e₂.2 e₁.2 :=
    fun _ _ h => ⟨h.2, h.1⟩
  have hne : (s₁, c₁) ≠ (s₂, c₂) := fun h => hs (congrArg Prod.fst h)
  exact (leafCodes_pairwise root).forall (fun {a b} h => hsymm a b h) m₁ m₂ hne

/-- Claim C4: for every non-empty frequency table `buildHuffmanTree` returns a tree, and in
the code table `generateCodes` produces from it, for two distinct symbols neither code is a
prefix of the other. -/
theorem codes_prefix_free (globalId : Nat) (freqMap : List (Nat × Int)) (h : freqMap ≠ []) :
    ∃ root g, buildHuffmanTree globalId freqMap = .ok (root, g)
      ∧ ∀ s₁ s₂ c₁ c₂, s₁ ≠ s₂ → find (generateCodes root [] []) s₁ = some c₁
          → find (generateCodes root [] []) s₂ = some c₂ → ¬ c₁ <+: c₂ ∧ ¬ c₂ <+: c₁ := by
  obtain ⟨root, g, hb, _⟩ := buildHuffmanTree_ok globalId freqMap h
  exact ⟨root, g, hb, fun s₁ s₂ c₁ c₂ hs h₁ h₂ => prefixFree_of_codes root s₁ s₂ c₁ c₂ hs h₁ h₂⟩

theorem codes_prefix_free_witness :
    ∃ root g, buildHuffmanTree 0 [(97, 2), (98, 3), (99, 2)] = .ok (root, g)
      ∧ ∀ s₁ s₂ c₁ c₂, s₁ ≠ s₂ → find (generateCodes root [] []) s₁ = some c₁
          → find (generateCodes root [] []) s₂ = some c₂ → ¬ c₁ <+: c₂ ∧ ¬ c₂ <+: c₁ :=
  codes_prefix_free 0 [(97, 2), (98, 3), (99, 2)] (by decide)

/-! ## Shape and leaves of the tree that is built -/

theorem Full.ne_null {t : Node} (h : Full t) : t ≠ .null := by
  cases h <;> exact Node.noConfusion

theorem isLeaf_false_of_left {ch : Nat} {f : Int} {left right : Node} {i : Int}
    (h : left ≠ .null) : (Node.mk ch f left right i).isLeaf = false := by
  cases left with
  | null => exact absurd rfl h
  | mk _ _ _ _ _ => rfl

theorem leafCodes_eq_map (t : Node) :
    leafCodes t = (leafEntries t).map (fun e => (e.1.1, e.2)) := by
  induction t with
  | null => rfl
  | mk ch f left right i ihl ihr =>
      unfold leafCodes leafEntries
      by_cases hleaf : (Node.mk ch f left right i).isLeaf = true
      · simp [hleaf]
      · simp [hleaf, ihl, ihr, Function.comp_def]

theorem leafCodes_keys (t : Node) :
    (leafCodes t).map Prod.fst = (tableOf t).map Prod.fst := by
  rw [leafCodes_eq_map, tableOf]
  simp [Function.comp_def]

theorem tableOf_leaf (ch : Nat) (f : Int) (i : Int) :
    tableOf (.mk ch f .null .null i) = [(ch, f)] := rfl

theorem tableOf_mergeNodes (left right : Node) (g : Nat) (h : left ≠ .null) :
    tableOf (mergeNodes left right g) = tableOf left ++ tableOf right := by
  simp only [tableOf, mergeNodes, leafEntries, isLeaf_false_of_left h, Bool.false_eq_true,
    if_false, List.map_append, List.map_map]
  rfl

theorem forestTable_push (minHeap : List Node) (n : Node) :
    (forestTable (push minHeap n)).Perm (tableOf n ++ forestTable minHeap) := by
  have h := (push_perm minHeap n).flatMap_right tableOf
  simpa [forestTable] using h

theorem pushLeaves_spec (entries : List (Nat × Int)) (globalId : Nat) (minHeap : List Node)
    (hfull : ∀ t ∈ minHeap, Full t) :
    (∀ t ∈ (pushLeaves entries globalId minHeap).1, Full t)
      ∧ (forestTable (pushLeaves entries globalId minHeap).1).Perm
          (forestTable minHeap ++ entries) := by
  induction entries generalizing globalId minHeap with
  | nil => exact ⟨hfull, by simp [pushLeaves]⟩
  | cons e rest ih =>
      obtain ⟨ch, freq⟩ := e
      have hfull' : ∀ t ∈ push minHeap (.mk ch freq .null .null (wrapInt globalId)),
          Full t := by
        intro t ht
        rcases List.mem_cons.mp ((push_perm _ _).subset ht) with h | h
        · rw [h]; exact Full.leaf _ _ _
        · exact hfull t h
      obtain ⟨h1, h2⟩ := ih (globalId + 1) _ hfull'
      refine ⟨h1, h2.trans ?_⟩
      have h3 := forestTable_push minHeap (.mk ch freq .null .null (wrapInt globalId))
      rw [tableOf_leaf] at h3
      refine (h3.append_right rest).trans ?_
      simp only [List.singleton_append, List.cons_append]
      exact (@List.perm_middle _ (ch, freq) (forestTable minHeap) rest).symm

theorem mergeLoop_spec (globalId : Nat) (minHeap : List Node) (hfull : ∀ t ∈ minHeap, Full t)
    (root : Node) (g : Nat) (h : mergeLoop globalId minHeap = ([root], g)) :
    Full root ∧ (tableOf root).Perm (forestTable minHeap) := by
  revert hfull h
  refine mergeLoop_induction (motive := fun gid heap => (∀ t ∈ heap, Full t) →
    mergeLoop gid heap = ([root], g) → Full root ∧ (tableOf root).Perm (forestTable heap))
    ?_ ?_ ?_ globalId minHeap
  · intro gid _ h
    simp [mergeLoop_nil] at h
  · intro gid x hfull h
    simp only [mergeLoop_singleton, Prod.mk.injEq, List.cons.injEq, and_true] at h
    rw [← h.1]
    exact ⟨hfull x (by simp), by simp [forestTable]⟩
  · intro gid left right rest ih hfull h
    rw [mergeLoop_cons_cons] at h
    have hl : Full left := hfull left (by simp)
    have hr : Full right := hfull right (by simp)
    have hfull' : ∀ t ∈ push rest (mergeNodes left right gid), Full t := by
      intro t ht
      rcases List.mem_cons.mp ((push_perm _ _).subset ht) with h1 | h1
      · rw [h1]; exact Full.node _ _ _ _ _ hl hr
      · exact hfull t (by simp [h1])
    obtain ⟨h1, h2⟩ := ih hfull' h
    refine ⟨h1, h2.trans ((forestTable_push _ _).trans ?_)⟩
    rw [tableOf_mergeNodes _ _ _ hl.ne_null]
    simp [forestTable]

/-- On a non-empty table `buildHuffmanTree` returns a tree in which every node has no child or
two children and whose leaves carry exactly the entries of the table. -/
theorem buildHuffmanTree_spec (globalId : Nat) (freqMap : List (Nat × Int))
    (h : freqMap ≠ []) :
    ∃ root g, buildHuffmanTree globalId freqMap = .ok (root, g) ∧ Full root
      ∧ (tableOf root).Perm freqMap := by
  obtain ⟨root, g, hb, hm⟩ := buildHuffmanTree_ok globalId freqMap h
  obtain ⟨hf, hp⟩ := pushLeaves_spec freqMap globalId [] (by simp)
  obtain ⟨h1, h2⟩ := mergeLoop_spec _ _ hf root g hm
  exact ⟨root, g, hb, h1, h2.trans (by simpa [forestTable] using hp)⟩

/-! ## The frequency table and the compress path -/

theorem assign_keys {α : Type} (m : List (Nat × α)) (key : Nat) (value : α) :
    (assign m key value).map Prod.fst
      = if key ∈ m.map Prod.fst then m.map Prod.fst else m.map Prod.fst ++ [key] := by
  induction m with
  | nil => simp [assign]
  | cons e rest ih =>
      obtain ⟨k, v⟩ := e
      by_cases h1 : k = key
      · simp [assign, h1]
      · by_cases h2 : key ∈ rest.map Prod.fst
        · simp only [assign, if_neg h1, List.map_cons, ih, if_pos h2]
          simp [h2]
        · simp only [assign, if_neg h1, List.map_cons, ih, if_neg h2]
          simp [h2, Ne.symm h1]

theorem find_isSome_iff {α : Type} (m : List (Nat × α)) (k : Nat) :
    (∃ v, find m k = some v) ↔ k ∈ m.map Prod.fst := by
  induction m with
  | nil => simp [find]
  | cons e rest ih =>
      obtain ⟨k', v'⟩ := e
      by_cases h1 : k' = k
      · simp [find, h1]
      · simp only [find, if_neg h1, ih, List.map_cons, List.mem_cons]
        constructor
        · exact Or.inr
        · rintro (h | h)
          · exact absurd h.symm h1
          · exact h

theorem countFrequencies_append (text : List Nat) (c : Nat) :
    countFrequencies (text ++ [c]) = increment (countFrequencies text) c := by
  simp [countFrequencies, List.foldl_append]

theorem wrapInt_range (x : Int) : -2147483648 ≤ wrapInt x ∧ wrapInt x < 2147483648 := by
  unfold wrapInt
  omega

theorem assign_values {α : Type} (P : α → Prop) (m : List (Nat × α)) (key : Nat) (value : α)
    (hm : ∀ e ∈ m, P e.2) (hv : P value) : ∀ e ∈ assign m key value, P e.2 := by
  induction m with
  | nil =>
      intro e he
      simp only [assign, List.mem_singleton] at he
      rw [he]; exact hv
  | cons e' rest ih =>
      obtain ⟨k, v⟩ := e'
      intro e he
      by_cases h1 : k = key
      · simp only [assign, if_pos h1, List.mem_cons] at he
        rcases he with he | he
        · rw [he]; exact hv
        · exact hm e (List.mem_cons_of_mem _ he)
      · simp only [assign, if_neg h1, List.mem_cons] at he
        rcases he with he | he
        · rw [he]; exact hm (k, v) (List.mem_cons_self _ _)
        · exact ih (fun e he => hm e (List.mem_cons_of_mem _ he)) e he

/-- The table built by the counting loop has distinct keys, the bytes of the text, and
values in the range of `int`. -/
theorem countFrequencies_spec (text : List Nat) :
    ((countFrequencies text).map Prod.fst).Nodup
      ∧ (∀ c, c ∈ (countFrequencies text).map Prod.fst ↔ c ∈ text)
      ∧ ∀ e ∈ countFrequencies text, -2147483648 ≤ e.2 ∧ e.2 < 2147483648 := by
  induction text using List.reverseRecOn with
  | nil => simp [countFrequencies]
  | append_singleton text c ih =>
      obtain ⟨h1, h2, h3⟩ := ih
      rw [countFrequencies_append, increment]
      refine ⟨?_, ?_, ?_⟩
      · rw [assign_keys]
        split
        · exact h1
        · rename_i hc
          exact List.Nodup.append h1 (List.nodup_singleton c) (by simpa using hc)
      · intro k
        rw [assign_keys]
        split
        · rename_i hc
          rw [h2, List.mem_append, List.mem_singleton]
          constructor
          · exact Or.inl
          · rintro (h | h)
            · exact h
            · rw [h]; exact (h2 c).mp hc
        · simp [h2]
      · exact assign_values (fun v => -2147483648 ≤ v ∧ v < 2147483648) _ _ _ h3
          (wrapInt_range _)

theorem encodeText_ok (text : List Nat) (codes : CodeMap)
    (h : ∀ c ∈ text, c ∈ codes.map Prod.fst) :
    encodeText text codes = .ok (text.flatMap (fun c => (find codes c).getD [])) := by
  induction text with
  | nil => rfl
  | cons c rest ih =>
      obtain ⟨code, hcode⟩ := (find_isSome_iff codes c).mpr (h c (List.mem_cons_self _ _))
      simp only [encodeText, hcode, ih (fun c hc => h c (List.mem_cons_of_mem _ hc)),
        List.flatMap_cons, Option.getD_some]

/-- The compress path on a non-empty text: a tree is built, its leaves carry the entries of
the frequency table, every byte of the text has a code, and a container is written. -/
theorem compress_ok (iter : FreqMap → FreqMap) (hiter : Enumerates iter) (text : List Nat)
    (h : text ≠ []) :
    ∃ root g, buildHuffmanTree 0 (iter (countFrequencies text)) = .ok (root, g) ∧ Full root
      ∧ (tableOf root).Perm (iter (countFrequencies text))
      ∧ generateCodes root [] [] = leafCodes root
      ∧ encodeText text (leafCodes root)
          = .ok (text.flatMap (fun c => (find (leafCodes root) c).getD []))
      ∧ compress iter text = .ok (writeCompressedFile
          (text.flatMap (fun c => (find (leafCodes root) c).getD []))
          (iter (countFrequencies text))) := by
  obtain ⟨hnd, hmem, _⟩ := countFrequencies_spec text
  have hne : iter (countFrequencies text) ≠ [] := by
    intro h0
    have hp := (hiter (countFrequencies text)).length_eq
    rw [h0] at hp
    have h1 : countFrequencies text = [] := List.length_eq_zero.mp hp.symm
    obtain ⟨c, rest, rfl⟩ := List.exists_cons_of_ne_nil h
    have := (hmem c).mpr (List.mem_cons_self _ _)
    rw [h1] at this
    simp at this
  obtain ⟨root, g, hb, hfull, hperm⟩ := buildHuffmanTree_spec 0 _ hne
  have hkeys : ((leafCodes root).map Prod.fst).Perm ((countFrequencies text).map Prod.fst) := by
    rw [leafCodes_keys]
    exact (hperm.trans (hiter _)).map Prod.fst
  have hgen : generateCodes root [] [] = leafCodes root :=
    generateCodes_of_nodup root (hkeys.nodup_iff.mpr hnd)
  have henc := encodeText_ok text (leafCodes root)
    (fun c hc => hkeys.mem_iff.mpr ((hmem c).mpr hc))
  refine ⟨root, g, hb, hfull, hperm, hgen, henc, ?_⟩
  simp only [compress, hb, hgen, henc]

/-! ## The alphabet of 256 symbols -/

theorem length_countFrequencies_range :
    (countFrequencies (List.range 256)).length = 256 := by
  obtain ⟨hnd, hmem, _⟩ := countFrequencies_spec (List.range 256)
  have hp : ((countFrequencies (List.range 256)).map Prod.fst).Perm (List.range 256) :=
    (List.perm_ext_iff_of_nodup hnd (List.nodup_range 256)).mpr hmem
  simpa using hp.length_eq

/-- Claim C7, evaluation: whatever the enumeration orders, the input that holds every byte
value once is compressed to a container whose alphabet-size byte is 0; reading it back gives
an empty frequency table, and `decompress` then takes `top()` of an empty queue. -/
theorem full_alphabet_size_overflows (iter₁ iter₂ : FreqMap → FreqMap)
    (h₁ : Enumerates iter₁) (h₂ : Enumerates iter₂) (uninit : Nat → Int) :
    ∃ file, compress iter₁ (List.range 256) = .ok file
      ∧ (iter₁ (countFrequencies (List.range 256))).length = 256
      ∧ file.head? = some 0
      ∧ readCompressedFile uninit (some file) = .ok ([], unpackBits file.tail)
      ∧ decompress iter₂ uninit (some file) = .error .undefined := by
  obtain ⟨root, g, _, _, _, _, _, hc⟩ := compress_ok iter₁ h₁ (List.range 256) (by decide)
  have hlen : (iter₁ (countFrequencies (List.range 256))).length = 256 := by
    rw [(h₁ _).length_eq, length_countFrequencies_range]
  have hhead : ∀ bits, writeCompressedFile bits (iter₁ (countFrequencies (List.range 256)))
      = 0 :: ((iter₁ (countFrequencies (List.range 256))).flatMap
          (fun e => e.1 :: intBytes e.2) ++ packBits bits) := by
    intro bits
    simp only [writeCompressedFile, headerBytes, hlen, List.cons_append]
  have hread : ∀ bits, readCompressedFile uninit (some (writeCompressedFile bits
      (iter₁ (countFrequencies (List.range 256)))))
      = .ok ([], unpackBits (writeCompressedFile bits
          (iter₁ (countFrequencies (List.range 256)))).tail) := by
    intro bits
    rw [hhead]
    rfl
  have hnil : iter₂ [] = [] := List.perm_nil.mp (h₂ [])
  refine ⟨_, hc, hlen, ?_, hread _, ?_⟩
  · rw [hhead]; rfl
  · simp only [decompress, hread, hnil]
    rfl

theorem full_alphabet_size_overflows_witness :
    ∃ file, compress id (List.range 256) = .ok file
      ∧ (id (countFrequencies (List.range 256))).length = 256
      ∧ file.head? = some 0
      ∧ readCompressedFile (fun _ => 0) (some file) = .ok ([], unpackBits file.tail)
      ∧ decompress id (fun _ => 0) (some file) = .error .undefined :=
  full_alphabet_size_overflows id id (fun _ => List.Perm.refl _) (fun _ => List.Perm.refl _)
    (fun _ => 0)

/-! ## Decoding -/

theorem decodeLoop_acc (root : Node) (bits : List Bool) (current : Node) (decoded : List Nat) :
    decodeLoop root bits current decoded
      = (decodeLoop root bits current []).map (fun out => decoded ++ out) := by
  induction bits generalizing current decoded with
  | nil => simp [decodeLoop, Except.map]
  | cons bit rest ih =>
      cases current with
      | null => simp [decodeLoop, Except.map]
      | mk ch f left right i =>
          cases hnext : (if bit = false then left else right) with
          | null => simp [decodeLoop, hnext, Except.map]
          | mk ch' f' l' r' i' =>
              by_cases hleaf : (Node.mk ch' f' l' r' i').isLeaf = true
              · simp only [decodeLoop, hnext, hleaf, if_true]
                rw [ih root (decoded ++ [ch']), ih root ([] ++ [ch'])]
                cases decodeLoop root rest root [] <;> simp [Except.map]
              · simp only [decodeLoop, hnext, hleaf, Bool.false_eq_true, if_false]
                exact ih _ _

theorem Full.children {ch : Nat} {f : Int} {left right : Node} {i : Int}
    (h : Full (.mk ch f left right i)) (hleaf : (Node.mk ch f left right i).isLeaf = false) :
    Full left ∧ Full right := by
  cases h with
  | leaf => simp [Node.isLeaf] at hleaf
  | node _ _ _ _ _ hl hr => exact ⟨hl, hr⟩

theorem leafCodes_of_isLeaf {t : Node} (h : t.isLeaf = true) : leafCodes t = [(t.ch, [])] := by
  cases t with
  | null => simp [Node.isLeaf] at h
  | mk ch f left right i => simp [leafCodes, h, Node.ch]

/-- One step of the walk of `decodeText` from a node with two children. -/
theorem decodeLoop_step (root : Node) (bit : Bool) (bits : List Bool) (ch : Nat) (f : Int)
    (left right : Node) (i : Int) (decoded : List Nat) (next : Node)
    (hnext : next = if bit = false then left else right) (hne : next ≠ .null) :
    decodeLoop root (bit :: bits) (.mk ch f left right i) decoded
      = if next.isLeaf then decodeLoop root bits root (decoded ++ [next.ch])
        else decodeLoop root bits next decoded := by
  cases next with
  | null => exact absurd rfl hne
  | mk ch' f' l' r' i' =>
      simp only [decodeLoop, ← hnext, Node.ch]

/-- Walking from an inner node along the path of one of its leaves emits the symbol of that
leaf and returns to the root. -/
theorem decodeLoop_path (root : Node) (t : Node) (hfull : Full t) (hleaf : t.isLeaf = false)
    (s : Nat) (path rest : List Bool) (decoded : List Nat) (hmem : (s, path) ∈ leafCodes t) :
    decodeLoop root (path ++ rest) t decoded = decodeLoop root rest root (decoded ++ [s]) := by
  induction hfull generalizing path with
  | leaf ch f i => simp [Node.isLeaf] at hleaf
  | node ch f left right i hl hr ihl ihr =>
      simp only [leafCodes, hleaf, Bool.false_eq_true, if_false, List.mem_append,
        List.mem_map] at hmem
      rcases hmem with ⟨e, he, heq⟩ | ⟨e, he, heq⟩
      · simp only [Prod.mk.injEq] at heq
        obtain ⟨hs, hp⟩ := heq
        subst hp
        rw [List.cons_append, decodeLoop_step root false _ ch f left right i decoded left
          (by simp) hl.ne_null]
        by_cases hl_leaf : left.isLeaf = true
        · rw [if_pos hl_leaf]
          rw [leafCodes_of_isLeaf hl_leaf, List.mem_singleton] at he
          subst he
          simp only [List.nil_append] at *
          rw [← hs]
        · rw [if_neg hl_leaf]
          have := ihl (by simpa using hl_leaf) e.2 (by rw [← hs]; exact he)
          exact this
      · simp only [Prod.mk.injEq] at heq
        obtain ⟨hs, hp⟩ := heq
        subst hp
        rw [List.cons_append, decodeLoop_step root true _ ch f left right i decoded right
          (by simp) hr.ne_null]
        by_cases hr_leaf : right.isLeaf = true
        · rw [if_pos hr_leaf]
          rw [leafCodes_of_isLeaf hr_leaf, List.mem_singleton] at he
          subst he
          simp only [List.nil_append] at *
          rw [← hs]
        · rw [if_neg hr_leaf]
          have := ihr (by simpa using hr_leaf) e.2 (by rw [← hs]; exact he)
          exact this

/-- Decoding the codes of a text followed by further bits emits the text and goes on with the
further bits from the root. -/
theorem decodeLoop_encoded (root : Node) (hfull : Full root) (hleaf : root.isLeaf = false)
    (text : List Nat)
    (htext : ∀ c ∈ text, c ∈ (leafCodes root).map Prod.fst) (rest : List Bool)
    (decoded : List Nat) :
    decodeLoop root (text.flatMap (fun c => (find (leafCodes root) c).getD []) ++ rest) root
        decoded
      = decodeLoop root rest root (decoded ++ text) := by
  induction text generalizing decoded with
  | nil => simp
  | cons c tail ih =>
      obtain ⟨code, hcode⟩ :=
        (find_isSome_iff (leafCodes root) c).mpr (htext c (List.mem_cons_self _ _))
      have hmem := find_some_mem _ _ _ hcode
      rw [List.flatMap_cons, hcode, Option.getD_some, List.append_assoc,
        decodeLoop_path root root hfull hleaf c code _ decoded hmem,
        ih (fun c hc => htext c (List.mem_cons_of_mem _ hc))]
      simp

/-- From a node with two children in a tree whose nodes all have no child or two children,
the walk of `decodeText` never follows a missing child. -/
theorem decodeLoop_ok (root : Node) (hfull : Full root) (hleaf : root.isLeaf = false)
    (bits : List Bool) (current : Node) (hcur : Full current) (hcl : current.isLeaf = false)
    (decoded : List Nat) : ∃ out, decodeLoop root bits current decoded = .ok out := by
  induction bits generalizing current decoded with
  | nil => exact ⟨decoded, rfl⟩
  | cons bit rest ih =>
      cases current with
      | null => exact absurd rfl hcur.ne_null
      | mk ch f left right i =>
          obtain ⟨hl, hr⟩ := hcur.children hcl
          have hnf : Full (if bit = false then left else right) := by
            split
            · exact hl
            · exact hr
          rw [decodeLoop_step root bit rest ch f left right i decoded _ rfl hnf.ne_null]
          generalize (if bit = false then left else right) = next at hnf
          by_cases hn : next.isLeaf = true
          · rw [if_pos hn]
            exact ih root hfull hleaf _
          · rw [if_neg hn]
            exact ih _ hnf (by simpa using hn) _

theorem isLeaf_false_of_length {t : Node} (h : 2 ≤ (tableOf t).length) : t.isLeaf = false := by
  by_contra hl
  have hl' : t.isLeaf = true := by simpa using hl
  have := congrArg List.length (leafCodes_keys t)
  rw [leafCodes_of_isLeaf hl'] at this
  simp at this
  omega

/-! ## A lower bound for every assignment of depths that satisfies Kraft's inequality -/

theorem huffmanCost_cons_cons (a b : Int) (rest : List Int) :
    huffmanCost (a :: b :: rest)
      = a + b + huffmanCost (List.orderedInsert (· ≤ ·) (a + b) rest) := by
  rw [huffmanCost]

theorem huffmanCost_singleton (a : Int) : huffmanCost [a] = 0 := by
  rw [huffmanCost]
  intro a b rest h
  simp at h

theorem configCost_cons (e : Int × Nat) (config : List (Int × Nat)) :
    configCost (e :: config) = e.1 * (e.2 : Int) + configCost config := by
  simp [configCost]

theorem configCost_perm {c₁ c₂ : List (Int × Nat)} (h : c₁.Perm c₂) :
    configCost c₁ = configCost c₂ :=
  (h.map _).sum_eq

theorem kraftSum_cons (d : Nat) (depths : List Nat) :
    kraftSum (d :: depths) = (1 / 2 : ℚ) ^ d + kraftSum depths := by
  simp [kraftSum]

theorem kraftSum_perm {d₁ d₂ : List Nat} (h : d₁.Perm d₂) : kraftSum d₁ = kraftSum d₂ :=
  (h.map _).sum_eq

/-- The smallest weight can be given the largest depth without raising the cost. -/
theorem swapDeepest (w : Int) (d : Nat) (config : List (Int × Nat))
    (hmin : ∀ e ∈ config, w ≤ e.1) :
    ∃ (d' : Nat) (config' : List (Int × Nat)),
      config'.map Prod.fst = config.map Prod.fst
        ∧ (d' :: config'.map Prod.snd).Perm (d :: config.map Prod.snd)
        ∧ (∀ e ∈ config', e.2 ≤ d')
        ∧ configCost ((w, d') :: config') ≤ configCost ((w, d) :: config) := by
  induction config with
  | nil => exact ⟨d, [], rfl, List.Perm.refl _, by simp, le_refl _⟩
  | cons e rest ih =>
      obtain ⟨d₁, rest', hw, hd, hle, hcost⟩ := ih (fun x hx => hmin x (List.mem_cons_of_mem _ hx))
      obtain ⟨we, de⟩ := e
      have hwe : w ≤ we := hmin (we, de) (List.mem_cons_self _ _)
      simp only [configCost_cons] at hcost ⊢
      by_cases hcmp : de ≤ d₁
      · refine ⟨d₁, (we, de) :: rest', by simp [hw], ?_, ?_, ?_⟩
        · simp only [List.map_cons]
          exact (List.Perm.swap de d₁ _).trans ((hd.cons de).trans (List.Perm.swap d de _))
        · intro x hx
          rcases List.mem_cons.mp hx with rfl | hx
          · exact hcmp
          · exact hle x hx
        · simp only [configCost_cons]
          linarith
      · have hlt : d₁ < de := Nat.lt_of_not_le hcmp
        refine ⟨de, (we, d₁) :: rest', by simp [hw], ?_, ?_, ?_⟩
        · simp only [List.map_cons]
          exact (hd.cons de).trans (List.Perm.swap d de _)
        · intro x hx
          rcases List.mem_cons.mp hx with rfl | hx
          · exact le_of_lt hlt
          · exact le_trans (hle x hx) (le_of_lt hlt)
        · simp only [configCost_cons]
          have hdd : (d₁ : Int) ≤ de := by exact_mod_cast le_of_lt hlt
          nlinarith [mul_nonneg (sub_nonneg.mpr hwe) (sub_nonneg.mpr hdd)]

/-- The Kraft sum of depths that are all at most `D` is a multiple of `2 ^ (-D)`. -/
theorem kraftSum_dyadic (D : Nat) (depths : List Nat) (h : ∀ d ∈ depths, d ≤ D) :
    ∃ N : Nat, kraftSum depths = (N : ℚ) / 2 ^ D := by
  induction depths with
  | nil => exact ⟨0, by simp [kraftSum]⟩
  | cons d rest ih =>
      obtain ⟨N, hN⟩ := ih (fun x hx => h x (List.mem_cons_of_mem _ hx))
      have hd : d ≤ D := h d (List.mem_cons_self _ _)
      refine ⟨2 ^ (D - d) + N, ?_⟩
      rw [kraftSum_cons, hN]
      have hpow : (2 : ℚ) ^ D = 2 ^ (D - d) * 2 ^ d := by
        rw [← pow_add, Nat.sub_add_cancel hd]
      push_cast
      rw [add_div, hpow]
      congr 1
      field_simp

/-- Two weights at the two largest depths can be merged into one entry one level higher
without breaking Kraft's inequality. -/
theorem kraftSum_merge (D₁ D₂ : Nat) (depths : List Nat) (hle : ∀ d ∈ depths, d ≤ D₂)
    (hk : kraftSum (D₁ :: D₂ :: depths) ≤ 1) :
    1 ≤ D₂ ∧ kraftSum ((D₂ - 1) :: depths) ≤ 1 := by
  obtain ⟨N, hN⟩ := kraftSum_dyadic D₂ depths hle
  rw [kraftSum_cons, kraftSum_cons, hN] at hk
  have hpos : (0 : ℚ) < (1 / 2) ^ D₁ := by positivity
  have h2pos : (0 : ℚ) < 2 ^ D₂ := by positivity
  have hhalf : (1 / 2 : ℚ) ^ D₂ = 1 / 2 ^ D₂ := by rw [one_div, one_div, inv_pow]
  have hlt : (1 : ℚ) / 2 ^ D₂ + (N : ℚ) / 2 ^ D₂ < 1 := by
    rw [hhalf] at hk
    linarith
  rw [← add_div, div_lt_one h2pos] at hlt
  have hnat : 1 + N < 2 ^ D₂ := by exact_mod_cast hlt
  have hD : 1 ≤ D₂ := by
    rcases Nat.eq_zero_or_pos D₂ with h0 | h0
    · rw [h0] at hnat; simp at hnat
    · exact h0
  refine ⟨hD, ?_⟩
  rw [kraftSum_cons, hN]
  have hpow : (1 / 2 : ℚ) ^ (D₂ - 1) = 2 / 2 ^ D₂ := by
    obtain ⟨k, rfl⟩ : ∃ k, D₂ = k + 1 := ⟨D₂ - 1, by omega⟩
    simp only [Nat.add_sub_cancel, pow_succ, one_div, inv_pow]
    field_simp
  rw [hpow, ← add_div, div_le_one h2pos]
  have hnat2 : 2 + N ≤ 2 ^ D₂ := by omega
  exact_mod_cast hnat2

theorem exists_perm_cons_of_mem {α : Type} {a : α} {l : List α} (h : a ∈ l) :
    ∃ l', l.Perm (a :: l') := by
  obtain ⟨s, t, rfl⟩ := List.append_of_mem h
  exact ⟨s ++ t, List.perm_middle⟩

/-- Lower bound: an assignment of depths to non-negative weights that satisfies Kraft's
inequality costs at least `huffmanCost` of the sorted weights. -/
theorem huffmanCost_le_configCost (n : Nat) :
    ∀ (ws : List Int) (config : List (Int × Nat)), config.length = n + 1
      → ws.Sorted (· ≤ ·) → ws.Perm (config.map Prod.fst) → (∀ e ∈ config, 0 ≤ e.1)
      → kraftSum (config.map Prod.snd) ≤ 1 → huffmanCost ws ≤ configCost config := by
  induction n with
  | zero =>
      intro ws config hlen _ hperm hnn _
      obtain ⟨e, rfl⟩ := List.length_eq_one.mp hlen
      have hws : ws = [e.1] := List.perm_singleton.mp hperm
      rw [hws, huffmanCost_singleton, configCost_cons]
      have h0 := hnn e (List.mem_singleton_self e)
      have h1 : (0 : Int) ≤ (e.2 : Int) := Int.ofNat_nonneg _
      simpa [configCost] using mul_nonneg h0 h1
  | succ n ih =>
      intro ws config hlen hsorted hperm hnn hkraft
      have hwlen : ws.length = n + 2 := by rw [hperm.length_eq, List.length_map, hlen]
      obtain ⟨w₁, ws₁, rfl⟩ : ∃ a l, ws = a :: l := List.exists_cons_of_ne_nil (by
        intro h; rw [h] at hwlen; simp at hwlen)
      obtain ⟨w₂, rest, rfl⟩ : ∃ a l, ws₁ = a :: l := List.exists_cons_of_ne_nil (by
        intro h; rw [h] at hwlen; simp at hwlen)
      have hs₁ := List.sorted_cons.mp hsorted
      have hs₂ := List.sorted_cons.mp hs₁.2
      -- the entries that carry the two smallest weights
      have hm₁ : w₁ ∈ config.map Prod.fst := hperm.subset (List.mem_cons_self _ _)
      obtain ⟨e₁, he₁, hw₁⟩ := List.mem_map.mp hm₁
      obtain ⟨L₁, hp₁⟩ := exists_perm_cons_of_mem he₁
      have hperm₁ : (w₂ :: rest).Perm (L₁.map Prod.fst) := by
        have := hperm.trans (hp₁.map Prod.fst)
        rw [List.map_cons, hw₁] at this
        exact (List.perm_cons w₁).mp this
      have hm₂ : w₂ ∈ L₁.map Prod.fst := hperm₁.subset (List.mem_cons_self _ _)
      obtain ⟨e₂, he₂, hw₂⟩ := List.mem_map.mp hm₂
      obtain ⟨L₂, hp₂⟩ := exists_perm_cons_of_mem he₂
      have hperm₂ : rest.Perm (L₂.map Prod.fst) := by
        have := hperm₁.trans (hp₂.map Prod.fst)
        rw [List.map_cons, hw₂] at this
        exact (List.perm_cons w₂).mp this
      have hpL : config.Perm (e₁ :: e₂ :: L₂) := hp₁.trans (hp₂.cons e₁)
      have hlen₂ : L₂.length = n := by
        have := hpL.length_eq
        simp only [List.length_cons] at this
        omega
      obtain ⟨we₁, d₁⟩ := e₁
      obtain ⟨we₂, d₂⟩ := e₂
      simp only at hw₁ hw₂
      subst hw₁ hw₂
      have hw₁nn : 0 ≤ we₁ := hnn (we₁, d₁) (hpL.symm.subset (by simp))
      have hw₂nn : 0 ≤ we₂ := hnn (we₂, d₂) (hpL.symm.subset (by simp))
      have hL₂nn : ∀ e ∈ L₂, 0 ≤ e.1 := fun e he => hnn e (hpL.symm.subset (by simp [he]))
      have hL₂min : ∀ e ∈ L₂, we₂ ≤ e.1 := fun e he =>
        hs₂.1 e.1 (hperm₂.symm.subset (List.mem_map_of_mem Prod.fst he))
      -- first swap: the smallest weight goes to the largest depth
      obtain ⟨D₁, T, hTw, hTd, hTle, hTcost⟩ := swapDeepest we₁ d₁ ((we₂, d₂) :: L₂) (by
        intro e he
        rcases List.mem_cons.mp he with rfl | he
        · exact hs₁.1 _ (List.mem_cons_self _ _)
        · exact le_trans (hs₁.1 _ (List.mem_cons_self _ _)) (hL₂min e he))
      obtain ⟨t, L₂', rfl⟩ : ∃ a l, T = a :: l := List.exists_cons_of_ne_nil (by
        intro h; rw [h] at hTw; simp at hTw)
      obtain ⟨wt, d₂'⟩ := t
      simp only [List.map_cons, List.cons.injEq] at hTw
      obtain ⟨hwt, hTw'⟩ := hTw
      subst hwt
      -- second swap: the second smallest weight goes to the largest remaining depth
      obtain ⟨D₂, L₂'', hw'', hd'', hle'', hcost''⟩ := swapDeepest wt d₂' L₂' (by
        intro e he
        have : e.1 ∈ L₂.map Prod.fst := by rw [← hTw']; exact List.mem_map_of_mem Prod.fst he
        obtain ⟨x, hx, hxe⟩ := List.mem_map.mp this
        rw [← hxe]; exact hL₂min x hx)
      have hD : D₂ ≤ D₁ := by
        have hmem : D₂ ∈ d₂' :: L₂'.map Prod.snd := hd''.subset (List.mem_cons_self _ _)
        rcases List.mem_cons.mp hmem with h | h
        · rw [h]; exact hTle (wt, d₂') (List.mem_cons_self _ _)
        · obtain ⟨x, hx, hxe⟩ := List.mem_map.mp h
          rw [← hxe]; exact hTle x (List.mem_cons_of_mem _ hx)
      -- Kraft's inequality after the swaps
      have hk : kraftSum (D₁ :: D₂ :: L₂''.map Prod.snd) ≤ 1 := by
        have e1 : kraftSum (config.map Prod.snd)
            = kraftSum (d₁ :: ((wt, d₂) :: L₂).map Prod.snd) :=
          kraftSum_perm (hpL.map Prod.snd)
        have e2 := kraftSum_perm hTd
        have e3 := kraftSum_perm hd''
        rw [kraftSum_cons] at e2 ⊢
        rw [List.map_cons] at e2
        rw [e1, kraftSum_cons] at hkraft
        rw [e3]
        linarith [kraftSum_cons d₁ (((wt, d₂) :: L₂).map Prod.snd)]
      obtain ⟨hD₂, hk'⟩ := kraftSum_merge D₁ D₂ (L₂''.map Prod.snd) (by
        intro d hd
        obtain ⟨x, hx, hxe⟩ := List.mem_map.mp hd
        rw [← hxe]; exact hle'' x hx) hk
      -- the merged assignment
      have hlen'' : L₂''.length = n := by
        have := congrArg List.length hw''
        have h2 := congrArg List.length hTw'
        simp only [List.length_map] at this h2
        omega
      have hstep := ih (List.orderedInsert (· ≤ ·) (we₁ + wt) rest)
        ((we₁ + wt, D₂ - 1) :: L₂'') (by simp [hlen''])
        (hs₂.2.orderedInsert _ _)
        ((List.perm_orderedInsert _ _ _).trans (by
          rw [List.map_cons, hw'', hTw']
          exact hperm₂.cons _))
        (by
          intro e he
          rcases List.mem_cons.mp he with rfl | he
          · exact add_nonneg hw₁nn hw₂nn
          · have : e.1 ∈ L₂.map Prod.fst := by
              rw [← hTw', ← hw'']; exact List.mem_map_of_mem Prod.fst he
            obtain ⟨x, hx, hxe⟩ := List.mem_map.mp this
            rw [← hxe]; exact hL₂nn x hx)
        (by simpa using hk')
      rw [huffmanCost_cons_cons]
      have hc0 : configCost config = configCost ((we₁, d₁) :: (wt, d₂) :: L₂) :=
        configCost_perm hpL
      simp only [configCost_cons] at hTcost hcost'' hstep hc0 ⊢
      rw [hc0]
      have hcast : ((D₂ - 1 : Nat) : Int) = (D₂ : Int) - 1 := by
        rw [Nat.cast_sub hD₂]; rfl
      rw [hcast] at hstep
      have hDD : (D₂ : Int) ≤ D₁ := by exact_mod_cast hD
      nlinarith [mul_nonneg hw₁nn (sub_nonneg.mpr hDD)]

/-! ## Kraft's inequality for the leaves of a tree -/

theorem kraftSum_append (d₁ d₂ : List Nat) : kraftSum (d₁ ++ d₂) = kraftSum d₁ + kraftSum d₂ := by
  simp [kraftSum]

theorem kraftSum_map_succ (depths : List Nat) :
    kraftSum (depths.map (· + 1)) = kraftSum depths / 2 := by
  induction depths with
  | nil => simp [kraftSum]
  | cons d rest ih =>
      rw [List.map_cons, kraftSum_cons, kraftSum_cons, ih, pow_succ]
      ring

/-- The depths of the leaves of any tree satisfy Kraft's inequality. -/
theorem kraftSum_leafCodes (t : Node) :
    kraftSum ((leafCodes t).map (fun e => e.2.length)) ≤ 1 := by
  induction t with
  | null => simp [leafCodes, kraftSum]
  | mk ch f left right i ihl ihr =>
      unfold leafCodes
      by_cases hleaf : (Node.mk ch f left right i).isLeaf = true
      · simp [hleaf, kraftSum]
      · simp only [hleaf, Bool.false_eq_true, if_false, List.map_append, List.map_map,
          kraftSum_append]
        have hl : kraftSum ((leafCodes left).map
            ((fun e : Nat × List Bool => e.2.length) ∘ fun e => (e.1, false :: e.2)))
            = kraftSum ((leafCodes left).map (fun e => e.2.length)) / 2 := by
          rw [← kraftSum_map_succ, List.map_map]
          rfl
        have hr : kraftSum ((leafCodes right).map
            ((fun e : Nat × List Bool => e.2.length) ∘ fun e => (e.1, true :: e.2)))
            = kraftSum ((leafCodes right).map (fun e => e.2.length)) / 2 := by
          rw [← kraftSum_map_succ, List.map_map]
          rfl
        rw [hl, hr]
        linarith

theorem codeLength_of_mem (t : Node) (hnd : ((leafCodes t).map Prod.fst).Nodup) (s : Nat)
    (path : List Bool) (h : (s, path) ∈ leafCodes t) : codeLength t s = path.length := by
  rw [codeLength, generateCodes_of_nodup t hnd, find_of_mem_nodup _ _ _ hnd h]
  rfl

/-- The code lengths a tree gives the symbols of a table, when its leaves carry exactly these
symbols, satisfy Kraft's inequality. -/
theorem kraftSum_codeLength (freqMap : List (Nat × Int)) (t : Node)
    (hkeys : (freqMap.map Prod.fst).Nodup)
    (hleaves : ((leafCodes t).map Prod.fst).Perm (freqMap.map Prod.fst)) :
    kraftSum (freqMap.map (fun e => codeLength t e.1)) ≤ 1 := by
  have hnd : ((leafCodes t).map Prod.fst).Nodup := hleaves.nodup_iff.mpr hkeys
  have h1 : freqMap.map (fun e => codeLength t e.1)
      = (freqMap.map Prod.fst).map (codeLength t) := by
    rw [List.map_map]; rfl
  have h2 : ((leafCodes t).map Prod.fst).map (codeLength t)
      = (leafCodes t).map (fun e => e.2.length) := by
    rw [List.map_map]
    apply List.map_congr_left
    intro e he
    exact codeLength_of_mem t hnd e.1 e.2 he
  rw [h1, ← kraftSum_perm (hleaves.map (codeLength t)), h2]
  exact kraftSum_leafCodes t

/-- Every tree whose leaves carry exactly the symbols of a table of non-negative counts has a
weighted path length of at least `huffmanCost` of the sorted counts. -/
theorem huffmanCost_le_weightedPathLength (freqMap : List (Nat × Int)) (hne : freqMap ≠ [])
    (hkeys : (freqMap.map Prod.fst).Nodup) (hnn : ∀ e ∈ freqMap, 0 ≤ e.2) (ws : List Int)
    (hsorted : ws.Sorted (· ≤ ·)) (hperm : ws.Perm (freqMap.map Prod.snd)) (t : Node)
    (hleaves : ((leafCodes t).map Prod.fst).Perm (freqMap.map Prod.fst)) :
    huffmanCost ws ≤ weightedPathLength freqMap t := by
  obtain ⟨n, hn⟩ : ∃ n, freqMap.length = n + 1 :=
    ⟨freqMap.length - 1, by
      have := List.length_pos.mpr hne
      omega⟩
  have h := huffmanCost_le_configCost n ws (freqMap.map (fun e => (e.2, codeLength t e.1)))
    (by simpa using hn) hsorted (by simpa [Function.comp_def] using hperm)
    (by
      intro e he
      obtain ⟨x, hx, rfl⟩ := List.mem_map.mp he
      exact hnn x hx)
    (by simpa [Function.comp_def] using kraftSum_codeLength freqMap t hkeys hleaves)
  simpa [configCost, weightedPathLength, Function.comp_def] using h

/-! ## The cost of the tree that is built -/

theorem configCost_append (c₁ c₂ : List (Int × Nat)) :
    configCost (c₁ ++ c₂) = configCost c₁ + configCost c₂ := by
  simp [configCost]

theorem configCost_deeper (entries : List ((Nat × Int) × List Bool)) (bit : Bool) :
    configCost ((entries.map (fun e => (e.1, bit :: e.2))).map (fun e => (e.1.2, e.2.length)))
      = configCost (entries.map (fun e => (e.1.2, e.2.length)))
        + ((entries.map Prod.fst).map Prod.snd).sum := by
  induction entries with
  | nil => simp [configCost]
  | cons e rest ih =>
      simp only [List.map_cons, configCost_cons, List.sum_cons, ih, List.length_cons]
      push_cast
      ring

theorem treeCost_mergeNodes (left right : Node) (g : Nat) (h : left ≠ .null) :
    treeCost (mergeNodes left right g)
      = treeCost left + treeCost right + leafWeight left + leafWeight right := by
  simp only [treeCost, mergeNodes, leafEntries, isLeaf_false_of_left h, Bool.false_eq_true,
    if_false, List.map_append, configCost_append, configCost_deeper, leafWeight, tableOf]
  ring

theorem leafWeight_mergeNodes (left right : Node) (g : Nat) (h : left ≠ .null) :
    leafWeight (mergeNodes left right g) = leafWeight left + leafWeight right := by
  simp [leafWeight, tableOf_mergeNodes left right g h]

theorem compare_true_le {a b : Node} (h : Compare a b = true) : b.freq ≤ a.freq := by
  unfold Compare at h
  split at h
  · rename_i heq; rw [heq]
  · exact le_of_lt (by simpa using h)

theorem compare_false_le {a b : Node} (h : Compare a b = false) : a.freq ≤ b.freq := by
  unfold Compare at h
  split at h
  · rename_i heq; rw [heq]
  · simpa using h

/-- Pushing a node keeps the frequencies of the queue in ascending order. -/
theorem push_sorted (minHeap : List Node) (n : Node)
    (h : (minHeap.map Node.freq).Sorted (· ≤ ·)) :
    ((push minHeap n).map Node.freq).Sorted (· ≤ ·) := by
  induction minHeap with
  | nil => simp [push]
  | cons x rest ih =>
      have hs := List.sorted_cons.mp h
      unfold push
      by_cases hc : Compare x n = true
      · rw [if_pos hc]
        simp only [List.map_cons]
        refine List.sorted_cons.mpr ⟨?_, h⟩
        intro b hb
        rcases List.mem_cons.mp hb with rfl | hb
        · exact compare_true_le hc
        · exact le_trans (compare_true_le hc) (hs.1 b hb)
      · rw [if_neg hc]
        simp only [List.map_cons]
        refine List.sorted_cons.mpr ⟨?_, ih hs.2⟩
        intro b hb
        obtain ⟨y, hy, rfl⟩ := List.mem_map.mp hb
        rcases List.mem_cons.mp ((push_perm rest n).subset hy) with rfl | hy
        · exact compare_false_le (by simpa using hc)
        · exact hs.1 _ (List.mem_map_of_mem Node.freq hy)

theorem wrapInt_of_range (x : Int) (hlo : 0 ≤ x) (hhi : x < 2147483648) : wrapInt x = x := by
  unfold wrapInt
  omega

theorem sum_nonneg_of_forall {l : List Int} (h : ∀ x ∈ l, 0 ≤ x) : 0 ≤ l.sum := by
  induction l with
  | nil => simp
  | cons a rest ih =>
      rw [List.sum_cons]
      exact add_nonneg (h a (List.mem_cons_self _ _))
        (ih (fun x hx => h x (List.mem_cons_of_mem _ hx)))

/-- The merge loop on a queue of trees whose frequencies are the sums of their leaves, are
non-negative and sum to less than `2 ^ 31`: the cost of the final tree is the cost of the
trees of the queue plus `huffmanCost` of their frequencies. -/
theorem mergeLoop_cost (root : Node) (g' : Nat) (globalId : Nat) (minHeap : List Node) :
    (∀ t ∈ minHeap, Full t ∧ t.freq = leafWeight t ∧ 0 ≤ t.freq)
      → (minHeap.map Node.freq).Sorted (· ≤ ·)
      → (minHeap.map Node.freq).sum < 2147483648
      → mergeLoop globalId minHeap = ([root], g')
      → treeCost root = (minHeap.map treeCost).sum + huffmanCost (minHeap.map Node.freq) := by
  refine mergeLoop_induction (motive := fun gid heap =>
    (∀ t ∈ heap, Full t ∧ t.freq = leafWeight t ∧ 0 ≤ t.freq)
      → (heap.map Node.freq).Sorted (· ≤ ·)
      → (heap.map Node.freq).sum < 2147483648
      → mergeLoop gid heap = ([root], g')
      → treeCost root = (heap.map treeCost).sum + huffmanCost (heap.map Node.freq))
    ?_ ?_ ?_ globalId minHeap
  · intro gid _ _ _ h
    simp [mergeLoop_nil] at h
  · intro gid x _ _ _ h
    simp only [mergeLoop_singleton, Prod.mk.injEq, List.cons.injEq, and_true] at h
    rw [← h.1]
    simp [huffmanCost_singleton]
  · intro gid left right rest ih hinv hsorted hsum h
    rw [mergeLoop_cons_cons] at h
    obtain ⟨hlf, hlw, hl0⟩ := hinv left (by simp)
    obtain ⟨hrf, hrw, hr0⟩ := hinv right (by simp)
    have hrest0 : 0 ≤ (rest.map Node.freq).sum := sum_nonneg_of_forall (by
      intro x hx
      obtain ⟨y, hy, rfl⟩ := List.mem_map.mp hx
      exact (hinv y (by simp [hy])).2.2)
    simp only [List.map_cons, List.sum_cons] at hsum
    have hmfreq : (mergeNodes left right gid).freq = left.freq + right.freq := by
      show wrapInt (left.freq + right.freq) = left.freq + right.freq
      exact wrapInt_of_range _ (add_nonneg hl0 hr0) (by linarith)
    have hs₁ := List.sorted_cons.mp hsorted
    have hs₂ := List.sorted_cons.mp hs₁.2
    have hinv' : ∀ t ∈ push rest (mergeNodes left right gid),
        Full t ∧ t.freq = leafWeight t ∧ 0 ≤ t.freq := by
      intro t ht
      rcases List.mem_cons.mp ((push_perm _ _).subset ht) with h1 | h1
      · rw [h1]
        refine ⟨Full.node _ _ _ _ _ hlf hrf, ?_, ?_⟩
        · rw [hmfreq, leafWeight_mergeNodes _ _ _ hlf.ne_null, hlw, hrw]
        · rw [hmfreq]; exact add_nonneg hl0 hr0
      · exact hinv t (by simp [h1])
    have hsorted' := push_sorted rest (mergeNodes left right gid) hs₂.2
    have hpermf : ((push rest (mergeNodes left right gid)).map Node.freq).Perm
        ((left.freq + right.freq) :: rest.map Node.freq) := by
      have := (push_perm rest (mergeNodes left right gid)).map Node.freq
      rwa [List.map_cons, hmfreq] at this
    have hfreqs : (push rest (mergeNodes left right gid)).map Node.freq
        = List.orderedInsert (· ≤ ·) (left.freq + right.freq) (rest.map Node.freq) :=
      List.eq_of_perm_of_sorted
        (hpermf.trans (List.perm_orderedInsert _ _ _).symm) hsorted'
        (hs₂.2.orderedInsert _ _)
    have hsum' : ((push rest (mergeNodes left right gid)).map Node.freq).sum < 2147483648 := by
      rw [hpermf.sum_eq, List.sum_cons]
      linarith
    have hcosts : ((push rest (mergeNodes left right gid)).map treeCost).sum
        = treeCost (mergeNodes left right gid) + (rest.map treeCost).sum := by
      rw [((push_perm rest (mergeNodes left right gid)).map treeCost).sum_eq, List.map_cons,
        List.sum_cons]
    rw [ih hinv' hsorted' hsum' h, hcosts, hfreqs, treeCost_mergeNodes _ _ _ hlf.ne_null]
    simp only [List.map_cons, List.sum_cons, huffmanCost_cons_cons, hlw, hrw]
    ring

theorem pushLeaves_cost (entries : List (Nat × Int)) (globalId : Nat) (minHeap : List Node)
    (hnn : ∀ e ∈ entries, 0 ≤ e.2)
    (hinv : ∀ t ∈ minHeap, (Full t ∧ t.freq = leafWeight t ∧ 0 ≤ t.freq) ∧ treeCost t = 0)
    (hsorted : (minHeap.map Node.freq).Sorted (· ≤ ·)) :
    (∀ t ∈ (pushLeaves entries globalId minHeap).1,
        (Full t ∧ t.freq = leafWeight t ∧ 0 ≤ t.freq) ∧ treeCost t = 0)
      ∧ ((pushLeaves entries globalId minHeap).1.map Node.freq).Sorted (· ≤ ·)
      ∧ ((pushLeaves entries globalId minHeap).1.map Node.freq).Perm
          (minHeap.map Node.freq ++ entries.map Prod.snd) := by
  induction entries generalizing globalId minHeap with
  | nil => exact ⟨hinv, hsorted, by simp [pushLeaves]⟩
  | cons e rest ih =>
      obtain ⟨ch, freq⟩ := e
      have hfreq : 0 ≤ freq := hnn (ch, freq) (List.mem_cons_self _ _)
      have hinv' : ∀ t ∈ push minHeap (.mk ch freq .null .null (wrapInt globalId)),
          (Full t ∧ t.freq = leafWeight t ∧ 0 ≤ t.freq) ∧ treeCost t = 0 := by
        intro t ht
        rcases List.mem_cons.mp ((push_perm _ _).subset ht) with h | h
        · rw [h]
          refine ⟨⟨Full.leaf _ _ _, ?_, hfreq⟩, ?_⟩
          · simp [leafWeight, tableOf_leaf, Node.freq]
          · simp [treeCost, leafEntries, Node.isLeaf, configCost]
        · exact hinv t h
      obtain ⟨h1, h2, h3⟩ := ih (globalId + 1) _
        (fun e he => hnn e (List.mem_cons_of_mem _ he)) hinv' (push_sorted _ _ hsorted)
      refine ⟨h1, h2, h3.trans ?_⟩
      have hp := (push_perm minHeap (.mk ch freq .null .null (wrapInt globalId))).map Node.freq
      refine (hp.append_right _).trans ?_
      simp only [List.map_cons, Node.freq, List.cons_append]
      exact (@List.perm_middle _ freq (minHeap.map Node.freq) (rest.map Prod.snd)).symm

/-- The weighted path length of a tree whose leaves carry exactly the entries of the table is
the sum over its leaves of leaf frequency times depth. -/
theorem weightedPathLength_eq_treeCost (freqMap : List (Nat × Int)) (root : Node)
    (hkeys : (freqMap.map Prod.fst).Nodup) (hperm : (tableOf root).Perm freqMap) :
    weightedPathLength freqMap root = treeCost root := by
  have hnd : ((leafCodes root).map Prod.fst).Nodup := by
    rw [leafCodes_keys]
    exact (hperm.map Prod.fst).nodup_iff.mpr hkeys
  rw [weightedPathLength, ← (hperm.map (fun e => e.2 * (codeLength root e.1 : Int))).sum_eq,
    treeCost, configCost, tableOf, List.map_map, List.map_map]
  congr 1
  apply List.map_congr_left
  intro x hx
  have hmem : (x.1.1, x.2) ∈ leafCodes root := by
    rw [leafCodes_eq_map]
    exact List.mem_map.mpr ⟨x, hx, rfl⟩
  simp only [Function.comp_apply]
  rw [codeLength_of_mem root hnd x.1.1 x.2 hmem]

/-- Claim C3, counterexample: for the table with four symbols of count `2 ^ 30` each, the sum
of two counts overflows `int`; the tree that is built has weighted path length `9 * 2 ^ 30`,
while the balanced tree with the same four leaves has `8 * 2 ^ 30`. -/
theorem overflow_breaks_optimality :
    buildHuffmanTree 0 [(1, 1073741824), (2, 1073741824), (3, 1073741824), (4, 1073741824)]
        = .ok (.mk 0 0 (.mk 0 (-1073741824) (.mk 0 (-2147483648)
            (.mk 1 1073741824 .null .null 0) (.mk 2 1073741824 .null .null 1) 4)
            (.mk 3 1073741824 .null .null 2) 5) (.mk 4 1073741824 .null .null 3) 6, 7)
      ∧ weightedPathLength
          [(1, 1073741824), (2, 1073741824), (3, 1073741824), (4, 1073741824)]
          (.mk 0 0 (.mk 0 (-1073741824) (.mk 0 (-2147483648)
            (.mk 1 1073741824 .null .null 0) (.mk 2 1073741824 .null .null 1) 4)
            (.mk 3 1073741824 .null .null 2) 5) (.mk 4 1073741824 .null .null 3) 6)
          = 9663676416
      ∧ (leafCodes (.mk 0 0 (.mk 0 0 (.mk 1 0 .null .null 0) (.mk 2 0 .null .null 0) 0)
            (.mk 0 0 (.mk 3 0 .null .null 0) (.mk 4 0 .null .null 0) 0) 0)).map Prod.fst
          = [1, 2, 3, 4]
      ∧ weightedPathLength
          [(1, 1073741824), (2, 1073741824), (3, 1073741824), (4, 1073741824)]
          (.mk 0 0 (.mk 0 0 (.mk 1 0 .null .null 0) (.mk 2 0 .null .null 0) 0)
            (.mk 0 0 (.mk 3 0 .null .null 0) (.mk 4 0 .null .null 0) 0) 0)
          = 8589934592 :=
  ⟨rfl, rfl, rfl, rfl⟩

/-- Claim C3, amended: for every non-empty frequency table with positive counts that sum to
less than `2 ^ 31`, `buildHuffmanTree` returns a tree whose leaves are exactly the symbols of
the table and whose weighted path length is at most that of every tree whose leaves are
exactly the symbols of the table. -/
theorem huffman_optimal (globalId : Nat) (freqMap : List (Nat × Int)) (hne : freqMap ≠ [])
    (hkeys : (freqMap.map Prod.fst).Nodup) (hpos : ∀ e ∈ freqMap, 0 < e.2)
    (hsum : (freqMap.map Prod.snd).sum < 2147483648) :
    ∃ root g, buildHuffmanTree globalId freqMap = .ok (root, g)
      ∧ ((leafCodes root).map Prod.fst).Perm (freqMap.map Prod.fst)
      ∧ ∀ t : Node, ((leafCodes t).map Prod.fst).Perm (freqMap.map Prod.fst)
          → weightedPathLength freqMap root ≤ weightedPathLength freqMap t := by
  obtain ⟨root, g, hb, hm⟩ := buildHuffmanTree_ok globalId freqMap hne
  obtain ⟨hf, hp⟩ := pushLeaves_spec freqMap globalId [] (by simp)
  obtain ⟨_, hperm⟩ := mergeLoop_spec _ _ hf root g hm
  have hperm' : (tableOf root).Perm freqMap := hperm.trans (by simpa [forestTable] using hp)
  have hnn : ∀ e ∈ freqMap, 0 ≤ e.2 := fun e he => le_of_lt (hpos e he)
  obtain ⟨hinv, hsorted, hfreqs⟩ := pushLeaves_cost freqMap globalId [] hnn (by simp) (by simp)
  simp only [List.map_nil, List.nil_append] at hfreqs
  have hcost := mergeLoop_cost root g _ _ (fun t ht => (hinv t ht).1) hsorted
    (by rw [hfreqs.sum_eq]; exact hsum) hm
  have hzero : ((pushLeaves freqMap globalId []).1.map treeCost).sum = 0 := by
    apply List.sum_eq_zero
    intro x hx
    obtain ⟨t, ht, rfl⟩ := List.mem_map.mp hx
    exact (hinv t ht).2
  rw [hzero, zero_add] at hcost
  refine ⟨root, g, hb, ?_, ?_⟩
  · rw [leafCodes_keys]
    exact hperm'.map Prod.fst
  · intro t ht
    rw [weightedPathLength_eq_treeCost freqMap root hkeys hperm', hcost]
    exact huffmanCost_le_weightedPathLength freqMap hne hkeys hnn _ hsorted hfreqs t ht

theorem huffman_optimal_witness :
    ∃ root g, buildHuffmanTree 0 [(97, 2), (98, 3), (99, 2)] = .ok (root, g)
      ∧ ((leafCodes root).map Prod.fst).Perm ([(97, (2 : Int)), (98, 3), (99, 2)].map Prod.fst)
      ∧ ∀ t : Node, ((leafCodes t).map Prod.fst).Perm
            ([(97, (2 : Int)), (98, 3), (99, 2)].map Prod.fst)
          → weightedPathLength [(97, 2), (98, 3), (99, 2)] root
              ≤ weightedPathLength [(97, 2), (98, 3), (99, 2)] t :=
  huffman_optimal 0 [(97, 2), (98, 3), (99, 2)] (by decide) (by decide) (by decide) (by decide)

/-! ## The table with a single entry -/

theorem wrapInt_succ (x : Int) : wrapInt (wrapInt x + 1) = wrapInt (x + 1) := by
  unfold wrapInt
  omega

theorem increment_singleton (c : Nat) (v : Int) :
    increment [(c, v)] c = [(c, wrapInt (v + 1))] := by
  simp only [increment, find, if_true, Option.getD_some, assign]

theorem increment_nil (c : Nat) : increment [] c = [(c, wrapInt (0 + 1))] := by
  simp only [increment, find, Option.getD_none, assign]

theorem countFrequencies_replicate (n c : Nat) :
    countFrequencies (List.replicate (n + 1) c) = [(c, wrapInt ((n : Int) + 1))] := by
  induction n with
  | zero =>
      show increment [] c = _
      rw [increment_nil]
      simp only [Nat.cast_zero]
  | succ n ih =>
      rw [List.replicate_succ', countFrequencies_append, ih, increment_singleton, wrapInt_succ,
        Nat.cast_succ]

theorem encodeText_replicate_nil (k s : Nat) :
    encodeText (List.replicate k s) [(s, [])] = .ok [] := by
  induction k with
  | zero => rfl
  | succ k ih => simp [List.replicate_succ, encodeText, find, ih]

/-- Claim C17: for a table with the single entry `(s, f)`, `buildHuffmanTree` creates one node
only (no merge) and returns the leaf for `s`, `generateCodes` maps `s` to the empty bit
sequence, `encodeText` of any input made only of `s` is the empty bitstring, and the container
is the 6 header bytes without payload. -/
theorem single_entry_table (globalId s : Nat) (f : Int) (k : Nat) :
    buildHuffmanTree globalId [(s, f)]
        = .ok (.mk s f .null .null (wrapInt globalId), globalId + 1)
      ∧ generateCodes (.mk s f .null .null (wrapInt globalId)) [] [] = [(s, [])]
      ∧ encodeText (List.replicate k s)
            (generateCodes (.mk s f .null .null (wrapInt globalId)) [] [])
          = .ok []
      ∧ writeCompressedFile [] [(s, f)] = 1 :: s :: intBytes f
      ∧ (writeCompressedFile [] [(s, f)]).length = 6
      ∧ (writeCompressedFile [] [(s, f)]).drop (1 + 5 * 1) = []
      ∧ ∀ iter, Enumerates iter →
          compress iter (List.replicate (k + 1) s)
            = .ok (1 :: s :: intBytes (wrapInt ((k : Int) + 1))) := by
  refine ⟨rfl, rfl, encodeText_replicate_nil k s, rfl, rfl, rfl, ?_⟩
  intro iter hiter
  have hi : iter [(s, wrapInt ((k : Int) + 1))] = [(s, wrapInt ((k : Int) + 1))] :=
    List.perm_singleton.mp (hiter _)
  have hb : buildHuffmanTree 0 [(s, wrapInt ((k : Int) + 1))]
      = .ok (.mk s (wrapInt ((k : Int) + 1)) .null .null 0, 1) := rfl
  have hg : generateCodes (.mk s (wrapInt ((k : Int) + 1)) .null .null 0) [] [] = [(s, [])] :=
    rfl
  simp only [compress, countFrequencies_replicate, hi, hb, hg, encodeText_replicate_nil]
  rfl

/-! ## Safety of the decoder -/

theorem decodeLoop_from_leaf (root : Node) (ch : Nat) (f : Int) (i : Int) (bit : Bool)
    (bits : List Bool) (decoded : List Nat) :
    decodeLoop root (bit :: bits) (.mk ch f .null .null i) decoded = .error .undefined := by
  cases bit <;> rfl

/-- Claim C20: on the tree `buildHuffmanTree` returns for a table of at least two entries,
`decodeText` never follows a missing child, whatever the bit sequence; on the tree of a
single-entry table (a leaf) and a non-empty bit sequence, the first step follows a missing
child. -/
theorem decodeText_safety (globalId : Nat) (freqMap : List (Nat × Int)) (bits : List Bool)
    (h : 1 ≤ freqMap.length) :
    ∃ root g, buildHuffmanTree globalId freqMap = .ok (root, g)
      ∧ (2 ≤ freqMap.length → ∃ out, decodeText bits root = .ok out)
      ∧ (freqMap.length = 1 → root.isLeaf = true
          ∧ ∀ bit, decodeText (bit :: bits) root = .error .undefined) := by
  have hne : freqMap ≠ [] := by
    intro h0; rw [h0] at h; simp at h
  obtain ⟨root, g, hb, hfull, hperm⟩ := buildHuffmanTree_spec globalId freqMap hne
  refine ⟨root, g, hb, ?_, ?_⟩
  · intro h2
    have hleaf : root.isLeaf = false := isLeaf_false_of_length (by rw [hperm.length_eq]; exact h2)
    exact decodeLoop_ok root hfull hleaf bits root hfull hleaf []
  · intro h1
    obtain ⟨e, rfl⟩ := List.length_eq_one.mp h1
    obtain ⟨s, f⟩ := e
    have hb' : buildHuffmanTree globalId [(s, f)]
        = .ok (.mk s f .null .null (wrapInt globalId), globalId + 1) := rfl
    rw [hb'] at hb
    simp only [Except.ok.injEq, Prod.mk.injEq] at hb
    rw [← hb.1]
    exact ⟨rfl, fun bit => decodeLoop_from_leaf _ s f _ bit bits []⟩

theorem decodeText_safety_witness :
    ∃ root g, buildHuffmanTree 0 [(97, 2), (98, 3), (99, 2)] = .ok (root, g)
      ∧ (2 ≤ [(97, (2 : Int)), (98, 3), (99, 2)].length
          → ∃ out, decodeText [true, true, false] root = .ok out)
      ∧ ([(97, (2 : Int)), (98, 3), (99, 2)].length = 1 → root.isLeaf = true
          ∧ ∀ bit, decodeText (bit :: [true, true, false]) root = .error .undefined) :=
  decodeText_safety 0 [(97, 2), (98, 3), (99, 2)] [true, true, false] (by decide)

/-! ## Coverage of the code table -/

/-- Claim C16: for a non-empty input `B`, the leaves of the tree built from the frequency
table of `B` carry exactly the byte values that occur in `B`, each on one leaf only; the code
table has an entry for exactly these byte values, and `encodeText` finds every code. -/
theorem code_table_coverage (iter : FreqMap → FreqMap) (hiter : Enumerates iter)
    (B : List Nat) (hB : B ≠ []) :
    ∃ root g, buildHuffmanTree 0 (iter (countFrequencies B)) = .ok (root, g)
      ∧ ((leafCodes root).map Prod.fst).Nodup
      ∧ (∀ c, c ∈ (leafCodes root).map Prod.fst ↔ c ∈ B)
      ∧ (∀ c, (∃ code, find (generateCodes root [] []) c = some code) ↔ c ∈ B)
      ∧ ∃ bitstring, encodeText B (generateCodes root [] []) = .ok bitstring := by
  obtain ⟨hnd, hmem, _⟩ := countFrequencies_spec B
  obtain ⟨root, g, hb, _, hperm, hgen, henc, _⟩ := compress_ok iter hiter B hB
  have hkeys : ((leafCodes root).map Prod.fst).Perm ((countFrequencies B).map Prod.fst) := by
    rw [leafCodes_keys]
    exact (hperm.trans (hiter _)).map Prod.fst
  refine ⟨root, g, hb, hkeys.nodup_iff.mpr hnd, ?_, ?_, ?_⟩
  · intro c
    rw [hkeys.mem_iff, hmem]
  · intro c
    rw [hgen, find_isSome_iff, hkeys.mem_iff, hmem]
  · rw [hgen]
    exact ⟨_, henc⟩

theorem code_table_coverage_witness :
    ∃ root g, buildHuffmanTree 0 (id (countFrequencies [97, 98, 97])) = .ok (root, g)
      ∧ ((leafCodes root).map Prod.fst).Nodup
      ∧ (∀ c, c ∈ (leafCodes root).map Prod.fst ↔ c ∈ [97, 98, 97])
      ∧ (∀ c, (∃ code, find (generateCodes root [] []) c = some code) ↔ c ∈ [97, 98, 97])
      ∧ ∃ bitstring, encodeText [97, 98, 97] (generateCodes root [] []) = .ok bitstring :=
  code_table_coverage id (fun _ => List.Perm.refl _) [97, 98, 97] (by decide)

/-! ## The worked example -/

theorem perm_triple {α : Type} {l : List α} {a b c : α} (h : l.Perm [a, b, c]) :
    l = [a, b, c] ∨ l = [a, c, b] ∨ l = [b, a, c] ∨ l = [b, c, a] ∨ l = [c, a, b]
      ∨ l = [c, b, a] := by
  obtain ⟨x, l', rfl⟩ : ∃ x l', l = x :: l' := List.exists_cons_of_ne_nil (by
    intro h0; rw [h0] at h; simpa using h.length_eq)
  have hx : x ∈ [a, b, c] := h.subset (List.mem_cons_self _ _)
  simp only [List.mem_cons, List.mem_singleton, List.not_mem_nil, or_false] at hx
  rcases hx with rfl | rfl | rfl
  · rcases perm_pair ((List.perm_cons x).mp h) with h' | h' <;> simp [h']
  · have h1 : (x :: l').Perm [x, a, c] := h.trans (List.Perm.swap x a [c])
    rcases perm_pair ((List.perm_cons x).mp h1) with h' | h' <;> simp [h']
  · have h1 : (x :: l').Perm [x, a, b] :=
      h.trans (@List.perm_append_comm _ [a, b] [x])
    rcases perm_pair ((List.perm_cons x).mp h1) with h' | h' <;> simp [h']

/-- Claim C14: for the input `aabbbcc` the frequency table is `a:2, b:3, c:2`; whatever the
enumeration order, the codes have lengths `b:1, a:2, c:2`, the encoded bitstring has 11 bits,
and the payload is 2 bytes that unpack to the 11 bits followed by 5 zero padding bits. -/
theorem worked_example (iter : FreqMap → FreqMap) (hiter : Enumerates iter) :
    countFrequencies [97, 97, 98, 98, 98, 99, 99] = [(97, 2), (98, 3), (99, 2)]
      ∧ ∃ root g bitstring,
          buildHuffmanTree 0 (iter (countFrequencies [97, 97, 98, 98, 98, 99, 99]))
            = .ok (root, g)
          ∧ codeLength root 98 = 1 ∧ codeLength root 97 = 2 ∧ codeLength root 99 = 2
          ∧ encodeText [97, 97, 98, 98, 98, 99, 99] (generateCodes root [] []) = .ok bitstring
          ∧ bitstring.length = 11
          ∧ (packBits bitstring).length = 2
          ∧ unpackBits (packBits bitstring) = bitstring ++ List.replicate 5 false := by
  have hc : countFrequencies [97, 97, 98, 98, 98, 99, 99] = [(97, 2), (98, 3), (99, 2)] := rfl
  refine ⟨hc, ?_⟩
  rw [hc]
  rcases perm_triple (hiter [(97, 2), (98, 3), (99, 2)]) with e | e | e | e | e | e <;>
    rw [e] <;> exact ⟨_, _, _, rfl, rfl, rfl, rfl, rfl, rfl, rfl, rfl⟩

theorem worked_example_witness :
    countFrequencies [97, 97, 98, 98, 98, 99, 99] = [(97, 2), (98, 3), (99, 2)]
      ∧ ∃ root g bitstring,
          buildHuffmanTree 0 (id (countFrequencies [97, 97, 98, 98, 98, 99, 99]))
            = .ok (root, g)
          ∧ codeLength root 98 = 1 ∧ codeLength root 97 = 2 ∧ codeLength root 99 = 2
          ∧ encodeText [97, 97, 98, 98, 98, 99, 99] (generateCodes root [] []) = .ok bitstring
          ∧ bitstring.length = 11
          ∧ (packBits bitstring).length = 2
          ∧ unpackBits (packBits bitstring) = bitstring ++ List.replicate 5 false :=
  worked_example id (fun _ => List.Perm.refl _)

/-! ## The frequency model -/

theorem sum_assign (m : FreqMap) (key : Nat) (value : Int) :
    ((assign m key value).map Prod.snd).sum
      = (m.map Prod.snd).sum - (find m key).getD 0 + value := by
  induction m with
  | nil => simp [assign, find]
  | cons e rest ih =>
      obtain ⟨k, v⟩ := e
      by_cases h : k = key
      · simp only [assign, find, if_pos h, List.map_cons, List.sum_cons, Option.getD_some]
        ring
      · simp only [assign, find, if_neg h, List.map_cons, List.sum_cons, ih]
        ring

theorem count_append_singleton_lt (B : List Nat) (c : Nat)
    (h : ∀ k, (B ++ [c]).count k < 2147483648) : ∀ k, B.count k < 2147483648 := by
  intro k
  have := h k
  rw [List.count_append] at this
  omega

theorem getD_find_countFrequencies (B : List Nat) (k : Nat)
    (h : find (countFrequencies B) k = if k ∈ B then some (B.count k : Int) else none) :
    (find (countFrequencies B) k).getD 0 = (B.count k : Int) := by
  rw [h]
  by_cases hk : k ∈ B
  · simp [hk]
  · simp [hk, List.count_eq_zero_of_not_mem hk]

/-- While no byte value occurs `2 ^ 31` times or more, the table holds the exact counts. -/
theorem find_countFrequencies (B : List Nat) (h : ∀ c, B.count c < 2147483648) (k : Nat) :
    find (countFrequencies B) k = if k ∈ B then some (B.count k : Int) else none := by
  induction B using List.reverseRecOn with
  | nil => simp [countFrequencies, find]
  | append_singleton B c ih =>
      have hB := count_append_singleton_lt B c h
      rw [countFrequencies_append, increment, find_assign]
      by_cases hk : k = c
      · subst hk
        rw [if_pos rfl, getD_find_countFrequencies B k (ih hB)]
        have hc := h k
        rw [List.count_append, List.count_singleton_self] at hc
        rw [wrapInt_of_range _ (by positivity) (by exact_mod_cast hc)]
        simp [List.count_append]
      · rw [if_neg hk, ih hB]
        have hne : ¬ (c = k) := fun h' => hk h'.symm
        simp [List.count_append, hk, hne]

theorem sum_countFrequencies (B : List Nat) (h : ∀ c, B.count c < 2147483648) :
    ((countFrequencies B).map Prod.snd).sum = (B.length : Int) := by
  induction B using List.reverseRecOn with
  | nil => simp [countFrequencies]
  | append_singleton B c ih =>
      have hB := count_append_singleton_lt B c h
      rw [countFrequencies_append, increment, sum_assign, ih hB,
        getD_find_countFrequencies B c (find_countFrequencies B hB c)]
      have hc := h c
      rw [List.count_append, List.count_singleton_self] at hc
      rw [wrapInt_of_range _ (by positivity) (by exact_mod_cast hc)]
      simp only [List.length_append, List.length_singleton, Nat.cast_add, Nat.cast_one]
      ring

/-- Claim C13, counterexample: for the input made of `2 ^ 31` copies of the byte 97 the count
kept in an `int` wraps around: the table maps 97 to `-2 ^ 31`, not to `2 ^ 31`. -/
theorem count_overflows :
    countFrequencies (List.replicate 2147483648 97) = [(97, -2147483648)]
      ∧ (List.replicate 2147483648 97).count 97 = 2147483648 := by
  constructor
  · have h := countFrequencies_replicate 2147483647 97
    exact h
  · exact List.count_replicate_self 97 2147483648

/-- Claim C13, amended: for every byte sequence `B` in which no byte value occurs more than
`2 ^ 31 - 1` times, the frequency table maps each byte value that occurs in `B` to its exact
number of occurrences, has no entry for a byte value that does not occur, has distinct keys,
is empty when `B` is empty, and its counts sum to `|B|`. -/
theorem frequency_model (B : List Nat) (h : ∀ c, B.count c < 2147483648) :
    (∀ c, find (countFrequencies B) c = if c ∈ B then some (B.count c : Int) else none)
      ∧ ((countFrequencies B).map Prod.fst).Nodup
      ∧ (B = [] → countFrequencies B = [])
      ∧ ((countFrequencies B).map Prod.snd).sum = (B.length : Int) := by
  refine ⟨find_countFrequencies B h, (countFrequencies_spec B).1, ?_, sum_countFrequencies B h⟩
  rintro rfl
  rfl

theorem frequency_model_witness :
    (∀ c, find (countFrequencies [97, 98, 97]) c
        = if c ∈ [97, 98, 97] then some (([97, 98, 97] : List Nat).count c : Int) else none)
      ∧ ((countFrequencies [97, 98, 97]).map Prod.fst).Nodup
      ∧ (([97, 98, 97] : List Nat) = [] → countFrequencies [97, 98, 97] = [])
      ∧ ((countFrequencies [97, 98, 97]).map Prod.snd).sum
          = ((([97, 98, 97] : List Nat).length : Nat) : Int) :=
  frequency_model [97, 98, 97] (by
    intro c
    have : ([97, 98, 97] : List Nat).count c ≤ ([97, 98, 97] : List Nat).length :=
      List.count_le_length _ _
    simp only [List.length_cons, List.length_nil] at this
    omega)

/-! ## The shape of the tree -/

theorem pushLeaves_counter (entries : List (Nat × Int)) (globalId : Nat) (minHeap : List Node) :
    (pushLeaves entries globalId minHeap).2 = globalId + entries.length := by
  induction entries generalizing globalId minHeap with
  | nil => rfl
  | cons e rest ih =>
      obtain ⟨ch, freq⟩ := e
      simp only [pushLeaves, ih, List.length_cons]
      omega

/-- The merge loop creates one node per round, and runs one round less than the queue has
elements. -/
theorem mergeLoop_counter (globalId : Nat) (minHeap : List Node) :
    (mergeLoop globalId minHeap).2 = globalId + (minHeap.length - 1) := by
  refine mergeLoop_induction (motive := fun g heap =>
    (mergeLoop g heap).2 = g + (heap.length - 1)) ?_ ?_ ?_ globalId minHeap
  · intro g; rfl
  · intro g x; rfl
  · intro g left right rest ih
    rw [mergeLoop_cons_cons, ih, length_push]
    simp only [List.length_cons]
    omega

theorem leafCount_eq_length (t : Node) : leafCount t = (tableOf t).length := by
  induction t with
  | null => rfl
  | mk ch f left right i ihl ihr =>
      unfold leafCount
      simp only [tableOf] at ihl ihr ⊢
      unfold leafEntries
      by_cases hleaf : (Node.mk ch f left right i).isLeaf = true
      · simp [hleaf]
      · simp [hleaf, ihl, ihr]

theorem internalCount_of_full {t : Node} (h : Full t) : internalCount t + 1 = leafCount t := by
  induction h with
  | leaf ch f i => rfl
  | node ch f left right i hl hr ihl ihr =>
      have hleaf : (Node.mk ch f left right i).isLeaf = false := isLeaf_false_of_left hl.ne_null
      simp only [internalCount, leafCount, hleaf, Bool.false_eq_true, if_false]
      omega

theorem pushLeaves_leaves (entries : List (Nat × Int)) (globalId : Nat) (minHeap : List Node) :
    ∀ t ∈ (pushLeaves entries globalId minHeap).1,
      t ∈ minHeap ∨ ∃ ch f i, t = .mk ch f .null .null i ∧ (ch, f) ∈ entries := by
  induction entries generalizing globalId minHeap with
  | nil => intro t ht; exact Or.inl ht
  | cons e rest ih =>
      obtain ⟨ch, freq⟩ := e
      intro t ht
      rcases ih (globalId + 1) _ t ht with h | ⟨c, f, i, h1, h2⟩
      · rcases List.mem_cons.mp ((push_perm _ _).subset h) with h' | h'
        · exact Or.inr ⟨ch, freq, _, h', List.mem_cons_self _ _⟩
        · exact Or.inl h'
      · exact Or.inr ⟨c, f, i, h1, List.mem_cons_of_mem _ h2⟩

/-- The merge loop on a queue of trees with exact, non-negative frequencies that sum to less
than `2 ^ 31`: the final tree has exact frequencies at every node, and the frequency of its
root is the sum of the frequencies of the queue. -/
theorem mergeLoop_freq (root : Node) (g' : Nat) (globalId : Nat) (minHeap : List Node) :
    (∀ t ∈ minHeap, Full t ∧ 0 ≤ t.freq ∧ SumsOk t)
      → (minHeap.map Node.freq).sum < 2147483648
      → mergeLoop globalId minHeap = ([root], g')
      → SumsOk root ∧ root.freq = (minHeap.map Node.freq).sum := by
  refine mergeLoop_induction (motive := fun gid heap =>
    (∀ t ∈ heap, Full t ∧ 0 ≤ t.freq ∧ SumsOk t)
      → (heap.map Node.freq).sum < 2147483648
      → mergeLoop gid heap = ([root], g')
      → SumsOk root ∧ root.freq = (heap.map Node.freq).sum) ?_ ?_ ?_ globalId minHeap
  · intro gid _ _ h
    simp [mergeLoop_nil] at h
  · intro gid x hinv _ h
    simp only [mergeLoop_singleton, Prod.mk.injEq, List.cons.injEq, and_true] at h
    rw [← h.1]
    exact ⟨(hinv x (by simp)).2.2, by simp⟩
  · intro gid left right rest ih hinv hsum h
    rw [mergeLoop_cons_cons] at h
    obtain ⟨hlf, hl0, hls⟩ := hinv left (by simp)
    obtain ⟨hrf, hr0, hrs⟩ := hinv right (by simp)
    have hrest0 : 0 ≤ (rest.map Node.freq).sum := sum_nonneg_of_forall (by
      intro x hx
      obtain ⟨y, hy, rfl⟩ := List.mem_map.mp hx
      exact (hinv y (by simp [hy])).2.1)
    simp only [List.map_cons, List.sum_cons] at hsum ⊢
    have hmfreq : (mergeNodes left right gid).freq = left.freq + right.freq := by
      show wrapInt (left.freq + right.freq) = left.freq + right.freq
      exact wrapInt_of_range _ (add_nonneg hl0 hr0) (by linarith)
    have hinv' : ∀ t ∈ push rest (mergeNodes left right gid),
        Full t ∧ 0 ≤ t.freq ∧ SumsOk t := by
      intro t ht
      rcases List.mem_cons.mp ((push_perm _ _).subset ht) with h1 | h1
      · rw [h1]
        refine ⟨Full.node _ _ _ _ _ hlf hrf, ?_, ?_⟩
        · rw [hmfreq]; exact add_nonneg hl0 hr0
        · have hw : wrapInt (left.freq + right.freq) = left.freq + right.freq := hmfreq
          simp only [mergeNodes, SumsOk, isLeaf_false_of_left hlf.ne_null, Bool.false_eq_true,
            if_false]
          exact ⟨hw, hls, hrs⟩
      · exact hinv t (by simp [h1])
    have hpermf : ((push rest (mergeNodes left right gid)).map Node.freq).Perm
        ((left.freq + right.freq) :: rest.map Node.freq) := by
      have := (push_perm rest (mergeNodes left right gid)).map Node.freq
      rwa [List.map_cons, hmfreq] at this
    have hsum' : ((push rest (mergeNodes left right gid)).map Node.freq).sum
        = left.freq + right.freq + (rest.map Node.freq).sum := by
      rw [hpermf.sum_eq, List.sum_cons]
    obtain ⟨h1, h2⟩ := ih hinv' (by rw [hsum']; linarith) h
    exact ⟨h1, by rw [h2, hsum']; ring⟩

/-- Claim C15, counterexample: for the table with the counts `2 ^ 31 - 1` and 1 the sum
overflows `int`: the root holds `-2 ^ 31`, not the sum `2 ^ 31` of the counts. -/
theorem root_frequency_overflows :
    buildHuffmanTree 0 [(1, 2147483647), (2, 1)]
        = .ok (.mk 0 (-2147483648) (.mk 2 1 .null .null 1) (.mk 1 2147483647 .null .null 0) 2,
            3)
      ∧ ([(1, (2147483647 : Int)), (2, 1)].map Prod.snd).sum = 2147483648 :=
  ⟨rfl, rfl⟩

/-- Claim C15, amended: for every non-empty table with `n` entries `buildHuffmanTree` creates
`n` leaves and `n - 1` merged nodes (the id counter advances by `2n - 1`) and returns a tree
in which every node has no child or two children, with `n` leaves and `n - 1` inner nodes;
when the counts are non-negative and sum to less than `2 ^ 31`, every inner node holds the sum
of the frequencies of its two children and the root holds the sum of all counts. -/
theorem tree_shape (globalId : Nat) (freqMap : List (Nat × Int)) (hne : freqMap ≠ []) :
    ∃ root, buildHuffmanTree globalId freqMap
        = .ok (root, globalId + freqMap.length + (freqMap.length - 1))
      ∧ Full root ∧ leafCount root = freqMap.length
      ∧ internalCount root = freqMap.length - 1
      ∧ ((∀ e ∈ freqMap, 0 ≤ e.2) → (freqMap.map Prod.snd).sum < 2147483648
          → SumsOk root ∧ root.freq = (freqMap.map Prod.snd).sum) := by
  obtain ⟨root, g, hb, hm⟩ := buildHuffmanTree_ok globalId freqMap hne
  obtain ⟨hf, hp⟩ := pushLeaves_spec freqMap globalId [] (by simp)
  obtain ⟨hfull, hperm⟩ := mergeLoop_spec _ _ hf root g hm
  have hperm' : (tableOf root).Perm freqMap := hperm.trans (by simpa [forestTable] using hp)
  have hg : g = globalId + freqMap.length + (freqMap.length - 1) := by
    have h1 := mergeLoop_counter (pushLeaves freqMap globalId []).2
      (pushLeaves freqMap globalId []).1
    rw [hm, pushLeaves_counter, length_pushLeaves] at h1
    simpa using h1
  have hleaves : leafCount root = freqMap.length := by
    rw [leafCount_eq_length, hperm'.length_eq]
  refine ⟨root, by rw [hb, hg], hfull, hleaves, ?_, ?_⟩
  · have := internalCount_of_full hfull
    omega
  · intro hnn hsum
    have hinv : ∀ t ∈ (pushLeaves freqMap globalId []).1, Full t ∧ 0 ≤ t.freq ∧ SumsOk t := by
      intro t ht
      rcases pushLeaves_leaves freqMap globalId [] t ht with h | ⟨ch, f, i, h1, h2⟩
      · simp at h
      · rw [h1]
        exact ⟨Full.leaf _ _ _, hnn (ch, f) h2, by simp [SumsOk, Node.isLeaf]⟩
    obtain ⟨_, _, hfreqs⟩ := pushLeaves_cost freqMap globalId [] hnn (by simp) (by simp)
    simp only [List.map_nil, List.nil_append] at hfreqs
    obtain ⟨h1, h2⟩ := mergeLoop_freq root g _ _ hinv (by rw [hfreqs.sum_eq]; exact hsum) hm
    exact ⟨h1, by rw [h2, hfreqs.sum_eq]⟩

theorem tree_shape_witness :
    ∃ root, buildHuffmanTree 0 [(97, 2), (98, 3), (99, 2)]
        = .ok (root, 0 + [(97, (2 : Int)), (98, 3), (99, 2)].length
            + ([(97, (2 : Int)), (98, 3), (99, 2)].length - 1))
      ∧ Full root ∧ leafCount root = [(97, (2 : Int)), (98, 3), (99, 2)].length
      ∧ internalCount root = [(97, (2 : Int)), (98, 3), (99, 2)].length - 1
      ∧ ((∀ e ∈ [(97, (2 : Int)), (98, 3), (99, 2)], 0 ≤ e.2)
          → ([(97, (2 : Int)), (98, 3), (99, 2)].map Prod.snd).sum < 2147483648
          → SumsOk root ∧ root.freq = ([(97, (2 : Int)), (98, 3), (99, 2)].map Prod.snd).sum) :=
  tree_shape 0 [(97, 2), (98, 3), (99, 2)] (by decide)

/-! ## The functions of `main.cpp` -/

theorem isLeaf_children {ch : Nat} {f : Int} {left right : Node} {i : Int}
    (h : (Node.mk ch f left right i).isLeaf = true) : left = .null ∧ right = .null := by
  cases left <;> cases right <;> simp [Node.isLeaf] at h ⊢

theorem mainCpp_generateCodes_eq (t : Node) (path : List Bool) (codes : CodeMap) :
    MainCpp.generateCodes t path codes = generateCodes t path codes := by
  induction t generalizing path codes with
  | null => rfl
  | mk ch f left right i ihl ihr =>
      by_cases hleaf : (Node.mk ch f left right i).isLeaf = true
      · obtain ⟨hl, hr⟩ := isLeaf_children hleaf
        subst hl hr
        simp [MainCpp.generateCodes, generateCodes, Node.isLeaf]
      · simp only [MainCpp.generateCodes, generateCodes, hleaf, Bool.false_eq_true, if_false,
          ihl, ihr]

theorem mainCpp_encodeText_eq (text : List Nat) (codes : CodeMap) :
    MainCpp.encodeText text codes = encodeText text codes := by
  induction text with
  | nil => rfl
  | cons c rest ih => simp only [MainCpp.encodeText, encodeText, ih]

theorem mainCpp_decodeLoop_eq (root : Node) (bits : List Bool) (current : Node)
    (decoded : List Nat) :
    MainCpp.decodeLoop root bits current decoded = decodeLoop root bits current decoded := by
  induction bits generalizing current decoded with
  | nil => rfl
  | cons bit rest ih =>
      cases current with
      | null => rfl
      | mk ch f left right i =>
          cases hnext : (if bit = false then left else right) with
          | null => simp [MainCpp.decodeLoop, decodeLoop, hnext]
          | mk ch' f' l' r' i' => simp only [MainCpp.decodeLoop, decodeLoop, hnext, ih]

theorem mainCpp_decodeText_eq (bits : List Bool) (root : Node) :
    MainCpp.decodeText bits root = decodeText bits root :=
  mainCpp_decodeLoop_eq root bits root []

theorem forestTable_cons (t : Node) (minHeap : List Node) :
    forestTable (t :: minHeap) = tableOf t ++ forestTable minHeap := by
  simp [forestTable]

theorem forestTable_perm {h₁ h₂ : List Node} (h : h₁.Perm h₂) :
    (forestTable h₁).Perm (forestTable h₂) :=
  h.flatMap_right tableOf

/-- The merge loop of `main.cpp`, whatever element of least frequency `top()` picks: it ends
with one tree in the queue, in which every node has no child or two children and whose leaves
carry the entries of the leaves of the initial queue. -/
theorem mainCpp_mergeRounds_spec (extract : List Node → Option (Node × List Node))
    (hx : MainCpp.ExtractsMin extract) (rounds : Nat) (minHeap : List Node)
    (hfull : ∀ t ∈ minHeap, Full t) (hne : minHeap ≠ []) (hlen : minHeap.length ≤ rounds + 1) :
    ∃ root, MainCpp.mergeRounds extract rounds minHeap = .ok [root] ∧ Full root
      ∧ (tableOf root).Perm (forestTable minHeap) := by
  induction rounds generalizing minHeap with
  | zero =>
      obtain ⟨x, rfl⟩ : ∃ x, minHeap = [x] := by
        match minHeap, hne, hlen with
        | [x], _, _ => exact ⟨x, rfl⟩
      exact ⟨x, rfl, hfull x (by simp), by simp [forestTable]⟩
  | succ r ih =>
      by_cases hgt : minHeap.length > 1
      · obtain ⟨left, h1, he1, hp1, _⟩ := hx.2 minHeap hne
        have hlen1 : h1.length + 1 = minHeap.length := by
          have := hp1.length_eq
          simp only [List.length_cons] at this
          omega
        have hne1 : h1 ≠ [] := by
          intro h0; rw [h0] at hlen1; simp at hlen1; omega
        obtain ⟨right, h2, he2, hp2, _⟩ := hx.2 h1 hne1
        have hlen2 : h2.length + 1 = h1.length := by
          have := hp2.length_eq
          simp only [List.length_cons] at this
          omega
        have hpall : minHeap.Perm (left :: right :: h2) := hp1.trans (hp2.cons left)
        have hl : Full left := hfull left (hpall.symm.subset (by simp))
        have hr : Full right := hfull right (hpall.symm.subset (by simp))
        have hfull' : ∀ t ∈ Node.mk 0 (wrapInt (left.freq + right.freq)) left right 0 :: h2,
            Full t := by
          intro t ht
          rcases List.mem_cons.mp ht with h | h
          · rw [h]; exact Full.node _ _ _ _ _ hl hr
          · exact hfull t (hpall.symm.subset (by simp [h]))
        obtain ⟨root, hres, hrf, hrp⟩ := ih _ hfull' (by simp)
          (by simp only [List.length_cons]; omega)
        refine ⟨root, ?_, hrf, hrp.trans ?_⟩
        · simp only [MainCpp.mergeRounds, hgt, if_true, he1, he2]
          exact hres
        · have hm : tableOf (Node.mk 0 (wrapInt (left.freq + right.freq)) left right 0)
              = tableOf left ++ tableOf right := tableOf_mergeNodes left right 0 hl.ne_null
          rw [forestTable_cons, hm]
          have := forestTable_perm hpall
          rw [forestTable_cons, forestTable_cons] at this
          simpa using this.symm
      · obtain ⟨x, rfl⟩ : ∃ x, minHeap = [x] := by
          match minHeap, hne, hgt with
          | [x], _, _ => exact ⟨x, rfl⟩
          | _ :: _ :: _, _, hgt => exact absurd (by simp) hgt
        exact ⟨x, by simp [MainCpp.mergeRounds], hfull x (by simp), by simp [forestTable]⟩

theorem forestTable_leaves (freqMap : List (Nat × Int)) :
    forestTable (freqMap.map (fun pair => Node.mk pair.1 pair.2 .null .null 0)) = freqMap := by
  induction freqMap with
  | nil => rfl
  | cons e tail ih =>
      rw [List.map_cons, forestTable_cons, tableOf_leaf, ih]
      rfl

/-- The tree `main` of `main.cpp` builds from a non-empty table. -/
theorem mainCpp_buildTree_spec (extract : List Node → Option (Node × List Node))
    (hx : MainCpp.ExtractsMin extract) (freqMap : List (Nat × Int)) (hne : freqMap ≠ []) :
    ∃ root, MainCpp.buildTree extract freqMap = .ok root ∧ Full root
      ∧ (tableOf root).Perm freqMap := by
  have hfull : ∀ t ∈ freqMap.map (fun pair => Node.mk pair.1 pair.2 .null .null 0),
      Full t := by
    intro t ht
    obtain ⟨e, _, rfl⟩ := List.mem_map.mp ht
    exact Full.leaf _ _ _
  obtain ⟨root, hres, hrf, hrp⟩ := mainCpp_mergeRounds_spec extract hx
    (freqMap.map (fun pair => Node.mk pair.1 pair.2 .null .null 0)).length _ hfull
    (by simpa using hne) (by omega)
  obtain ⟨x, rest, hex, hpx, _⟩ := hx.2 [root] (by simp)
  have hxr : x = root ∧ rest = [] := by
    have hl := hpx.length_eq
    simp only [List.length_cons, List.length_nil] at hl
    have hrest : rest = [] := List.length_eq_zero.mp (by omega)
    subst hrest
    exact ⟨(List.perm_singleton.mp hpx.symm |> List.cons.inj).1, rfl⟩
  refine ⟨root, ?_, hrf, hrp.trans ?_⟩
  · simp only [MainCpp.buildTree, hres, hex, hxr.1]
  · rw [forestTable_leaves]

/-! ## Encoding and decoding with one tree -/

theorem sum_map_ite_of_nodup (keys : List Nat) (c : Nat) (g : Nat → Nat)
    (hnd : keys.Nodup) (hc : c ∈ keys) :
    (keys.map (fun k => if c = k then g k else 0)).sum = g c := by
  induction keys with
  | nil => simp at hc
  | cons k rest ih =>
      have hn := List.nodup_cons.mp hnd
      rw [List.map_cons, List.sum_cons]
      by_cases hk : c = k
      · subst hk
        have hz : (rest.map (fun k => if c = k then g k else 0)).sum = 0 := by
          apply List.sum_eq_zero
          intro x hx
          obtain ⟨y, hy, rfl⟩ := List.mem_map.mp hx
          have : c ≠ y := fun h => hn.1 (h ▸ hy)
          simp [this]
        simp [hz]
      · have hc' : c ∈ rest := by
          rcases List.mem_cons.mp hc with h | h
          · exact absurd h hk
          · exact h
        simp [hk, ih hn.2 hc']

/-- A sum over the bytes of a text, regrouped by byte value. -/
theorem sum_map_eq_sum_count (keys : List Nat) (hnd : keys.Nodup) (g : Nat → Nat)
    (text : List Nat) (htext : ∀ c ∈ text, c ∈ keys) :
    (text.map g).sum = (keys.map (fun k => text.count k * g k)).sum := by
  induction text with
  | nil => simp
  | cons c rest ih =>
      have hsplit : (keys.map (fun k => (c :: rest).count k * g k))
          = keys.map (fun k => rest.count k * g k + (if c = k then g k else 0)) := by
        apply List.map_congr_left
        intro k _
        rw [List.count_cons]
        by_cases hk : c = k
        · simp [hk, Nat.add_mul]
        · simp [hk]
      rw [hsplit, List.map_cons, List.sum_cons, List.sum_map_add,
        ← ih (fun x hx => htext x (List.mem_cons_of_mem _ hx)),
        sum_map_ite_of_nodup keys c g hnd (htext c (List.mem_cons_self _ _))]
      omega

theorem mem_countFrequencies_count (B : List Nat) (h : ∀ c, B.count c < 2147483648)
    (e : Nat × Int) (he : e ∈ countFrequencies B) : e.2 = (B.count e.1 : Int) := by
  have hnd := (countFrequencies_spec B).1
  have hf := find_of_mem_nodup (countFrequencies B) e.1 e.2 hnd he
  rw [find_countFrequencies B h] at hf
  by_cases hm : e.1 ∈ B
  · rw [if_pos hm] at hf
    exact (Option.some.inj hf).symm
  · rw [if_neg hm] at hf
    exact absurd hf (by simp)

/-- Claim C18: for an input `B` with at least two distinct byte values, with `root` the tree
built from the frequency table of `B` and `codes` its code table, decoding the encoding of `B`
gives `B` (with `decodeText` of either program), and the encoding has as many bits as the sum
over the symbols of number of occurrences times code length, which is the weighted path
length of the table as long as no count overflows. -/
theorem encode_decode_roundtrip (iter : FreqMap → FreqMap) (hiter : Enumerates iter)
    (B : List Nat) (h2 : 2 ≤ (countFrequencies B).length) :
    ∃ root g bitstring, buildHuffmanTree 0 (iter (countFrequencies B)) = .ok (root, g)
      ∧ encodeText B (generateCodes root [] []) = .ok bitstring
      ∧ decodeText bitstring root = .ok B
      ∧ MainCpp.decodeText bitstring root = .ok B
      ∧ bitstring.length
          = ((countFrequencies B).map (fun e => B.count e.1 * codeLength root e.1)).sum
      ∧ ((∀ c, B.count c < 2147483648)
          → (bitstring.length : Int) = weightedPathLength (countFrequencies B) root) := by
  have hB : B ≠ [] := by
    rintro rfl
    simp [countFrequencies] at h2
  obtain ⟨hnd, hmem, _⟩ := countFrequencies_spec B
  obtain ⟨root, g, hb, hfull, hperm, hgen, henc, _⟩ := compress_ok iter hiter B hB
  have hleaf : root.isLeaf = false :=
    isLeaf_false_of_length (by rw [hperm.length_eq, (hiter _).length_eq]; exact h2)
  have hkeys : ((leafCodes root).map Prod.fst).Perm ((countFrequencies B).map Prod.fst) := by
    rw [leafCodes_keys]
    exact (hperm.trans (hiter _)).map Prod.fst
  have hdec : decodeText (B.flatMap (fun c => (find (leafCodes root) c).getD [])) root
      = .ok B := by
    have h := decodeLoop_encoded root hfull hleaf B
      (fun c hc => hkeys.mem_iff.mpr ((hmem c).mpr hc)) [] []
    simp only [List.append_nil, List.nil_append] at h
    rw [decodeText, h]
    rfl
  have hlen : (B.flatMap (fun c => (find (leafCodes root) c).getD [])).length
      = ((countFrequencies B).map (fun e => B.count e.1 * codeLength root e.1)).sum := by
    have h1 : (B.flatMap (fun c => (find (leafCodes root) c).getD [])).length
        = (B.map (codeLength root)).sum := by
      rw [List.length_flatMap]
      congr 1
      apply List.map_congr_left
      intro c _
      simp only [Function.comp_apply, codeLength, hgen]
    rw [h1, sum_map_eq_sum_count _ hnd (codeLength root) B (fun c hc => (hmem c).mpr hc),
      List.map_map]
    rfl
  refine ⟨root, g, _, hb, by rw [hgen]; exact henc, hdec, ?_, hlen, ?_⟩
  · rw [mainCpp_decodeText_eq]; exact hdec
  · intro hcount
    rw [hlen, weightedPathLength]
    have hcongr : (countFrequencies B).map (fun e => e.2 * (codeLength root e.1 : Int))
        = (countFrequencies B).map
            (fun e => ((B.count e.1 * codeLength root e.1 : Nat) : Int)) := by
      apply List.map_congr_left
      intro e he
      rw [mem_countFrequencies_count B hcount e he]
      push_cast
      rfl
    rw [hcongr]
    clear hcongr hlen
    induction countFrequencies B with
    | nil => simp
    | cons e rest ih => simp only [List.map_cons, List.sum_cons, Nat.cast_add, ih]

theorem encode_decode_roundtrip_witness :
    ∃ root g bitstring, buildHuffmanTree 0 (id (countFrequencies [97, 98, 97])) = .ok (root, g)
      ∧ encodeText [97, 98, 97] (generateCodes root [] []) = .ok bitstring
      ∧ decodeText bitstring root = .ok [97, 98, 97]
      ∧ MainCpp.decodeText bitstring root = .ok [97, 98, 97]
      ∧ bitstring.length = ((countFrequencies [97, 98, 97]).map
          (fun e => ([97, 98, 97] : List Nat).count e.1 * codeLength root e.1)).sum
      ∧ ((∀ c, ([97, 98, 97] : List Nat).count c < 2147483648)
          → (bitstring.length : Int) = weightedPathLength (countFrequencies [97, 98, 97]) root) :=
  encode_decode_roundtrip id (fun _ => List.Perm.refl _) [97, 98, 97] (by decide)

/-! ## Decoding the zero padding -/

theorem leftmostDepth_pos {t : Node} (hleaf : t.isLeaf = false) (hne : t ≠ .null) :
    1 ≤ leftmostDepth t := by
  cases t with
  | null => exact absurd rfl hne
  | mk ch f left right i => simp [leftmostDepth, hleaf]

theorem leftmostDepth_of_isLeaf {t : Node} (h : t.isLeaf = true) : leftmostDepth t = 0 := by
  cases t with
  | null => rfl
  | mk ch f left right i => simp [leftmostDepth, h]

/-- The path to the leftmost leaf is made of zeros only. -/
theorem leftmost_mem_leafCodes {t : Node} (h : Full t) :
    (leftmostSymbol t, List.replicate (leftmostDepth t) false) ∈ leafCodes t := by
  induction h with
  | leaf ch f i => simp [leftmostSymbol, leftmostDepth, leafCodes, Node.isLeaf]
  | node ch f left right i hl hr ihl ihr =>
      have hleaf : (Node.mk ch f left right i).isLeaf = false := isLeaf_false_of_left hl.ne_null
      simp only [leftmostSymbol, leftmostDepth, leafCodes, hleaf, Bool.false_eq_true, if_false,
        List.mem_append, List.mem_map, List.replicate_succ]
      exact Or.inl ⟨_, ihl, rfl⟩

/-- Fewer zeros than the depth of the leftmost leaf reach no leaf. -/
theorem decodeLoop_zeros_short (root : Node) (k : Nat) (t : Node) (hfull : Full t)
    (hk : k < leftmostDepth t) (decoded : List Nat) :
    decodeLoop root (List.replicate k false) t decoded = .ok decoded := by
  induction k generalizing t with
  | zero => rfl
  | succ k ih =>
      cases hfull with
      | leaf ch f i => simp [leftmostDepth, Node.isLeaf] at hk
      | node ch f left right i hl hr =>
          have hleaf : (Node.mk ch f left right i).isLeaf = false :=
            isLeaf_false_of_left hl.ne_null
          simp only [leftmostDepth, hleaf, Bool.false_eq_true, if_false] at hk
          have hk' : k < leftmostDepth left := by omega
          have hll : left.isLeaf = false := by
            by_contra hc
            rw [leftmostDepth_of_isLeaf (by simpa using hc)] at hk'
            omega
          rw [List.replicate_succ, decodeLoop_step root false _ ch f left right i decoded left
            (by simp) hl.ne_null, hll]
          exact ih left hl hk'

/-- Decoding `p` zeros from the root emits the symbol of the leftmost leaf once for every `d`
zeros, `d` being the depth of that leaf. -/
theorem decodeLoop_zeros (root : Node) (hfull : Full root) (hleaf : root.isLeaf = false)
    (p : Nat) (decoded : List Nat) :
    decodeLoop root (List.replicate p false) root decoded
      = .ok (decoded ++ List.replicate (p / leftmostDepth root) (leftmostSymbol root)) := by
  have hd : 1 ≤ leftmostDepth root := leftmostDepth_pos hleaf hfull.ne_null
  induction p using Nat.strong_induction_on generalizing decoded with
  | _ p ih =>
      by_cases hp : p < leftmostDepth root
      · rw [decodeLoop_zeros_short root p root hfull hp, Nat.div_eq_of_lt hp]
        simp
      · have hsplit : p = leftmostDepth root + (p - leftmostDepth root) := by omega
        have hdiv : p / leftmostDepth root = (p - leftmostDepth root) / leftmostDepth root + 1 := by
          rw [← Nat.div_eq_sub_div (by omega) (by omega)]
        rw [hdiv]
        rw [show List.replicate p false = List.replicate (leftmostDepth root) false
            ++ List.replicate (p - leftmostDepth root) false by
          rw [← List.replicate_add, ← hsplit]]
        rw [decodeLoop_path root root hfull hleaf (leftmostSymbol root) _ _ decoded
          (leftmost_mem_leafCodes hfull), ih (p - leftmostDepth root) (by omega)]
        simp [List.replicate_succ]

/-- Decoding the packed and unpacked encoding of a text with the tree of the codes gives the
text followed by one copy of the symbol of the leftmost leaf for every `d` padding bits. -/
theorem decodeText_padded (root : Node) (hfull : Full root) (hleaf : root.isLeaf = false)
    (text : List Nat) (htext : ∀ c ∈ text, c ∈ (leafCodes root).map Prod.fst) :
    decodeText (unpackBits (packBits
        (text.flatMap (fun c => (find (leafCodes root) c).getD [])))) root
      = .ok (text ++ List.replicate
          ((8 - (text.flatMap (fun c => (find (leafCodes root) c).getD [])).length % 8) % 8
            / leftmostDepth root) (leftmostSymbol root)) := by
  rw [unpackBits_packBits, decodeText, decodeLoop_encoded root hfull hleaf text htext,
    decodeLoop_zeros root hfull hleaf]
  simp

/-- Claim C19: in `main.cpp`, for an input `B` with at least two distinct byte values, whatever
node of least frequency `top()` picks and whatever the enumeration order of the map, decoding
the bits written by `writeBitsToFile` and read back by `readBitsFromFile` with the tree of the
compressor gives `B` followed by exactly `floor(p / d)` copies of the symbol of the leftmost
leaf, with `p = (8 - m mod 8) mod 8` padding bits for the `m` encoded bits and `d >= 1` the
depth of the leftmost leaf; at most 7 symbols follow `B`. The same holds in `huffman.cpp` for
`decodeText` on the unpacked payload with the tree of the compressor. -/
theorem padding_decodes_to_leftmost (extract : List Node → Option (Node × List Node))
    (hx : MainCpp.ExtractsMin extract) (iter : FreqMap → FreqMap) (hiter : Enumerates iter)
    (B : List Nat) (h2 : 2 ≤ (countFrequencies B).length) :
    (∃ root encodedText, MainCpp.buildTree extract (iter (countFrequencies B)) = .ok root
        ∧ MainCpp.encodeText B (MainCpp.generateCodes root [] []) = .ok encodedText
        ∧ 1 ≤ leftmostDepth root
        ∧ (8 - encodedText.length % 8) % 8 / leftmostDepth root ≤ 7
        ∧ MainCpp.main extract iter B
            = .ok (B ++ List.replicate ((8 - encodedText.length % 8) % 8 / leftmostDepth root)
                (leftmostSymbol root)))
      ∧ ∃ root g bitstring, buildHuffmanTree 0 (iter (countFrequencies B)) = .ok (root, g)
        ∧ encodeText B (generateCodes root [] []) = .ok bitstring
        ∧ 1 ≤ leftmostDepth root
        ∧ decodeText (unpackBits (packBits bitstring)) root
            = .ok (B ++ List.replicate ((8 - bitstring.length % 8) % 8 / leftmostDepth root)
                (leftmostSymbol root)) := by
  have hB : B ≠ [] := by
    rintro rfl
    simp [countFrequencies] at h2
  obtain ⟨hnd, hmem, _⟩ := countFrequencies_spec B
  have hbound : ∀ m d : Nat, 1 ≤ d → (8 - m % 8) % 8 / d ≤ 7 := by
    intro m d hd
    exact le_trans (Nat.div_le_self _ _) (by omega)
  constructor
  · have hne : iter (countFrequencies B) ≠ [] := by
      intro h0
      have hp := (hiter (countFrequencies B)).length_eq
      rw [h0] at hp
      simp at hp
      omega
    obtain ⟨root, hb, hfull, hperm⟩ := mainCpp_buildTree_spec extract hx _ hne
    have hleaf : root.isLeaf = false :=
      isLeaf_false_of_length (by rw [hperm.length_eq, (hiter _).length_eq]; exact h2)
    have hkeys : ((leafCodes root).map Prod.fst).Perm ((countFrequencies B).map Prod.fst) := by
      rw [leafCodes_keys]
      exact (hperm.trans (hiter _)).map Prod.fst
    have hgen : generateCodes root [] [] = leafCodes root :=
      generateCodes_of_nodup root (hkeys.nodup_iff.mpr hnd)
    have htext : ∀ c ∈ B, c ∈ (leafCodes root).map Prod.fst :=
      fun c hc => hkeys.mem_iff.mpr ((hmem c).mpr hc)
    have henc := encodeText_ok B (leafCodes root) htext
    have hd := leftmostDepth_pos hleaf hfull.ne_null
    refine ⟨root, B.flatMap (fun c => (find (leafCodes root) c).getD []), hb, ?_, hd,
      hbound _ _ hd, ?_⟩
    · rw [mainCpp_generateCodes_eq, mainCpp_encodeText_eq, hgen]
      exact henc
    · simp only [MainCpp.main, hB, if_false, hb, mainCpp_generateCodes_eq,
        mainCpp_encodeText_eq, hgen, henc, mainCpp_decodeText_eq]
      exact decodeText_padded root hfull hleaf B htext
  · obtain ⟨root, g, hb, hfull, hperm, hgen, henc, _⟩ := compress_ok iter hiter B hB
    have hleaf : root.isLeaf = false :=
      isLeaf_false_of_length (by rw [hperm.length_eq, (hiter _).length_eq]; exact h2)
    have hkeys : ((leafCodes root).map Prod.fst).Perm ((countFrequencies B).map Prod.fst) := by
      rw [leafCodes_keys]
      exact (hperm.trans (hiter _)).map Prod.fst
    exact ⟨root, g, _, hb, by rw [hgen]; exact henc, leftmostDepth_pos hleaf hfull.ne_null,
      decodeText_padded root hfull hleaf B (fun c hc => hkeys.mem_iff.mpr ((hmem c).mpr hc))⟩

theorem mainCpp_compare_false {a b : Node} (h : MainCpp.Compare a b = false) :
    a.freq ≤ b.freq := by
  simpa [MainCpp.Compare] using h

theorem extractFirstMin_spec (queue : List Node) (hne : queue ≠ []) :
    ∃ x rest, extractFirstMin queue = some (x, rest) ∧ queue.Perm (x :: rest)
      ∧ ∀ y ∈ rest, MainCpp.Compare x y = false := by
  induction queue with
  | nil => exact absurd rfl hne
  | cons x rest ih =>
      cases rest with
      | nil => exact ⟨x, [], rfl, List.Perm.refl _, by simp⟩
      | cons z tail =>
          obtain ⟨y, others, he, hp, hmin⟩ := ih (by simp)
          by_cases hc : MainCpp.Compare x y = true
          · refine ⟨y, x :: others, by rw [extractFirstMin, he]; simp [hc], ?_, ?_⟩
            · exact (hp.cons x).trans (List.Perm.swap y x others)
            · intro w hw
              rcases List.mem_cons.mp hw with h | h
              · rw [h]
                have : x.freq > y.freq := by simpa [MainCpp.Compare] using hc
                simp only [MainCpp.Compare, decide_eq_false_iff_not, not_lt]
                exact le_of_lt this
              · exact hmin w h
          · have hc' : MainCpp.Compare x y = false := by simpa using hc
            refine ⟨x, z :: tail, by rw [extractFirstMin, he]; simp [hc'],
              List.Perm.refl _, ?_⟩
            intro w hw
            have hxy := mainCpp_compare_false hc'
            simp only [MainCpp.Compare, decide_eq_false_iff_not, not_lt]
            rcases List.mem_cons.mp (hp.subset hw) with h | h
            · rw [h]; exact hxy
            · exact le_trans hxy (mainCpp_compare_false (hmin w h))

theorem extractsMin_extractFirstMin : MainCpp.ExtractsMin extractFirstMin :=
  ⟨rfl, extractFirstMin_spec⟩

theorem padding_decodes_to_leftmost_witness :
    (∃ root encodedText, MainCpp.buildTree extractFirstMin (id (countFrequencies [97, 98]))
          = .ok root
        ∧ MainCpp.encodeText [97, 98] (MainCpp.generateCodes root [] []) = .ok encodedText
        ∧ 1 ≤ leftmostDepth root
        ∧ (8 - encodedText.length % 8) % 8 / leftmostDepth root ≤ 7
        ∧ MainCpp.main extractFirstMin id [97, 98]
            = .ok ([97, 98] ++ List.replicate
                ((8 - encodedText.length % 8) % 8 / leftmostDepth root) (leftmostSymbol root)))
      ∧ ∃ root g bitstring, buildHuffmanTree 0 (id (countFrequencies [97, 98])) = .ok (root, g)
        ∧ encodeText [97, 98] (generateCodes root [] []) = .ok bitstring
        ∧ 1 ≤ leftmostDepth root
        ∧ decodeText (unpackBits (packBits bitstring)) root
            = .ok ([97, 98] ++ List.replicate
                ((8 - bitstring.length % 8) % 8 / leftmostDepth root) (leftmostSymbol root)) :=
  padding_decodes_to_leftmost extractFirstMin extractsMin_extractFirstMin id
    (fun _ => List.Perm.refl _) [97, 98] (by decide)

/-! ## The empty input -/

/-- Claim C11, evaluation: with an empty table `buildHuffmanTree` takes `top()` of an empty
queue, which is undefined behaviour and no error result; the branch `-c` of `huffman.cpp`
reaches that call for an empty input, while `main.cpp` tests `text.empty()` and returns 1
before it builds anything. -/
theorem empty_input_not_rejected (globalId : Nat) (iter : FreqMap → FreqMap)
    (hiter : Enumerates iter) (extract : List Node → Option (Node × List Node)) :
    buildHuffmanTree globalId [] = .error .undefined
      ∧ countFrequencies [] = []
      ∧ compress iter [] = .error .undefined
      ∧ MainCpp.main extract iter [] = .error (.exitFailure "Input file is empty.") := by
  have hnil : iter [] = [] := List.perm_nil.mp (hiter [])
  refine ⟨rfl, rfl, ?_, rfl⟩
  have hc : countFrequencies [] = [] := rfl
  simp only [compress, hc, hnil]
  rfl

theorem empty_input_not_rejected_witness :
    buildHuffmanTree 0 [] = .error .undefined
      ∧ countFrequencies [] = []
      ∧ compress id [] = .error .undefined
      ∧ MainCpp.main extractFirstMin id [] = .error (.exitFailure "Input file is empty.") :=
  empty_input_not_rejected 0 id (fun _ => List.Perm.refl _) extractFirstMin

/-! ## The starting value of the id counter -/

theorem wrapInt_add_of_lt (c k : Nat) (h : c + k < 2147483648) :
    wrapInt ((c + k : Nat) : Int) = wrapInt (c : Int) + (k : Int) := by
  unfold wrapInt
  push_cast
  omega

theorem shiftIds_ne_null {k : Nat} {t : Node} (h : t ≠ .null) : shiftIds k t ≠ .null := by
  cases t with
  | null => exact absurd rfl h
  | mk _ _ _ _ _ => exact Node.noConfusion

theorem compare_shiftIds (k : Nat) (a b : Node) (ha : a ≠ .null) (hb : b ≠ .null) :
    Compare (shiftIds k a) (shiftIds k b) = Compare a b := by
  cases a with
  | null => exact absurd rfl ha
  | mk ca fa la ra ia =>
      cases b with
      | null => exact absurd rfl hb
      | mk cb fb lb rb ib =>
          simp only [Compare, shiftIds, Node.freq, Node.id]
          by_cases hf : fa = fb
          · simp only [hf, if_true]
            by_cases hi : ia > ib
            · have : ia + (k : Int) > ib + (k : Int) := by omega
              simp [hi, this]
            · have : ¬ ia + (k : Int) > ib + (k : Int) := by omega
              simp [hi, this]
          · simp only [hf, if_false]

theorem push_shiftIds (k : Nat) (minHeap : List Node) (n : Node)
    (hheap : ∀ t ∈ minHeap, t ≠ .null) (hn : n ≠ .null) :
    push (minHeap.map (shiftIds k)) (shiftIds k n) = (push minHeap n).map (shiftIds k) := by
  induction minHeap with
  | nil => rfl
  | cons x rest ih =>
      have hx : x ≠ .null := hheap x (List.mem_cons_self _ _)
      simp only [List.map_cons, push, compare_shiftIds k x n hx hn]
      by_cases hc : Compare x n = true
      · simp [hc]
      · simp only [hc, Bool.false_eq_true, if_false, List.map_cons,
          ih (fun t ht => hheap t (List.mem_cons_of_mem _ ht))]

theorem push_ne_null (minHeap : List Node) (n : Node) (hheap : ∀ t ∈ minHeap, t ≠ .null)
    (hn : n ≠ .null) : ∀ t ∈ push minHeap n, t ≠ .null := by
  intro t ht
  rcases List.mem_cons.mp ((push_perm minHeap n).subset ht) with h | h
  · rw [h]; exact hn
  · exact hheap t h

/-- While the counter stays below `2 ^ 31`, the leaves pushed from the state `globalId + k`
are the leaves pushed from the state `globalId` with every id raised by `k`. -/
theorem pushLeaves_shiftIds (k : Nat) (entries : List (Nat × Int)) (globalId : Nat)
    (minHeap : List Node) (hheap : ∀ t ∈ minHeap, t ≠ .null)
    (hb : ∀ j, j < entries.length → globalId + k + j < 2147483648) :
    pushLeaves entries (globalId + k) (minHeap.map (shiftIds k))
        = ((pushLeaves entries globalId minHeap).1.map (shiftIds k),
            (pushLeaves entries globalId minHeap).2 + k)
      ∧ ∀ t ∈ (pushLeaves entries globalId minHeap).1, t ≠ .null := by
  induction entries generalizing globalId minHeap with
  | nil => exact ⟨rfl, hheap⟩
  | cons e rest ih =>
      obtain ⟨ch, freq⟩ := e
      have hleaf : Node.mk ch freq .null .null (wrapInt globalId) ≠ .null := Node.noConfusion
      have h0 : globalId + k < 2147483648 := by
        have := hb 0 (by simp)
        omega
      have hs : Node.mk ch freq .null .null (wrapInt ((globalId + k : Nat) : Int))
          = shiftIds k (.mk ch freq .null .null (wrapInt globalId)) := by
        rw [wrapInt_add_of_lt globalId k h0]
        rfl
      have h := ih (globalId + 1) (push minHeap (.mk ch freq .null .null (wrapInt globalId)))
        (push_ne_null _ _ hheap hleaf) (by
          intro j hj
          have := hb (j + 1) (by simp only [List.length_cons]; omega)
          omega)
      simp only [pushLeaves]
      rw [hs, push_shiftIds k _ _ hheap hleaf, show globalId + k + 1 = globalId + 1 + k by omega]
      exact h

theorem mergeNodes_shiftIds (k : Nat) (left right : Node) (globalId : Nat)
    (hl : left ≠ .null) (hr : right ≠ .null) (h : globalId + k < 2147483648) :
    mergeNodes (shiftIds k left) (shiftIds k right) (globalId + k)
      = shiftIds k (mergeNodes left right globalId) := by
  cases left with
  | null => exact absurd rfl hl
  | mk _ _ _ _ _ =>
      cases right with
      | null => exact absurd rfl hr
      | mk _ _ _ _ _ =>
          simp only [mergeNodes, shiftIds, Node.freq, wrapInt_add_of_lt globalId k h]

theorem mergeRounds_shiftIds (k : Nat) (rounds globalId : Nat) (minHeap : List Node)
    (hheap : ∀ t ∈ minHeap, t ≠ .null)
    (hb : ∀ j, j + 1 < minHeap.length → globalId + k + j < 2147483648) :
    mergeRounds rounds (globalId + k) (minHeap.map (shiftIds k))
      = ((mergeRounds rounds globalId minHeap).1.map (shiftIds k),
          (mergeRounds rounds globalId minHeap).2 + k) := by
  induction rounds generalizing globalId minHeap with
  | zero => cases minHeap <;> rfl
  | succ r ih =>
      match minHeap, hheap, hb with
      | [], _, _ => rfl
      | [x], _, _ => rfl
      | left :: right :: rest, hheap, hb =>
          have hl : left ≠ .null := hheap left (by simp)
          have hr : right ≠ .null := hheap right (by simp)
          have h0 : globalId + k < 2147483648 := by
            have := hb 0 (by simp)
            omega
          have hmn : mergeNodes left right globalId ≠ .null := by simp [mergeNodes]
          simp only [List.map_cons, mergeRounds]
          rw [mergeNodes_shiftIds k left right globalId hl hr h0,
            push_shiftIds k rest _ (fun t ht => hheap t (by simp [ht])) hmn,
            show globalId + k + 1 = globalId + 1 + k by omega]
          exact ih (globalId + 1) _ (push_ne_null _ _ (fun t ht => hheap t (by simp [ht])) hmn)
            (by
              intro j hj
              rw [length_push] at hj
              have := hb (j + 1) (by simp only [List.length_cons]; omega)
              omega)

/-- While the counter stays below `2 ^ 31`, `buildHuffmanTree` started in the state
`globalId + k` builds the tree it builds from the state `globalId` with every id raised by
`k`. -/
theorem buildHuffmanTree_shiftIds (k globalId : Nat) (freqMap : List (Nat × Int))
    (hb : globalId + k + freqMap.length + (freqMap.length - 1) ≤ 2147483648) :
    buildHuffmanTree (globalId + k) freqMap
      = match buildHuffmanTree globalId freqMap with
        | .error e => .error e
        | .ok (root, g) => .ok (shiftIds k root, g + k) := by
  obtain ⟨h1, h2⟩ := pushLeaves_shiftIds k freqMap globalId [] (by simp)
    (by intro j hj; omega)
  have h3 := mergeRounds_shiftIds k (pushLeaves freqMap globalId []).1.length
    (pushLeaves freqMap globalId []).2 (pushLeaves freqMap globalId []).1 h2 (by
      intro j hj
      rw [length_pushLeaves] at hj
      rw [pushLeaves_counter]
      simp only [List.length_nil] at hj
      omega)
  simp only [List.map_nil] at h1
  unfold buildHuffmanTree mergeLoop
  simp only [h1, List.length_map, h3]
  cases hres : mergeRounds (pushLeaves freqMap globalId []).1.length
      (pushLeaves freqMap globalId []).2 (pushLeaves freqMap globalId []).1 with
  | mk heap g =>
      cases heap with
      | nil => rfl
      | cons root rest => rfl

theorem isLeaf_shiftIds (k : Nat) (t : Node) : (shiftIds k t).isLeaf = t.isLeaf := by
  cases t with
  | null => rfl
  | mk ch f left right i =>
      cases left <;> cases right <;> rfl

theorem generateCodes_shiftIds (k : Nat) (t : Node) (path : List Bool) (codes : CodeMap) :
    generateCodes (shiftIds k t) path codes = generateCodes t path codes := by
  induction t generalizing path codes with
  | null => rfl
  | mk ch f left right i ihl ihr =>
      have hl := isLeaf_shiftIds k (.mk ch f left right i)
      simp only [shiftIds] at hl
      simp only [shiftIds, generateCodes, hl, ihl, ihr]

theorem compressFrom_eq (globalId : Nat) (iter : FreqMap → FreqMap) (text : List Nat)
    (hb : globalId + (iter (countFrequencies text)).length
      + ((iter (countFrequencies text)).length - 1) ≤ 2147483648) :
    compressFrom globalId iter text
      = match compressFrom 0 iter text with
        | .error e => .error e
        | .ok (file, g) => .ok (file, g + globalId) := by
  have hb' := buildHuffmanTree_shiftIds globalId 0 (iter (countFrequencies text))
    (by omega)
  rw [Nat.zero_add] at hb'
  unfold compressFrom
  simp only [hb']
  generalize buildHuffmanTree 0 (iter (countFrequencies text)) = r
  cases r with
  | error e => rfl
  | ok r =>
      obtain ⟨root, g⟩ := r
      simp only [generateCodes_shiftIds]
      generalize encodeText text (generateCodes root [] []) = r'
      cases r' <;> rfl

theorem compressFrom_zero (iter : FreqMap → FreqMap) (text : List Nat) :
    (compressFrom 0 iter text).map Prod.fst = compress iter text := by
  unfold compressFrom compress
  dsimp only
  generalize buildHuffmanTree 0 (iter (countFrequencies text)) = r
  cases r with
  | error e => rfl
  | ok r =>
      obtain ⟨root, g⟩ := r
      dsimp only
      generalize encodeText text (generateCodes root [] []) = r'
      cases r' <;> rfl

/-- The state of the counter after `buildHuffmanTree`: one increment per leaf and per merge. -/
theorem buildHuffmanTree_counter (globalId : Nat) (freqMap : List (Nat × Int)) (root : Node)
    (g : Nat) (h : buildHuffmanTree globalId freqMap = .ok (root, g)) :
    g = globalId + freqMap.length + (freqMap.length - 1) := by
  have h1 := mergeLoop_counter (pushLeaves freqMap globalId []).2
    (pushLeaves freqMap globalId []).1
  rw [pushLeaves_counter, length_pushLeaves] at h1
  simp only [List.length_nil, Nat.zero_add] at h1
  unfold buildHuffmanTree at h
  dsimp only at h
  rw [pushLeaves_counter] at h
  generalize mergeLoop (globalId + freqMap.length) (pushLeaves freqMap globalId []).1 = r at h h1
  obtain ⟨heap, g'⟩ := r
  cases heap with
  | nil => simp at h
  | cons x rest =>
      simp only [Except.ok.injEq, Prod.mk.injEq] at h
      rw [← h.2]
      exact h1

theorem compressFrom_counter (globalId : Nat) (iter : FreqMap → FreqMap) (text : List Nat)
    (file : List Nat) (g : Nat) (h : compressFrom globalId iter text = .ok (file, g)) :
    g = globalId + (iter (countFrequencies text)).length
      + ((iter (countFrequencies text)).length - 1) := by
  unfold compressFrom at h
  dsimp only at h
  cases hb : buildHuffmanTree globalId (iter (countFrequencies text)) with
  | error e => rw [hb] at h; simp at h
  | ok r =>
      obtain ⟨root, g'⟩ := r
      rw [hb] at h
      dsimp only at h
      cases he : encodeText text (generateCodes root [] []) with
      | error e => rw [he] at h; simp at h
      | ok bits =>
          rw [he] at h
          simp only [Except.ok.injEq, Prod.mk.injEq] at h
          rw [← h.2]
          exact buildHuffmanTree_counter _ _ _ _ hb

/-- The table of a sequence of bytes has at most 256 entries. -/
theorem length_countFrequencies_le (B : List Nat) (hbytes : ∀ c ∈ B, c < 256) :
    (countFrequencies B).length ≤ 256 := by
  obtain ⟨hnd, hmem, _⟩ := countFrequencies_spec B
  have hsub : (countFrequencies B).map Prod.fst ⊆ List.range 256 := by
    intro c hc
    exact List.mem_range.mpr (hbytes c ((hmem c).mp hc))
  have := (List.subperm_of_subset hnd hsub).length_le
  simpa using this

/-- Claim C12, counterexample: when the counter holds `2 ^ 31 - 1` at the start, the id of
the second leaf wraps to `-2 ^ 31`, the tie between the two leaves of `ab` is broken the other
way and the container differs from the one written in a fresh process (shown for a map
enumerated in reverse insertion order and for one enumerated in insertion order). -/
theorem id_counter_overflow :
    compressFrom 0 List.reverse [97, 98]
        = .ok ([2, 98, 1, 0, 0, 0, 97, 1, 0, 0, 0, 128], 3)
      ∧ compressFrom 2147483647 List.reverse [97, 98]
        = .ok ([2, 98, 1, 0, 0, 0, 97, 1, 0, 0, 0, 64], 2147483650)
      ∧ compressFrom 0 id [97, 98] = .ok ([2, 97, 1, 0, 0, 0, 98, 1, 0, 0, 0, 64], 3)
      ∧ compressFrom 2147483647 id [97, 98]
        = .ok ([2, 97, 1, 0, 0, 0, 98, 1, 0, 0, 0, 128], 2147483650)
      ∧ buildHuffmanTree 2147483647 [(98, 1), (97, 1)]
        = .ok (.mk 0 2 (.mk 97 1 .null .null (-2147483648))
            (.mk 98 1 .null .null 2147483647) (-2147483647), 2147483650) :=
  ⟨rfl, rfl, rfl, rfl, rfl⟩

/-- Claim C12, amended: for every sequence of bytes `B`, compressing `B` yields the same
container from every state of the creation-order counter from which the counter does not pass
`2 ^ 31` during the run (no id overflows `int`), in particular in a fresh process and when a
second run starts from the state the first run left behind; the tree then differs only by a
shift of all ids, and the codes are the same. -/
theorem compress_deterministic (iter : FreqMap → FreqMap) (hiter : Enumerates iter)
    (B : List Nat) (hbytes : ∀ c ∈ B, c < 256) (globalId : Nat)
    (hb : globalId + (countFrequencies B).length + ((countFrequencies B).length - 1)
      ≤ 2147483648) :
    (compressFrom globalId iter B).map Prod.fst = compress iter B
      ∧ (compressFrom 0 iter B).map Prod.fst = compress iter B
      ∧ (∀ file g₁, compressFrom 0 iter B = .ok (file, g₁)
          → compressFrom g₁ iter B = .ok (file, g₁ + g₁))
      ∧ (∀ root g₁, buildHuffmanTree 0 (iter (countFrequencies B)) = .ok (root, g₁)
          → buildHuffmanTree globalId (iter (countFrequencies B))
              = .ok (shiftIds globalId root, g₁ + globalId)
            ∧ generateCodes (shiftIds globalId root) [] [] = generateCodes root [] []) := by
  have hlen : (iter (countFrequencies B)).length = (countFrequencies B).length :=
    (hiter _).length_eq
  have hle := length_countFrequencies_le B hbytes
  refine ⟨?_, compressFrom_zero iter B, ?_, ?_⟩
  · rw [compressFrom_eq globalId iter B (by rw [hlen]; exact hb), ← compressFrom_zero]
    cases compressFrom 0 iter B with
    | error e => rfl
    | ok r => rfl
  · intro file g₁ h
    have hg := compressFrom_counter 0 iter B file g₁ h
    rw [hlen] at hg
    rw [compressFrom_eq g₁ iter B (by rw [hlen]; omega), h]
  · intro root g₁ h
    have hb' := buildHuffmanTree_shiftIds globalId 0 (iter (countFrequencies B))
      (by rw [hlen]; omega)
    rw [Nat.zero_add, h] at hb'
    exact ⟨hb', generateCodes_shiftIds _ _ _ _⟩

theorem compress_deterministic_witness :
    (compressFrom 3 List.reverse [97, 98]).map Prod.fst = compress List.reverse [97, 98]
      ∧ (compressFrom 0 List.reverse [97, 98]).map Prod.fst = compress List.reverse [97, 98]
      ∧ (∀ file g₁, compressFrom 0 List.reverse [97, 98] = .ok (file, g₁)
          → compressFrom g₁ List.reverse [97, 98] = .ok (file, g₁ + g₁))
      ∧ (∀ root g₁,
          buildHuffmanTree 0 (List.reverse (countFrequencies [97, 98])) = .ok (root, g₁)
          → buildHuffmanTree 3 (List.reverse (countFrequencies [97, 98]))
              = .ok (shiftIds 3 root, g₁ + 3)
            ∧ generateCodes (shiftIds 3 root) [] [] = generateCodes root [] []) :=
  compress_deterministic List.reverse (fun m => List.reverse_perm m) [97, 98] (by decide) 3
    (by decide)

/-! ## The decompressor on the output of the compressor -/

/-- Claim C6, counterexample: with the map enumerated in reverse insertion order, for the
input `ab` the header frequencies sum to 2, the payload byte carries 2 code bits and 6 padding
bits, and the decompressor emits the 8 symbols `baaaaaaa`; for the input `aab` the header
frequencies sum to 3, the payload byte carries 3 code bits and 5 padding bits, and the
decompressor emits the 8 symbols `aabbbbbb`. -/
theorem padding_is_decoded :
    compress List.reverse [97, 98] = .ok [2, 98, 1, 0, 0, 0, 97, 1, 0, 0, 0, 128]
      ∧ readCompressedFile (fun _ => 0) (some [2, 98, 1, 0, 0, 0, 97, 1, 0, 0, 0, 128])
          = .ok ([(98, 1), (97, 1)], [true, false, false, false, false, false, false, false])
      ∧ decompress List.reverse (fun _ => 0) (some [2, 98, 1, 0, 0, 0, 97, 1, 0, 0, 0, 128])
          = .ok [98, 97, 97, 97, 97, 97, 97, 97]
      ∧ compress List.reverse [97, 97, 98] = .ok [2, 98, 1, 0, 0, 0, 97, 2, 0, 0, 0, 192]
      ∧ readCompressedFile (fun _ => 0) (some [2, 98, 1, 0, 0, 0, 97, 2, 0, 0, 0, 192])
          = .ok ([(98, 1), (97, 2)], [true, true, false, false, false, false, false, false])
      ∧ decompress List.reverse (fun _ => 0) (some [2, 98, 1, 0, 0, 0, 97, 2, 0, 0, 0, 192])
          = .ok [97, 97, 98, 98, 98, 98, 98, 98] :=
  ⟨rfl, rfl, rfl, rfl, rfl, rfl⟩

/-- Claim C6, amended: `decodeText` has no stopping condition. For an input `B` with 2 to 255
distinct byte values and every enumeration order of the two maps, the decompressor recovers
the table of the header and the code bits followed by the `(8 - m mod 8) mod 8` zero padding
bits, rebuilds a tree from the table and decodes every one of these bits with it, padding
included. When the rebuilt tree assigns the codes of the compressor, the output is `B`
followed by the symbols decoded from the padding alone: `(padding bits) / d` copies of the
symbol of the leftmost leaf, `d ≥ 1` its depth. -/
theorem decoder_consumes_padding (iter₁ iter₂ : FreqMap → FreqMap) (h₁ : Enumerates iter₁)
    (h₂ : Enumerates iter₂) (uninit : Nat → Int) (B : List Nat)
    (hmin : 2 ≤ (countFrequencies B).length) (hmax : (countFrequencies B).length ≤ 255) :
    ∃ file root₁ g₁ bits root₂ g₂ out, compress iter₁ B = .ok file
      ∧ buildHuffmanTree 0 (iter₁ (countFrequencies B)) = .ok (root₁, g₁)
      ∧ encodeText B (generateCodes root₁ [] []) = .ok bits
      ∧ readCompressedFile uninit (some file)
          = .ok (iter₁ (countFrequencies B),
              bits ++ List.replicate ((8 - bits.length % 8) % 8) false)
      ∧ buildHuffmanTree 0 (iter₂ (iter₁ (countFrequencies B))) = .ok (root₂, g₂)
      ∧ decodeText (bits ++ List.replicate ((8 - bits.length % 8) % 8) false) root₂ = .ok out
      ∧ decompress iter₂ uninit (some file) = .ok out
      ∧ (generateCodes root₂ [] [] = generateCodes root₁ [] []
          → 1 ≤ leftmostDepth root₂
            ∧ decodeText (List.replicate ((8 - bits.length % 8) % 8) false) root₂
              = .ok (List.replicate ((8 - bits.length % 8) % 8 / leftmostDepth root₂)
                  (leftmostSymbol root₂))
            ∧ out = B ++ List.replicate ((8 - bits.length % 8) % 8 / leftmostDepth root₂)
                  (leftmostSymbol root₂)) := by
  have hB : B ≠ [] := by
    rintro rfl
    simp [countFrequencies] at hmin
  obtain ⟨hnd, hmem, hrange⟩ := countFrequencies_spec B
  obtain ⟨root₁, g₁, hb₁, hfull₁, hperm₁, hgen₁, henc, hc⟩ := compress_ok iter₁ h₁ B hB
  have hlen₁ : (iter₁ (countFrequencies B)).length = (countFrequencies B).length :=
    (h₁ _).length_eq
  have hlen₂ : (iter₂ (iter₁ (countFrequencies B))).length = (countFrequencies B).length :=
    (h₂ _).length_eq.trans hlen₁
  have hne₂ : iter₂ (iter₁ (countFrequencies B)) ≠ [] := by
    intro h0
    rw [h0] at hlen₂
    simp only [List.length_nil] at hlen₂
    omega
  obtain ⟨root₂, g₂, hb₂, hfull₂, hperm₂⟩ := buildHuffmanTree_spec 0 _ hne₂
  have hleaf₂ : root₂.isLeaf = false :=
    isLeaf_false_of_length (by rw [hperm₂.length_eq, hlen₂]; exact hmin)
  have hkeys₂ : ((leafCodes root₂).map Prod.fst).Perm ((countFrequencies B).map Prod.fst) := by
    rw [leafCodes_keys]
    exact ((hperm₂.trans (h₂ _)).trans (h₁ _)).map Prod.fst
  have hread := readCompressedFile_writeCompressedFile uninit (iter₁ (countFrequencies B))
    (B.flatMap (fun c => (find (leafCodes root₁) c).getD []))
    (((h₁ _).map Prod.fst).nodup_iff.mpr hnd) (by omega)
    (fun e he => hrange e ((h₁ _).subset he))
  rw [unpackBits_packBits] at hread
  obtain ⟨out, hout⟩ := decodeLoop_ok root₂ hfull₂ hleaf₂
    (B.flatMap (fun c => (find (leafCodes root₁) c).getD [])
      ++ List.replicate
        ((8 - (B.flatMap (fun c => (find (leafCodes root₁) c).getD [])).length % 8) % 8) false)
    root₂ hfull₂ hleaf₂ []
  have hdec : decodeText (B.flatMap (fun c => (find (leafCodes root₁) c).getD [])
      ++ List.replicate
        ((8 - (B.flatMap (fun c => (find (leafCodes root₁) c).getD [])).length % 8) % 8) false)
      root₂ = .ok out := hout
  refine ⟨_, root₁, g₁, _, root₂, g₂, out, hc, hb₁, by rw [hgen₁]; exact henc, hread, hb₂,
    hdec, ?_, ?_⟩
  · simp only [decompress, hread, hb₂]
    exact hdec
  · intro hcodes
    have hl : leafCodes root₂ = leafCodes root₁ := by
      rw [← generateCodes_of_nodup root₂ (hkeys₂.nodup_iff.mpr hnd), hcodes, hgen₁]
    have hne : root₂ ≠ .null := by
      intro h0
      rw [h0] at hfull₂
      cases hfull₂
    have hz := decodeLoop_zeros root₂ hfull₂ hleaf₂
    refine ⟨leftmostDepth_pos hleaf₂ hne, ?_, ?_⟩
    · have := hz ((8 - (B.flatMap (fun c => (find (leafCodes root₁) c).getD [])).length % 8) % 8)
        []
      rw [List.nil_append] at this
      exact this
    · have h3 := decodeLoop_encoded root₂ hfull₂ hleaf₂ B
        (fun c hc => hkeys₂.mem_iff.mpr ((hmem c).mpr hc))
        (List.replicate
          ((8 - (B.flatMap (fun c => (find (leafCodes root₁) c).getD [])).length % 8) % 8) false)
        []
      rw [hl, List.nil_append, hz] at h3
      have h4 : Except.ok out = (Except.ok (B ++ List.replicate
          ((8 - (B.flatMap (fun c => (find (leafCodes root₁) c).getD [])).length % 8) % 8
            / leftmostDepth root₂) (leftmostSymbol root₂)) : Except Fault (List Nat)) :=
        hout.symm.trans h3
      exact Except.ok.inj h4

theorem decoder_consumes_padding_witness :
    (∃ file root₁ g₁ bits root₂ g₂ out, compress List.reverse [97, 97, 98] = .ok file
      ∧ buildHuffmanTree 0 (List.reverse (countFrequencies [97, 97, 98])) = .ok (root₁, g₁)
      ∧ encodeText [97, 97, 98] (generateCodes root₁ [] []) = .ok bits
      ∧ readCompressedFile (fun _ => 0) (some file)
          = .ok (List.reverse (countFrequencies [97, 97, 98]),
              bits ++ List.replicate ((8 - bits.length % 8) % 8) false)
      ∧ buildHuffmanTree 0 (List.reverse (List.reverse (countFrequencies [97, 97, 98])))
          = .ok (root₂, g₂)
      ∧ decodeText (bits ++ List.replicate ((8 - bits.length % 8) % 8) false) root₂ = .ok out
      ∧ decompress List.reverse (fun _ => 0) (some file) = .ok out
      ∧ (generateCodes root₂ [] [] = generateCodes root₁ [] []
          → 1 ≤ leftmostDepth root₂
            ∧ decodeText (List.replicate ((8 - bits.length % 8) % 8) false) root₂
              = .ok (List.replicate ((8 - bits.length % 8) % 8 / leftmostDepth root₂)
                  (leftmostSymbol root₂))
            ∧ out = [97, 97, 98]
                ++ List.replicate ((8 - bits.length % 8) % 8 / leftmostDepth root₂)
                  (leftmostSymbol root₂)))
      ∧ generateCodes (Node.mk 0 3 (.mk 98 1 .null .null 1) (.mk 97 2 .null .null 0) 2) [] []
          = generateCodes (Node.mk 0 3 (.mk 98 1 .null .null 0) (.mk 97 2 .null .null 1) 2)
              [] []
      ∧ buildHuffmanTree 0 (List.reverse (countFrequencies [97, 97, 98]))
          = .ok (.mk 0 3 (.mk 98 1 .null .null 0) (.mk 97 2 .null .null 1) 2, 3)
      ∧ buildHuffmanTree 0 (List.reverse (List.reverse (countFrequencies [97, 97, 98])))
          = .ok (.mk 0 3 (.mk 98 1 .null .null 1) (.mk 97 2 .null .null 0) 2, 3) :=
  ⟨decoder_consumes_padding List.reverse List.reverse (fun m => List.reverse_perm m)
    (fun m => List.reverse_perm m) (fun _ => 0) [97, 97, 98] (by decide) (by decide),
    rfl, rfl, rfl⟩

end Huffman
